import Mathlib

/-!
Disk scheduling simulator (`src/2.c`): shallow embedding and verification

The C program simulates a rotating disk serving a list of requests under two
policies, FIFO and SSTF, and builds a histogram of the response times.

Modelling conventions.

* `double` values are exact rationals (`ℚ`); `fabs`, `fmax`, `fmod` are the
  exact functions.  The definitions whose name ends in `_double` embed the
  same lines with the rounding of `double`: every operation is the exact one
  followed by `round_double`, rounding to the nearest binary64 value.  `sqrt` is not rational: where the program stores a square
  root the model takes the square-root function as a parameter, and where it
  truncates one to `int` the model uses the integer square root.
* `int` values are `Int`, or `Nat` for counters that only count upwards from
  zero or are decremented under a positivity guard.  All counters are bounded
  by the number of requests, so 32-bit overflow is not modelled.
* Arrays are lists, `a[i]` is `List.getD`, `a[i] = v` is `List.set`.
* A division whose divisor is zero, and an array access outside the array,
  have no value in C; the model returns `none` there.
* Loops carry fuel.  The fuel `simulate_fifo` gives its loop suffices for
  every input (`simulate_fifo_spec`), the fuel `simulate_sstf` gives its loop
  suffices for every input whose requests arrive within the horizon at
  cylinders of the disk (`simulate_sstf_spec`).
* The scheduler states carry one ghost field, `log`, which records at every
  dispatch the index that was served and its service time
  `seek_time + rot_latency + transfer_time`.  Nothing in the model reads it.
* `generate_requests` takes the stream of values of `rand()` and `RAND_MAX` as
  parameters.  The median, the printing and `main` are not modelled.

The allocator of `src/1.c` is embedded in the namespace `MemPool` below, the
work splitting of `src/3.c` in the namespace `Trapezoid`.
-/

namespace DiskSim

/-! ## Constants (lines 7-17) -/

def CYLINDERS : Int := 500
def HEADS : Int := 4
def SECTORS_PER_TRACK : Int := 16
def SEEK_TIME_PER_CYLINDER : ℚ := 1 / 2
def RPM : ℚ := 10000
def SIMULATION_TIME : ℚ := 300000
def ROTATION_TIME : ℚ := 60000 / RPM
def SECTOR_TIME : ℚ := ROTATION_TIME / SECTORS_PER_TRACK

/-! ## Data model (lines 19-46) -/

structure DiskRequest where
  arrival_time : ℚ
  cylinder : Int
  head : Int
  sector : Int
  operation : Int
  num_sectors : Int
  start_time : ℚ
  completion_time : ℚ
deriving DecidableEq, Inhabited

/-- The record `SimulationStats`.  `avg_time` and `std_dev` are quotients by the
request count and are `none` when that count is zero.  `R` is the type of the
values of the square-root function. -/
structure SimulationStats (R : Type) where
  min_time : ℚ
  max_time : ℚ
  avg_time : Option ℚ
  std_dev : Option R
  max_queue_length : Nat
  total_idle_time : ℚ
  total_requests : Nat

structure HistogramBin where
  min : ℚ
  max : ℚ
  count : Nat
deriving DecidableEq, Inhabited

/-! ## Timing model (lines 48-61) -/

/-- C `fmod x y`: `x - y * trunc (x / y)`, truncation towards zero. -/
def fmod (x y : ℚ) : ℚ :=
  x - y * (if 0 ≤ x / y then ⌊x / y⌋ else ⌈x / y⌉)

def calculate_seek_time (current_cylinder target_cylinder : Int) : ℚ :=
  |((current_cylinder - target_cylinder : Int) : ℚ)| * SEEK_TIME_PER_CYLINDER

def calculate_rotational_latency (current_angle : ℚ) (target_sector : Int) : ℚ :=
  let target_angle : ℚ := target_sector * (360 / SECTORS_PER_TRACK)
  let angle_diff := fmod (target_angle - current_angle + 360) 360
  (angle_diff / 360) * ROTATION_TIME

def calculate_transfer_time (num_sectors operation : Int) : ℚ :=
  let base_time : ℚ := num_sectors * SECTOR_TIME
  if operation = 1 then base_time * 2 else base_time

/-- Checked division: `none` when the divisor is zero. -/
def fdiv (a b : ℚ) : Option ℚ :=
  if b = 0 then none else some (a / b)

/-! ## FIFO scheduler (lines 93-152) -/

/-- The local variables of `simulate_fifo` together with the request array it
mutates; `log` is the ghost dispatch log. -/
structure FifoState where
  requests : List DiskRequest
  current_time : ℚ
  current_cylinder : Int
  current_angle : ℚ
  queue_length : Nat
  max_queue_length : Nat
  total_idle_time : ℚ
  min_time : ℚ
  max_time : ℚ
  sum_time : ℚ
  sum_squared_time : ℚ
  request_index : Nat
  log : List (Int × ℚ)

/-- Lines 94-106: the initial values. -/
def fifo_init (requests : List DiskRequest) : FifoState :=
  { requests := requests
    current_time := 0
    current_cylinder := 0
    current_angle := 0
    queue_length := 0
    max_queue_length := 0
    total_idle_time := 0
    min_time := 1000000000
    max_time := 0
    sum_time := 0
    sum_squared_time := 0
    request_index := 0
    log := [] }

/-- Lines 109-112: the admission loop.  Every pass increments
`request_index`, so `total_requests - request_index` passes of fuel suffice. -/
def fifo_admission : Nat → FifoState → FifoState
  | 0, s => s
  | fuel + 1, s =>
    if s.request_index < s.requests.length ∧
        (s.requests.getD s.request_index default).arrival_time ≤ s.current_time then
      fifo_admission fuel
        { s with queue_length := s.queue_length + 1, request_index := s.request_index + 1 }
    else s

/-- Lines 118-137: serve the request at index `request_index - queue_length`. -/
def fifo_dispatch (s : FifoState) : FifoState :=
  let idx : Int := (s.request_index : Int) - (s.queue_length : Int)
  let req := s.requests.getD idx.toNat default
  let seek_time := calculate_seek_time s.current_cylinder req.cylinder
  let rot_latency := calculate_rotational_latency s.current_angle req.sector
  let transfer_time := calculate_transfer_time req.num_sectors req.operation
  let service_time := seek_time + rot_latency + transfer_time
  let start_time := s.current_time
  let completion_time := s.current_time + service_time
  let response_time := max 0 (completion_time - req.arrival_time)
  { requests := s.requests.set idx.toNat
      { req with start_time := start_time, completion_time := completion_time }
    current_time := completion_time
    current_cylinder := req.cylinder
    current_angle :=
      fmod (s.current_angle + (rot_latency + transfer_time) / ROTATION_TIME * 360) 360
    queue_length := s.queue_length - 1
    max_queue_length := s.max_queue_length
    total_idle_time := s.total_idle_time
    min_time := if response_time < s.min_time then response_time else s.min_time
    max_time := if response_time > s.max_time then response_time else s.max_time
    sum_time := s.sum_time + response_time
    sum_squared_time := s.sum_squared_time + response_time * response_time
    request_index := s.request_index
    log := s.log ++ [(idx, service_time)] }

/-- Lines 139-143: the queue is empty, jump to the next arrival. -/
def fifo_idle (s : FifoState) : FifoState :=
  let arrival := (s.requests.getD s.request_index default).arrival_time
  { s with
    total_idle_time := s.total_idle_time + (arrival - s.current_time)
    current_time := arrival }

/-- Lines 109-115: the admission loop and the update of the peak queue
length. -/
def fifo_enqueue (s : FifoState) : FifoState :=
  let s1 := fifo_admission (s.requests.length - s.request_index) s
  if s1.queue_length > s1.max_queue_length then
    { s1 with max_queue_length := s1.queue_length }
  else s1

/-- Lines 109-144: one pass of the outer loop body; `Sum.inl` continues the
loop and `Sum.inr` is `break`. -/
def fifo_body (s : FifoState) : FifoState ⊕ FifoState :=
  let s2 := fifo_enqueue s
  if s2.queue_length > 0 then Sum.inl (fifo_dispatch s2)
  else if s2.request_index < s2.requests.length then Sum.inl (fifo_idle s2)
  else Sum.inr s2

/-- Lines 108-145: the outer loop, `none` when the fuel runs out. -/
def fifo_loop : Nat → FifoState → Option FifoState
  | 0, _ => none
  | fuel + 1, s =>
    if s.request_index < s.requests.length then
      match fifo_body s with
      | Sum.inl s1 => fifo_loop fuel s1
      | Sum.inr s1 => some s1
    else some s

/-- Lines 93-145: the state in which `simulate_fifo` leaves its loop. -/
def simulate_fifo (requests : List DiskRequest) : Option FifoState :=
  fifo_loop (2 * requests.length + 2) (fifo_init requests)

/-- Lines 147-151: the statistics written to `*stats`. -/
def fifo_stats {R : Type} (sqrt : ℚ → R) (s : FifoState) : SimulationStats R :=
  let total_requests := s.requests.length
  let avg_time := fdiv s.sum_time total_requests
  { min_time := s.min_time
    max_time := s.max_time
    avg_time := avg_time
    std_dev := match avg_time, fdiv s.sum_squared_time total_requests with
      | some a, some q => some (sqrt (q - a * a))
      | _, _ => none
    max_queue_length := s.max_queue_length
    total_idle_time := s.total_idle_time
    total_requests := total_requests }

/-! ## SSTF scheduler (lines 155-242) -/

/-- The local variables of `simulate_sstf`, its two side arrays and the request
array it mutates; `log` is the ghost dispatch log. -/
structure SstfState where
  requests : List DiskRequest
  current_time : ℚ
  current_cylinder : Int
  current_angle : ℚ
  queue_length : Nat
  max_queue_length : Nat
  total_idle_time : ℚ
  in_queue : List Bool
  processed : List Bool
  min_time : ℚ
  max_time : ℚ
  sum_time : ℚ
  sum_squared_time : ℚ
  processed_count : Nat
  log : List (Nat × ℚ)

/-- Lines 156-171: the initial values; `calloc` zeroes both side arrays. -/
def sstf_init (requests : List DiskRequest) : SstfState :=
  { requests := requests
    current_time := 0
    current_cylinder := 0
    current_angle := 0
    queue_length := 0
    max_queue_length := 0
    total_idle_time := 0
    in_queue := List.replicate requests.length false
    processed := List.replicate requests.length false
    min_time := 1000000000
    max_time := 0
    sum_time := 0
    sum_squared_time := 0
    processed_count := 0
    log := [] }

/-- Lines 175-178: the body of the admission loop at index `i`. -/
def sstf_admission_at (s : SstfState) (i : Nat) : SstfState :=
  if s.in_queue.getD i false = false ∧ s.processed.getD i false = false ∧
      (s.requests.getD i default).arrival_time ≤ s.current_time then
    { s with in_queue := s.in_queue.set i true, queue_length := s.queue_length + 1 }
  else s

/-- Lines 174-179: the admission loop over `i = 0 .. total_requests - 1`. -/
def sstf_admission (s : SstfState) : SstfState :=
  (List.range s.requests.length).foldl sstf_admission_at s

/-- Lines 188-194: the body of the selection loop at index `i`, acting on the
pair `(closest_index, min_distance)`. -/
def sstf_select_at (s : SstfState) (acc : Int × Int) (i : Nat) : Int × Int :=
  if s.in_queue.getD i false = true ∧ s.processed.getD i false = false then
    let distance : Int := |s.current_cylinder - (s.requests.getD i default).cylinder|
    if distance < acc.2 then ((i : Int), distance) else acc
  else acc

/-- Lines 185-195: the selection loop, from `(-1, CYLINDERS + 1)`. -/
def sstf_select (s : SstfState) : Int × Int :=
  (List.range s.requests.length).foldl (sstf_select_at s) (-1, CYLINDERS + 1)

/-- Lines 199-221: serve the request at `closest_index`. -/
def sstf_dispatch (s : SstfState) (closest_index : Int) : SstfState :=
  let req := s.requests.getD closest_index.toNat default
  let seek_time := calculate_seek_time s.current_cylinder req.cylinder
  let rot_latency := calculate_rotational_latency s.current_angle req.sector
  let transfer_time := calculate_transfer_time req.num_sectors req.operation
  let service_time := seek_time + rot_latency + transfer_time
  let start_time := s.current_time
  let completion_time := s.current_time + service_time
  let response_time := max 0 (completion_time - req.arrival_time)
  { requests := s.requests.set closest_index.toNat
      { req with start_time := start_time, completion_time := completion_time }
    current_time := completion_time
    current_cylinder := req.cylinder
    current_angle :=
      fmod (s.current_angle + (rot_latency + transfer_time) / ROTATION_TIME * 360) 360
    queue_length := s.queue_length - 1
    max_queue_length := s.max_queue_length
    total_idle_time := s.total_idle_time
    in_queue := s.in_queue.set closest_index.toNat false
    processed := s.processed.set closest_index.toNat true
    min_time := if response_time < s.min_time then response_time else s.min_time
    max_time := if response_time > s.max_time then response_time else s.max_time
    sum_time := s.sum_time + response_time
    sum_squared_time := s.sum_squared_time + response_time * response_time
    processed_count := s.processed_count + 1
    log := s.log ++ [(closest_index.toNat, service_time)] }

/-- Lines 223-226: the earliest arrival among the requests not yet served,
`SIMULATION_TIME + 1` when there is none below that value. -/
def sstf_next_arrival (s : SstfState) : ℚ :=
  (List.range s.requests.length).foldl
    (fun next_arrival i =>
      if s.processed.getD i false = false ∧
          (s.requests.getD i default).arrival_time < next_arrival then
        (s.requests.getD i default).arrival_time
      else next_arrival)
    (SIMULATION_TIME + 1)

/-- Lines 174-182: the admission loop and the update of the peak queue
length. -/
def sstf_enqueue (s : SstfState) : SstfState :=
  let s1 := sstf_admission s
  if s1.queue_length > s1.max_queue_length then
    { s1 with max_queue_length := s1.queue_length }
  else s1

/-- Lines 174-231: one pass of the outer loop body; `Sum.inl` continues the
loop and `Sum.inr` is `break`. -/
def sstf_body (s : SstfState) : SstfState ⊕ SstfState :=
  let s2 := sstf_enqueue s
  if s2.queue_length > 0 then
    let closest_index := (sstf_select s2).1
    if closest_index = -1 then Sum.inr s2
    else Sum.inl (sstf_dispatch s2 closest_index)
  else
    let next_arrival := sstf_next_arrival s2
    if next_arrival ≤ SIMULATION_TIME then
      Sum.inl { s2 with
        total_idle_time := s2.total_idle_time + (next_arrival - s2.current_time)
        current_time := next_arrival }
    else Sum.inr s2

/-- Lines 173-232: the outer loop, `none` when the fuel runs out. -/
def sstf_loop : Nat → SstfState → Option SstfState
  | 0, _ => none
  | fuel + 1, s =>
    if s.processed_count < s.requests.length then
      match sstf_body s with
      | Sum.inl s1 => sstf_loop fuel s1
      | Sum.inr s1 => some s1
    else some s

/-- Lines 155-232: the state in which `simulate_sstf` leaves its loop. -/
def simulate_sstf (requests : List DiskRequest) : Option SstfState :=
  sstf_loop (2 * requests.length + 1) (sstf_init requests)

/-- Lines 234-238: the statistics written to `*stats`. -/
def sstf_stats {R : Type} (sqrt : ℚ → R) (s : SstfState) : SimulationStats R :=
  let avg_time := fdiv s.sum_time s.processed_count
  { min_time := s.min_time
    max_time := s.max_time
    avg_time := avg_time
    std_dev := match avg_time, fdiv s.sum_squared_time s.processed_count with
      | some a, some q => some (sqrt (q - a * a))
      | _, _ => none
    max_queue_length := s.max_queue_length
    total_idle_time := s.total_idle_time
    total_requests := s.processed_count }

/-- The state at the head of the outer loop of `simulate_sstf` after `k` full
passes, `none` when the loop has ended before. -/
def sstf_run (requests : List DiskRequest) : Nat → Option SstfState
  | 0 => some (sstf_init requests)
  | k + 1 =>
    match sstf_run requests k with
    | some s =>
      if s.processed_count < s.requests.length then
        match sstf_body s with
        | Sum.inl s1 => some s1
        | Sum.inr _ => none
      else none
    | none => none

/-! ## Histogram (lines 250-287) -/

/-- Lines 253-255: the stored response times. -/
def service_times (requests : List DiskRequest) : List ℚ :=
  requests.map (fun r => max 0 (r.completion_time - r.arrival_time))

/-- Lines 257-260: the running minimum from `service_times[0]`. -/
def hist_min (ts : List ℚ) : ℚ :=
  ts.foldl (fun m t => if t < m then t else m) (ts.getD 0 0)

/-- Lines 257-260: the running maximum from `service_times[0]`. -/
def hist_max (ts : List ℚ) : ℚ :=
  ts.foldl (fun m t => if t > m then t else m) (ts.getD 0 0)

/-- Lines 257-263: the mean, `none` for an empty array. -/
def hist_mean (ts : List ℚ) : Option ℚ :=
  fdiv (ts.foldl (fun m t => m + t) 0) ts.length

/-- Lines 270-272: the number of bins; `(int)sqrt(n)` is the integer square
root. -/
def num_bins (total_requests : Nat) : Nat :=
  let b := Nat.sqrt total_requests
  let b := if b < 10 then 10 else b
  if b > 40 then 40 else b

/-- Lines 277-281: the empty bins. -/
def make_bins (min_time bin_width : ℚ) (n : Nat) : List HistogramBin :=
  (List.range n).map (fun (i : Nat) =>
    { min := min_time + (i : ℚ) * bin_width
      max := min_time + (i : ℚ) * bin_width + bin_width
      count := 0 })

/-- C conversion of a `double` to `int`: truncation towards zero. -/
def trunc (x : ℚ) : Int :=
  if 0 ≤ x then ⌊x⌋ else ⌈x⌉

/-- Lines 284-285: the bin index of one response time, `none` when
`bin_width` is zero. -/
def bin_index (min_time bin_width : ℚ) (n : Nat) (v : ℚ) : Option Int :=
  match fdiv (v - min_time) bin_width with
  | none => none
  | some q =>
    let idx := trunc q
    some (if idx ≥ (n : Int) then (n : Int) - 1 else idx)

/-- Line 286: `bins[idx].count++`, `none` when `idx` is outside the array. -/
def bump (bins : List HistogramBin) (idx : Int) : Option (List HistogramBin) :=
  if 0 ≤ idx ∧ idx.toNat < bins.length then
    let b := bins.getD idx.toNat default
    some (bins.set idx.toNat { b with count := b.count + 1 })
  else none

/-- Lines 283-287: the counting loop. -/
def fill_bins (min_time bin_width : ℚ) (n : Nat) :
    List ℚ → List HistogramBin → Option (List HistogramBin)
  | [], bins => some bins
  | v :: vs, bins =>
    match bin_index min_time bin_width n v with
    | none => none
    | some idx =>
      match bump bins idx with
      | none => none
      | some bins1 => fill_bins min_time bin_width n vs bins1

/-- The outcomes of `create_histogram`: nothing is printed, the computation
has no value, or the bins that are printed. -/
inductive HistResult where
  | no_report : HistResult
  | undefined : HistResult
  | report (bins : List HistogramBin) : HistResult
deriving DecidableEq

/-- Lines 250-287: the bins of `create_histogram`.  The median and the
printing, which no bin depends on, are left out. -/
def create_histogram (requests : List DiskRequest) : HistResult :=
  if requests.length = 0 then HistResult.no_report
  else
    let ts := service_times requests
    let min_time := hist_min ts
    let max_time := hist_max ts
    let n := num_bins requests.length
    let bin_width := (max_time - min_time) / (n : ℚ)
    match fill_bins min_time bin_width n ts (make_bins min_time bin_width n) with
    | none => HistResult.undefined
    | some bins => HistResult.report bins

/-! ## Invariants and auxiliary definitions of the proofs -/

/-- The invariant of the outer loop of `simulate_fifo` over `n` requests. -/
structure FifoInv (n : Nat) (s : FifoState) : Prop where
  len : s.requests.length = n
  q_le : s.queue_length ≤ s.request_index
  ri_le : s.request_index ≤ n
  log_idx : s.log.map Prod.fst = (List.range (s.request_index - s.queue_length)).map Int.ofNat
  clock : s.total_idle_time + (s.log.map Prod.snd).sum = s.current_time

/-- The next request is due: the admission loop will admit it. -/
def FifoReady (s : FifoState) : Prop :=
  s.request_index < s.requests.length ∧
    (s.requests.getD s.request_index default).arrival_time ≤ s.current_time

/-- The state after the admission loop and the update of the peak queue
length, when `m` requests were admitted. -/
def fifo_admitted (s : FifoState) (m : Nat) : FifoState :=
  { s with
    queue_length := s.queue_length + m
    request_index := s.request_index + m
    max_queue_length :=
      if s.queue_length + m > s.max_queue_length then s.queue_length + m
      else s.max_queue_length }

/-- The bookkeeping of the response-time sums in `simulate_fifo`: the requests
not yet served still carry a zero completion time, and the two running sums
are the sums over the stored response times. -/
structure FifoSums (s : FifoState) : Prop where
  fresh : ∀ i, s.request_index - s.queue_length ≤ i → i < s.requests.length →
    (s.requests.getD i default).completion_time = 0 ∧
      0 ≤ (s.requests.getD i default).arrival_time
  sum : s.sum_time = (service_times s.requests).sum
  sumsq : s.sum_squared_time = ((service_times s.requests).map (fun x => x * x)).sum

/-- Two request records agree in every field the schedulers only read. -/
def SameStatic (a b : DiskRequest) : Prop :=
  a.arrival_time = b.arrival_time ∧ a.cylinder = b.cylinder ∧ a.head = b.head ∧
    a.sector = b.sector ∧ a.operation = b.operation ∧ a.num_sectors = b.num_sectors

/-- The invariant of the outer loop of `simulate_sstf` run on `reqs0`. -/
structure SstfInv (reqs0 : List DiskRequest) (s : SstfState) : Prop where
  len : s.requests.length = reqs0.length
  len_q : s.in_queue.length = reqs0.length
  len_p : s.processed.length = reqs0.length
  static : ∀ i, SameStatic (s.requests.getD i default) (reqs0.getD i default)
  queued : ∀ i, s.in_queue.getD i false = true → s.processed.getD i false = false
  q_count : s.queue_length = s.in_queue.count true
  pc_log : s.processed_count = s.log.length
  nodup : (s.log.map Prod.fst).Nodup
  proc_log : ∀ i, s.processed.getD i false = true ↔ i ∈ s.log.map Prod.fst
  cyl : 0 ≤ s.current_cylinder ∧ s.current_cylinder < CYLINDERS
  clock : s.total_idle_time + (s.log.map Prod.snd).sum = s.current_time

/-- Some request that is not yet served has arrived. -/
def SstfReady (s : SstfState) : Prop :=
  ∃ j, j < s.requests.length ∧ s.processed.getD j false = false ∧
    (s.requests.getD j default).arrival_time ≤ s.current_time

/-- Request `i` is in the queue and not yet served: what the selection loop
looks at. -/
def SstfCandidate (s : SstfState) (i : Nat) : Prop :=
  s.in_queue.getD i false = true ∧ s.processed.getD i false = false

/-- The seek distance from the head to request `i`. -/
def sstf_distance (s : SstfState) (i : Nat) : Int :=
  |s.current_cylinder - (s.requests.getD i default).cylinder|

/-- The state after the admission loop and the update of the peak queue
length, when the admission loop leaves the flags `flags`. -/
def sstf_admitted (s : SstfState) (flags : List Bool) : SstfState :=
  { s with
    in_queue := flags
    queue_length := flags.count true
    max_queue_length :=
      if flags.count true > s.max_queue_length then flags.count true
      else s.max_queue_length }

/-- The state after an idle pass that jumps to `next_arrival`. -/
def sstf_idle (s : SstfState) (next_arrival : ℚ) : SstfState :=
  { s with
    total_idle_time := s.total_idle_time + (next_arrival - s.current_time)
    current_time := next_arrival }

/-- What termination of `simulate_sstf` needs of a request: it arrives within
the horizon and its cylinder is on the disk. -/
def Placed (r : DiskRequest) : Prop :=
  r.arrival_time ≤ SIMULATION_TIME ∧ 0 ≤ r.cylinder ∧ r.cylinder < CYLINDERS

/-- A request as the generator produces it: arrival within the horizon, cylinder
and sector on the disk, at least one sector, not yet scheduled. -/
def ValidRequest (r : DiskRequest) : Prop :=
  0 ≤ r.arrival_time ∧ r.arrival_time < SIMULATION_TIME ∧
    0 ≤ r.cylinder ∧ r.cylinder < CYLINDERS ∧
    0 ≤ r.sector ∧ r.sector < SECTORS_PER_TRACK ∧
    1 ≤ r.num_sectors ∧ r.start_time = 0 ∧ r.completion_time = 0

instance (r : DiskRequest) : Decidable (ValidRequest r) :=
  inferInstanceAs (Decidable (0 ≤ r.arrival_time ∧ r.arrival_time < SIMULATION_TIME ∧
    0 ≤ r.cylinder ∧ r.cylinder < CYLINDERS ∧
    0 ≤ r.sector ∧ r.sector < SECTORS_PER_TRACK ∧
    1 ≤ r.num_sectors ∧ r.start_time = 0 ∧ r.completion_time = 0))

/-- The arrival times are non-decreasing along the sequence. -/
def SortedArrivals (requests : List DiskRequest) : Prop :=
  List.Pairwise (fun a b : DiskRequest => a.arrival_time ≤ b.arrival_time) requests

instance (requests : List DiskRequest) : Decidable (SortedArrivals requests) :=
  inferInstanceAs
    (Decidable (List.Pairwise (fun a b : DiskRequest => a.arrival_time ≤ b.arrival_time) requests))

/-- The timing invariant of `simulate_sstf`: the head angle stays in
`[0, 360)`, every queued request has arrived, and every served request was
started after its arrival and completed after its start. -/
structure SstfTimes (s : SstfState) : Prop where
  angle : 0 ≤ s.current_angle ∧ s.current_angle < 360
  queued_arrived : ∀ i, s.in_queue.getD i false = true →
    (s.requests.getD i default).arrival_time ≤ s.current_time
  served : ∀ i, s.processed.getD i false = true →
    (s.requests.getD i default).arrival_time ≤ (s.requests.getD i default).start_time ∧
      (s.requests.getD i default).start_time ≤ (s.requests.getD i default).completion_time

/-! ## Concrete inputs -/

/-- The scenario of the specification: three one-sector reads arriving at time
0 at cylinders 10, 50 and 11. -/
def scenario : List DiskRequest :=
  [ { arrival_time := 0, cylinder := 10, head := 0, sector := 0, operation := 0,
      num_sectors := 1, start_time := 0, completion_time := 0 },
    { arrival_time := 0, cylinder := 50, head := 0, sector := 0, operation := 0,
      num_sectors := 1, start_time := 0, completion_time := 0 },
    { arrival_time := 0, cylinder := 11, head := 0, sector := 0, operation := 0,
      num_sectors := 1, start_time := 0, completion_time := 0 } ]

/-- Two one-sector reads that both arrive at time 1, at cylinders 10 and 50. -/
def two_at_one : List DiskRequest :=
  [ { arrival_time := 1, cylinder := 10, head := 0, sector := 0, operation := 0,
      num_sectors := 1, start_time := 0, completion_time := 0 },
    { arrival_time := 1, cylinder := 50, head := 0, sector := 0, operation := 0,
      num_sectors := 1, start_time := 0, completion_time := 0 } ]

/-- The bookkeeping of the response-time sums in `simulate_sstf`: the requests
not yet served still carry a zero completion time, and the two running sums
are the sums over the stored response times. -/
structure SstfSums (s : SstfState) : Prop where
  fresh : ∀ i, i < s.requests.length → s.processed.getD i false = false →
    (s.requests.getD i default).completion_time = 0 ∧
      0 ≤ (s.requests.getD i default).arrival_time
  sum : s.sum_time = (service_times s.requests).sum
  sumsq : s.sum_squared_time = ((service_times s.requests).map (fun x => x * x)).sum

/-- The mean of a list of values, as the specification words it. -/
def spec_mean (ts : List ℚ) : ℚ :=
  ts.sum / (ts.length : ℚ)

/-- The population standard deviation `sqrt (E[X²] − E[X]²)` of a list of
values, as the specification words it. -/
def spec_std_dev {R : Type} (sqrt : ℚ → R) (ts : List ℚ) : R :=
  sqrt ((ts.map (fun x => x * x)).sum / (ts.length : ℚ) - spec_mean ts * spec_mean ts)

/-- The sum of the counts of a run of bins. -/
def total_count (bins : List HistogramBin) : Nat :=
  (bins.map (fun b => b.count)).sum

/-- The local variables of `generate_requests`: the filled part of the output
array, the clock, the count, and the number of calls of `rand()` made. -/
structure GenState where
  requests : List DiskRequest
  current_time : ℚ
  count : Nat
  calls : Nat

/-- Line 65 in exact arithmetic: `max_requests`, `none` when `t_max * 1000` is
zero.  The value the program computes in `double` and `int` is
`gen_max_requests_double`. -/
def gen_max_requests (t_max : ℚ) : Option Int :=
  match fdiv SIMULATION_TIME (t_max * 1000) with
  | none => none
  | some q => some (trunc q * 2)

/-- Line 275: the bin width `create_histogram` computes for `requests`. -/
def hist_bin_width (requests : List DiskRequest) : ℚ :=
  (hist_max (service_times requests) - hist_min (service_times requests))
    / ((num_bins requests.length : Nat) : ℚ)

/-- The state at the head of the outer loop of `simulate_fifo` after `k` full
passes, `none` when the loop has ended before. -/
def fifo_run (requests : List DiskRequest) : Nat → Option FifoState
  | 0 => some (fifo_init requests)
  | k + 1 =>
    match fifo_run requests k with
    | some s =>
      if s.request_index < s.requests.length then
        match fifo_body s with
        | Sum.inl s1 => some s1
        | Sum.inr _ => none
      else none
    | none => none

/-- The timing invariant of `simulate_fifo` run on `reqs0`: the request array
holds the same requests, the head stays on the disk, every dispatch made so
far was completed after its start and before the current time, and each
dispatch was started after the completion of the ones before it. -/
structure FifoTimes (reqs0 : List DiskRequest) (s : FifoState) : Prop where
  static : ∀ i, SameStatic (s.requests.getD i default) (reqs0.getD i default)
  angle : 0 ≤ s.current_angle ∧ s.current_angle < 360
  cyl : 0 ≤ s.current_cylinder ∧ s.current_cylinder < CYLINDERS
  served : ∀ e ∈ s.log,
    (s.requests.getD e.1.toNat default).start_time
        ≤ (s.requests.getD e.1.toNat default).completion_time ∧
      (s.requests.getD e.1.toNat default).completion_time ≤ s.current_time
  order : s.log.Pairwise (fun a b =>
    (s.requests.getD a.1.toNat default).completion_time
      ≤ (s.requests.getD b.1.toNat default).start_time)

/-- The ordering invariant of `simulate_sstf`: every dispatch made so far was
completed after its start and before the current time, and each dispatch was
started after the completion of the ones before it. -/
structure SstfOrder (s : SstfState) : Prop where
  served : ∀ e ∈ s.log,
    (s.requests.getD e.1 default).start_time ≤ (s.requests.getD e.1 default).completion_time ∧
      (s.requests.getD e.1 default).completion_time ≤ s.current_time
  order : s.log.Pairwise (fun a b =>
    (s.requests.getD a.1 default).completion_time ≤ (s.requests.getD b.1 default).start_time)

/-! ## Double arithmetic

The generator and the rotational latency are also embedded with the rounding
of `double`: every arithmetic operation on `double` values is the exact
operation followed by `round_double`. -/

/-- The power `2 ^ k` for an integer exponent. -/
def pow2 (k : Int) : ℚ :=
  if 0 ≤ k then ((2 ^ k.toNat : Nat) : ℚ) else 1 / ((2 ^ (-k).toNat : Nat) : ℚ)

/-- The number of halvings that take `n` below 2, at most `fuel` of them; with
`fuel = n` it is the `k` with `2 ^ k ≤ n < 2 ^ (k + 1)` for `n ≥ 1`. -/
def halvings : Nat → Nat → Nat
  | 0, _ => 0
  | fuel + 1, n => if 2 ≤ n then halvings fuel (n / 2) + 1 else 0

/-- The binary exponent of a positive rational `a`, the `e` with
`2 ^ e ≤ a < 2 ^ (e + 1)`. -/
def binary_exponent (a : ℚ) : Int :=
  let e0 : Int :=
    (halvings a.num.natAbs a.num.natAbs : Int) - (halvings a.den a.den : Int)
  if pow2 e0 ≤ a then e0 else e0 - 1

/-- Rounding of a non-negative rational to the nearest integer, ties to the
even one. -/
def round_half_even (s : ℚ) : Int :=
  let f := ⌊s⌋
  let r := s - f
  if r < 1 / 2 then f else if 1 / 2 < r then f + 1 else if f % 2 = 0 then f else f + 1

/-- The `double` nearest to the rational `x` (IEEE 754 binary64, round to
nearest, ties to even): 53 significant bits, and below `2 ^ (-1022)` the
fixed spacing `2 ^ (-1074)` of the subnormal numbers.  There is no largest
exponent: the overflow to infinity is not modelled. -/
def round_double (x : ℚ) : ℚ :=
  if x = 0 then 0
  else
    let q := max (binary_exponent |x|) (-1022) - 52
    let n := round_half_even (|x| / pow2 q)
    (if 0 ≤ x then (n : ℚ) else -(n : ℚ)) * pow2 q

/-- Line 65 with the rounding of `double` and the range of `int`:
`max_requests`.  It is `none` when `t_max * 1000` is zero, when the quotient
truncated to an integer is outside `int`, and when its double is. -/
def gen_max_requests_double (t_max : ℚ) : Option Int :=
  let d := round_double (t_max * 1000)
  if d = 0 then none
  else
    let c := trunc (round_double (SIMULATION_TIME / d))
    if c < -2 ^ 31 ∨ 2 ^ 31 ≤ c then none
    else if c * 2 < -2 ^ 31 ∨ 2 ^ 31 ≤ c * 2 then none
    else some (c * 2)

/-- Lines 73-85 with the rounding of `double`: one pass of the loop body;
`Sum.inl` continues the loop, `Sum.inr` is `break`, `none` is the remainder by
`n = 0`. -/
def gen_body_double (RAND_MAX : Nat) (rand : Nat → Nat) (t_max : ℚ) (n : Int) (s : GenState) :
    Option (GenState ⊕ GenState) :=
  let interval : ℚ :=
    round_double (round_double (round_double ((rand s.calls : ℚ) / (RAND_MAX : ℚ)) * t_max)
      * 1000)
  let current_time := round_double (s.current_time + interval)
  if current_time ≥ SIMULATION_TIME then
    some (Sum.inr { s with current_time := current_time, calls := s.calls + 1 })
  else if n = 0 then none
  else
    some (Sum.inl
      { requests := s.requests ++
          [{ arrival_time := current_time
             cylinder := (rand (s.calls + 1) : Int) % CYLINDERS
             head := (rand (s.calls + 2) : Int) % HEADS
             sector := (rand (s.calls + 3) : Int) % SECTORS_PER_TRACK
             operation := (rand (s.calls + 4) : Int) % 2
             num_sectors := Int.tmod (rand (s.calls + 5) : Int) n + 1
             start_time := 0
             completion_time := 0 }]
        current_time := current_time
        count := s.count + 1
        calls := s.calls + 6 })

/-- Lines 72-86 with the rounding of `double`: the loop, `none` when the fuel
runs out or the body has no value.  Every pass that continues increments
`count`, so `max_requests + 1` passes of fuel suffice. -/
def gen_loop_double (RAND_MAX : Nat) (rand : Nat → Nat) (t_max : ℚ) (n : Int)
    (max_requests : Int) : Nat → GenState → Option GenState
  | 0, _ => none
  | fuel + 1, s =>
    if s.current_time < SIMULATION_TIME ∧ (s.count : Int) < max_requests then
      match gen_body_double RAND_MAX rand t_max n s with
      | none => none
      | some (Sum.inl s1) => gen_loop_double RAND_MAX rand t_max n max_requests fuel s1
      | some (Sum.inr s1) => some s1
    else some s

/-- Lines 64-90 with the rounding of `double` and the range of `int`: the
requests `generate_requests` returns, the first `count` entries of its
array. -/
def generate_requests_double (RAND_MAX : Nat) (rand : Nat → Nat) (t_max : ℚ) (n : Int) :
    Option (List DiskRequest) :=
  match gen_max_requests_double t_max with
  | none => none
  | some max_requests =>
    (gen_loop_double RAND_MAX rand t_max n max_requests (max_requests.toNat + 1)
      { requests := [], current_time := 0, count := 0, calls := 0 }).map
      (fun s => s.requests)

/-- The `k`-th inter-arrival gap (from 0) as `generate_requests` computes it
in `double`. -/
def gen_gap_double (RAND_MAX : Nat) (rand : Nat → Nat) (t_max : ℚ) (k : Nat) : ℚ :=
  round_double (round_double (round_double ((rand (6 * k) : ℚ) / (RAND_MAX : ℚ)) * t_max)
    * 1000)

/-- The cumulative arrival time after `k` gaps as `generate_requests`
accumulates it in `double`. -/
def gen_clock_double (RAND_MAX : Nat) (rand : Nat → Nat) (t_max : ℚ) : Nat → ℚ
  | 0 => 0
  | k + 1 =>
    round_double (gen_clock_double RAND_MAX rand t_max k + gen_gap_double RAND_MAX rand t_max k)

/-- The invariant of the loop of `generate_requests` in `double`. -/
structure GenInvDouble (RAND_MAX : Nat) (rand : Nat → Nat) (t_max : ℚ) (s : GenState) :
    Prop where
  len : s.requests.length = s.count
  calls : s.calls = 6 * s.count
  clock : s.current_time = gen_clock_double RAND_MAX rand t_max s.count
  arrivals : s.requests.map (fun r => r.arrival_time)
    = (List.range s.count).map (fun k => gen_clock_double RAND_MAX rand t_max (k + 1))
  below : ∀ k, k < s.count → gen_clock_double RAND_MAX rand t_max (k + 1) < SIMULATION_TIME
  head : s.current_time < SIMULATION_TIME

end DiskSim

namespace MemPool

/-!
Memory pool allocator (`src/1.c`): shallow embedding.

`memory_pool` is the list of its bytes, `block_owner` the list of its `char`
values (as `Int`), `ptr_to_block` a list of pointers into the pool, where
`none` is `NULL` and `some k` is `&memory_pool[k]`.  `size_t` is taken to be
64 bits wide and `int` 32 bits; the conversion of a `size_t` to `int` wraps.
-/

/-! ### Constants and globals (lines 5-11) -/

def POOL_SIZE : Nat := 1024 * 4
def BLOCK_SIZE : Nat := 64
def BLOCK_COUNT : Nat := POOL_SIZE / BLOCK_SIZE

/-- The three globals of the allocator. -/
structure Memory where
  memory_pool : List Nat
  block_owner : List Int
  ptr_to_block : List (Option Nat)
deriving DecidableEq

/-- Lines 19-21: the globals after `init_memory`. -/
def init_memory : Memory :=
  { memory_pool := List.replicate POOL_SIZE 0
    block_owner := List.replicate BLOCK_COUNT 0
    ptr_to_block := List.replicate BLOCK_COUNT none }

/-! ### `my_malloc` (lines 32-61) -/

/-- The value a `size_t` takes when it is converted to `int`. -/
def to_int (x : Nat) : Int :=
  ((x : Int) + 2 ^ 31) % 2 ^ 32 - 2 ^ 31

/-- Line 33: `blocks_needed`, computed in `size_t` and stored in an `int`. -/
def blocks_needed (size : Nat) : Int :=
  to_int ((size + BLOCK_SIZE - 1) % 2 ^ 64 / BLOCK_SIZE)

/-- Lines 43-45: the owners after the marking loop over
`j = start_index .. start_index + blocks_needed - 1`. -/
def mark_blocks (owner : List Int) (process_id : Int) (start_index : Int) (needed : Int) :
    List Int :=
  (List.range needed.toNat).foldl
    (fun o (j : Nat) => o.set (start_index.toNat + j) process_id) owner

/-- Lines 38-57: the scan from block `i` with the running values of
`consecutive_free` and `start_index`; the result is the pointer returned and
the globals.  Every pass increments `i`, so `BLOCK_COUNT - i` passes of fuel
suffice. -/
def malloc_scan (process_id : Int) (needed : Int) (m : Memory) :
    Nat → Nat → Int → Int → Option Nat × Memory
  | 0, _, _, _ => (none, m)
  | fuel + 1, i, consecutive_free, start_index =>
    if i < BLOCK_COUNT then
      if m.block_owner.getD i 0 = 0 then
        let start_index := if consecutive_free = 0 then (i : Int) else start_index
        let consecutive_free := consecutive_free + 1
        if consecutive_free ≥ needed then
          let data_ptr := start_index.toNat * BLOCK_SIZE
          (some data_ptr,
            { m with
              block_owner := mark_blocks m.block_owner process_id start_index needed
              ptr_to_block := m.ptr_to_block.set start_index.toNat (some data_ptr) })
        else malloc_scan process_id needed m fuel (i + 1) consecutive_free start_index
      else malloc_scan process_id needed m fuel (i + 1) 0 start_index
    else (none, m)

/-- Lines 32-61: `my_malloc`; the pointer returned (`none` is `NULL`) and the
globals afterwards. -/
def my_malloc (size : Nat) (process_id : Int) (m : Memory) : Option Nat × Memory :=
  malloc_scan process_id (blocks_needed size) m BLOCK_COUNT 0 0 (-1)

/-! ### `compact_memory` (lines 92-132) -/

/-- Lines 102-105: the number of consecutive blocks from `j` on that `pid`
owns. -/
def run_length (owner : List Int) (pid : Int) : Nat → Nat → Nat
  | 0, _ => 0
  | fuel + 1, j =>
    if j < BLOCK_COUNT ∧ owner.getD j 0 = pid then run_length owner pid fuel (j + 1) + 1
    else 0

/-- C `memmove pool+dst, pool+src, len`: the bytes are copied as if through a
buffer. -/
def memmove (pool : List Nat) (dst src len : Nat) : List Nat :=
  (List.range pool.length).map (fun (k : Nat) =>
    if dst ≤ k ∧ k < dst + len then pool.getD (src + (k - dst)) 0 else pool.getD k 0)

/-- Lines 113-116: the body of the bookkeeping loop at `j`. -/
def move_entry (pid : Int) (target_index i : Nat) (m : Memory) (j : Nat) : Memory :=
  { m with
    block_owner := (m.block_owner.set (target_index + j) pid).set (i + j) 0
    ptr_to_block :=
      (m.ptr_to_block.set (target_index + j) (some ((target_index + j) * BLOCK_SIZE))).set
        (i + j) none }

/-- Lines 108-117: move the run of `block_count` blocks of `pid` from block `i`
to block `target_index`. -/
def move_run (pid : Int) (target_index i block_count : Nat) (m : Memory) : Memory :=
  (List.range block_count).foldl (move_entry pid target_index i)
    { m with
      memory_pool := memmove m.memory_pool (target_index * BLOCK_SIZE) (i * BLOCK_SIZE)
        (block_count * BLOCK_SIZE) }

/-- The globals and the local variables of `compact_memory`. -/
structure CompactState where
  mem : Memory
  target_index : Nat
  moves : Nat
  i : Nat

/-- Lines 99-128: one pass of the loop body. -/
def compact_body (s : CompactState) : CompactState :=
  if s.mem.block_owner.getD s.i 0 ≠ 0 then
    let pid := s.mem.block_owner.getD s.i 0
    let block_count := run_length s.mem.block_owner pid (BLOCK_COUNT - s.i) s.i
    let s1 :=
      if s.i ≠ s.target_index then
        { s with
          mem := move_run pid s.target_index s.i block_count s.mem
          moves := s.moves + 1 }
      else s
    { s1 with target_index := s1.target_index + block_count, i := s1.i + block_count }
  else { s with i := s.i + 1 }

/-- Lines 98-129: the loop, `none` when the fuel runs out.  Every pass
increments `i`, so `BLOCK_COUNT + 1` passes of fuel suffice. -/
def compact_loop : Nat → CompactState → Option CompactState
  | 0, _ => none
  | fuel + 1, s =>
    if s.i < BLOCK_COUNT then compact_loop fuel (compact_body s) else some s

/-- Lines 92-132: the globals after `compact_memory`. -/
def compact_memory (m : Memory) : Option Memory :=
  (compact_loop (BLOCK_COUNT + 1) { mem := m, target_index := 0, moves := 0, i := 0 }).map
    (fun s => s.mem)

/-! ### Notions of the properties -/

/-- The contents of block `b`: its 64 bytes. -/
def block (pool : List Nat) (b : Nat) : List Nat :=
  (List.range BLOCK_SIZE).map (fun (o : Nat) => pool.getD (b * BLOCK_SIZE + o) 0)

/-- The owner and the contents of block `b`. -/
def block_entry (m : Memory) (b : Nat) : Int × List Nat :=
  (m.block_owner.getD b 0, block m.memory_pool b)

/-- The owners and contents of the occupied blocks, in the order of their
indices. -/
def occupied (m : Memory) : List (Int × List Nat) :=
  ((List.range BLOCK_COUNT).filter (fun b => decide (m.block_owner.getD b 0 ≠ 0))).map
    (block_entry m)

/-- The blocks `s .. s + k - 1` exist and are all free. -/
def FreeRun (owner : List Int) (s : Nat) (k : Nat) : Prop :=
  s + k ≤ BLOCK_COUNT ∧ ∀ j, j < k → owner.getD (s + j) 0 = 0

/-- The globals of `main` before the compaction, with the pool left
zeroed: 4 blocks of process `'1'`, 2 of `'4'`, 4 free, 7 of `'3'`. -/
def fragmented : Memory :=
  { memory_pool := List.replicate POOL_SIZE 0
    block_owner := List.replicate 4 49 ++ List.replicate 2 52 ++ List.replicate 4 0
      ++ List.replicate 7 51 ++ List.replicate 47 0
    ptr_to_block := List.replicate BLOCK_COUNT none }

/-- The invariant of the loop of `compact_memory` started on `m0`: the blocks
below `target_index` are the occupied blocks of `m0` below `i`, in order; the
blocks from `target_index` up to `i` are free; the blocks from `i` on are
those of `m0`. -/
structure CompactInv (m0 : Memory) (s : CompactState) : Prop where
  len_o : s.mem.block_owner.length = BLOCK_COUNT
  len_p : s.mem.memory_pool.length = POOL_SIZE
  le1 : s.target_index ≤ s.i
  le2 : s.i ≤ BLOCK_COUNT
  packed : (List.range s.target_index).map (block_entry s.mem)
    = ((List.range s.i).filter (fun b => decide (m0.block_owner.getD b 0 ≠ 0))).map
        (block_entry m0)
  gap : ∀ b, s.target_index ≤ b → b < s.i → s.mem.block_owner.getD b 0 = 0
  rest : ∀ b, s.i ≤ b → b < BLOCK_COUNT → block_entry s.mem b = block_entry m0 b

/-! ### `my_free` (lines 63-90) -/

/-- Lines 66-72: the search from index `i` for the first entry of
`ptr_to_block` equal to `ptr`; `-1` when there is none. -/
def find_block (ptr_to_block : List (Option Nat)) (ptr : Option Nat) : Nat → Nat → Int
  | 0, _ => -1
  | fuel + 1, i =>
    if i < BLOCK_COUNT then
      if ptr_to_block.getD i none = ptr then (i : Int)
      else find_block ptr_to_block ptr fuel (i + 1)
    else -1

/-- Lines 82-86: the freeing loop from block `i`.  Every pass increments `i`,
so with `BLOCK_COUNT - i` passes of fuel the loop has reached `BLOCK_COUNT`
when the fuel is used up. -/
def free_blocks (pid : Int) : Nat → Nat → Memory → Memory
  | 0, _, m => m
  | fuel + 1, i, m =>
    if i < BLOCK_COUNT ∧ m.block_owner.getD i 0 = pid then
      free_blocks pid fuel (i + 1)
        { m with
          block_owner := m.block_owner.set i 0
          ptr_to_block := m.ptr_to_block.set i none }
    else m

/-- Lines 63-90: `my_free`; the globals afterwards. -/
def my_free (ptr : Option Nat) (m : Memory) : Memory :=
  if ptr = none then m
  else
    let start_index := find_block m.ptr_to_block ptr BLOCK_COUNT 0
    if start_index = -1 then m
    else
      let pid := m.block_owner.getD start_index.toNat 0
      free_blocks pid BLOCK_COUNT start_index.toNat m

end MemPool

namespace Trapezoid

/-!
Work splitting of the trapezoid integration (`src/3.c`): shallow embedding.

`long long` values are `Int`; every `long long` operation is followed by
`wrap64`, the reduction to the 64-bit two's complement range.
-/

/-- The value of a `long long` result: reduction modulo `2^64` into
`[-2^63, 2^63)`. -/
def wrap64 (x : Int) : Int :=
  (x + 2 ^ 63) % 2 ^ 64 - 2 ^ 63

/-- Lines 13-23: `split_work`; the pair `(*start, *count)`, `none` when `size`
is zero. -/
def split_work (n size rank : Int) : Option (Int × Int) :=
  if size = 0 then none
  else
    let base := wrap64 (Int.tdiv n size)
    let r := Int.tmod n size
    if rank < r then
      let count := wrap64 (base + 1)
      some (wrap64 (rank * count), count)
    else
      some (wrap64 (wrap64 (r * wrap64 (base + 1)) + wrap64 (wrap64 (rank - r) * base)), base)

/-- Closed form of the first index of the range of `rank`: `rank` ranges of
`n / size` indices, the first `n % size` of them one longer.  It is compared
with the value `split_work` computes in `split_work_eq`. -/
def split_start (n size rank : Int) : Int :=
  rank * (n / size) + min rank (n % size)

/-- Closed form of the length of the range of `rank`, compared with the value
`split_work` computes in `split_work_eq`. -/
def split_count (n size rank : Int) : Int :=
  n / size + (if rank < n % size then 1 else 0)

end Trapezoid

namespace DiskSim

/-! ## The FIFO loop -/

theorem fifo_admit_eq (fuel : Nat) (s : FifoState) :
    ∃ m, fifo_admission fuel s =
        { s with queue_length := s.queue_length + m, request_index := s.request_index + m } ∧
      (s.request_index ≤ s.requests.length → s.request_index + m ≤ s.requests.length) ∧
      (s.requests.length - s.request_index ≤ fuel →
        ¬ (s.request_index + m < s.requests.length ∧
          (s.requests.getD (s.request_index + m) default).arrival_time ≤ s.current_time)) ∧
      (0 < fuel → FifoReady s → 0 < m) ∧ (¬ FifoReady s → m = 0) := by
  induction fuel generalizing s with
  | zero =>
    refine ⟨0, by simp [fifo_admission], by simp, ?_, by simp, by simp⟩
    intro h hc
    simp at hc
    omega
  | succ k ih =>
    by_cases hc : s.request_index < s.requests.length ∧
        (s.requests.getD s.request_index default).arrival_time ≤ s.current_time
    · obtain ⟨m, h1, h2, h3, -, -⟩ := ih
        { s with queue_length := s.queue_length + 1, request_index := s.request_index + 1 }
      refine ⟨m + 1, ?_, ?_, ?_, by omega, fun h => absurd hc h⟩
      · rw [fifo_admission, if_pos hc, h1]
        simp [Nat.add_assoc, Nat.add_comm 1 m]
      · intro _
        have := h2 (by simp; omega)
        simp at this
        omega
      · intro hf
        have := h3 (by simp; omega)
        simpa [Nat.add_assoc, Nat.add_comm 1 m] using this
    · refine ⟨0, ?_, by simp, ?_, ?_, by simp⟩
      · rw [fifo_admission, if_neg hc]
        rfl
      · intro _
        simpa using hc
      · intro _ hr
        exact absurd hr hc

theorem fifo_dispatch_inv {n : Nat} {s : FifoState} (h : FifoInv n s)
    (hq : 0 < s.queue_length) : FifoInv n (fifo_dispatch s) := by
  obtain ⟨h1, h2, h3, h4, h5⟩ := h
  refine ⟨by simp [fifo_dispatch, h1], by simp [fifo_dispatch]; omega,
    by simpa [fifo_dispatch] using h3, ?_, ?_⟩
  · have e : s.request_index - (s.queue_length - 1) = (s.request_index - s.queue_length) + 1 := by
      omega
    have e2 : (s.request_index : Int) - (s.queue_length : Int)
        = Int.ofNat (s.request_index - s.queue_length) := by
      simp only [Int.ofNat_eq_coe]
      omega
    simp only [fifo_dispatch, List.map_append, h4, e, List.range_succ, List.map_cons,
      List.map_nil, e2]
  · simp only [fifo_dispatch, List.map_append, List.sum_append, List.map_cons, List.map_nil,
      List.sum_cons, List.sum_nil]
    rw [← h5]
    ring

theorem fifo_idle_inv {n : Nat} {s : FifoState} (h : FifoInv n s) : FifoInv n (fifo_idle s) := by
  obtain ⟨h1, h2, h3, h4, h5⟩ := h
  refine ⟨h1, h2, h3, h4, ?_⟩
  simp only [fifo_idle]
  rw [← h5]
  ring

theorem fifo_body_cases (s : FifoState) (hlt : s.request_index < s.requests.length) :
    ∃ m, s.request_index + m ≤ s.requests.length ∧
      ((FifoReady s ∧ 0 < m ∧ fifo_body s = Sum.inl (fifo_dispatch (fifo_admitted s m))) ∨
       (¬ FifoReady s ∧ m = 0 ∧ 0 < s.queue_length ∧
          fifo_body s = Sum.inl (fifo_dispatch (fifo_admitted s m))) ∨
       (¬ FifoReady s ∧ m = 0 ∧ s.queue_length = 0 ∧
          fifo_body s = Sum.inl (fifo_idle (fifo_admitted s m)))) := by
  obtain ⟨m, h1, h2, h3, h4, h5⟩ := fifo_admit_eq (s.requests.length - s.request_index) s
  refine ⟨m, h2 (by omega), ?_⟩
  have hs2 : fifo_enqueue s = fifo_admitted s m := by
    simp only [fifo_enqueue]
    rw [h1]
    simp only [fifo_admitted]
    split <;> rfl
  have hb : fifo_body s =
      if (fifo_admitted s m).queue_length > 0 then Sum.inl (fifo_dispatch (fifo_admitted s m))
      else if (fifo_admitted s m).request_index < (fifo_admitted s m).requests.length then
        Sum.inl (fifo_idle (fifo_admitted s m))
      else Sum.inr (fifo_admitted s m) := by
    simp only [fifo_body]
    rw [hs2]
  by_cases hr : FifoReady s
  · have hm := h4 (by omega) hr
    left
    refine ⟨hr, hm, ?_⟩
    rw [hb, if_pos]
    simp only [fifo_admitted]
    omega
  · have hm := h5 hr
    right
    by_cases hq : 0 < s.queue_length
    · left
      refine ⟨hr, hm, hq, ?_⟩
      rw [hb, if_pos]
      simp only [fifo_admitted]
      omega
    · right
      refine ⟨hr, hm, by omega, ?_⟩
      rw [hb, if_neg, if_pos]
      · simp only [fifo_admitted]
        omega
      · simp only [fifo_admitted]
        omega

theorem fifo_admitted_inv {n : Nat} {s : FifoState} (h : FifoInv n s) (m : Nat)
    (hm : s.request_index + m ≤ s.requests.length) : FifoInv n (fifo_admitted s m) := by
  obtain ⟨h1, h2, h3, h4, h5⟩ := h
  refine ⟨h1, by simp [fifo_admitted]; omega, by simp [fifo_admitted]; omega, ?_, h5⟩
  have e : s.request_index + m - (s.queue_length + m) = s.request_index - s.queue_length := by
    omega
  simp only [fifo_admitted, e]
  exact h4

/-- Every pass of the outer loop of `simulate_fifo` continues the loop,
keeps the invariant and any property `P` that the three kinds of pass keep,
and the loop ends within the fuel. -/
theorem fifo_loop_spec (n : Nat) (P : FifoState → Prop)
    (hP : ∀ s s1, FifoInv n s → P s → s.request_index < n → fifo_body s = Sum.inl s1 → P s1) :
    ∀ fuel s, FifoInv n s → P s →
      (2 * (n - s.request_index) + s.queue_length + 2 ≤ fuel ∨
        (FifoReady s ∧ 2 * (n - s.request_index) + s.queue_length + 1 ≤ fuel)) →
      ∃ s1, fifo_loop fuel s = some s1 ∧ FifoInv n s1 ∧ P s1 ∧ s1.request_index = n := by
  intro fuel
  induction fuel with
  | zero =>
    intro s _ _ hf
    rcases hf with hf | ⟨_, hf⟩ <;> omega
  | succ k ih =>
    intro s hinv hp hf
    by_cases hlt : s.request_index < s.requests.length
    · have hlen := hinv.len
      obtain ⟨m, hm, hcase⟩ := fifo_body_cases s hlt
      have hadm := fifo_admitted_inv hinv m hm
      rcases hcase with ⟨hr, hm0, hb⟩ | ⟨hr, hm0, hq, hb⟩ | ⟨hr, hm0, hq, hb⟩
      · have hinv1 : FifoInv n (fifo_dispatch (fifo_admitted s m)) :=
          fifo_dispatch_inv hadm (by simp [fifo_admitted]; omega)
        have hp1 := hP s _ hinv hp (by omega) hb
        rw [fifo_loop, if_pos hlt, hb]
        refine ih _ hinv1 hp1 (Or.inl ?_)
        rcases hf with hf | ⟨_, hf⟩ <;>
          simp only [fifo_dispatch, fifo_admitted] <;> omega
      · have hinv1 : FifoInv n (fifo_dispatch (fifo_admitted s m)) :=
          fifo_dispatch_inv hadm (by simp [fifo_admitted]; omega)
        have hp1 := hP s _ hinv hp (by omega) hb
        rw [fifo_loop, if_pos hlt, hb]
        refine ih _ hinv1 hp1 (Or.inl ?_)
        rcases hf with hf | ⟨hr1, _⟩
        · simp only [fifo_dispatch, fifo_admitted]
          omega
        · exact absurd hr1 hr
      · have hinv1 : FifoInv n (fifo_idle (fifo_admitted s m)) := fifo_idle_inv hadm
        have hp1 := hP s _ hinv hp (by omega) hb
        rw [fifo_loop, if_pos hlt, hb]
        refine ih _ hinv1 hp1 (Or.inr ⟨?_, ?_⟩)
        · subst hm0
          simp only [FifoReady, fifo_idle, fifo_admitted, Nat.add_zero]
          exact ⟨hlt, le_refl _⟩
        · rcases hf with hf | ⟨hr1, _⟩
          · simp only [fifo_idle, fifo_admitted]
            omega
          · exact absurd hr1 hr
    · refine ⟨s, ?_, hinv, hp, ?_⟩
      · rw [fifo_loop, if_neg hlt]
      · have := hinv.len
        have := hinv.ri_le
        omega

theorem fifo_init_inv (requests : List DiskRequest) :
    FifoInv requests.length (fifo_init requests) :=
  ⟨rfl, by simp [fifo_init], by simp [fifo_init], by simp [fifo_init], by simp [fifo_init]⟩

theorem simulate_fifo_spec (requests : List DiskRequest) (P : FifoState → Prop)
    (hP : ∀ s s1, FifoInv requests.length s → P s → s.request_index < requests.length →
      fifo_body s = Sum.inl s1 → P s1)
    (h0 : P (fifo_init requests)) :
    ∃ s, simulate_fifo requests = some s ∧ FifoInv requests.length s ∧ P s ∧
      s.request_index = requests.length := by
  refine fifo_loop_spec requests.length P hP _ _ (fifo_init_inv requests) h0 (Or.inl ?_)
  simp [fifo_init]

theorem sum_map_set {α : Type} (f : α → ℚ) (d a : α) :
    ∀ (l : List α) (i : Nat), i < l.length →
      ((l.set i a).map f).sum = (l.map f).sum - f (l.getD i d) + f a
  | [], i, h => by simp at h
  | x :: xs, 0, _ => by
    simp only [List.set_cons_zero, List.map_cons, List.sum_cons, List.getD_cons_zero]
    ring
  | x :: xs, i + 1, h => by
    have := sum_map_set f d a xs i (by simpa using h)
    simp only [List.set_cons_succ, List.map_cons, List.sum_cons, this, List.getD_cons_succ]
    ring

theorem service_times_set (l : List DiskRequest) (i : Nat) (h : i < l.length) (a : DiskRequest) :
    (service_times (l.set i a)).sum = (service_times l).sum
      - max 0 ((l.getD i default).completion_time - (l.getD i default).arrival_time)
      + max 0 (a.completion_time - a.arrival_time) := by
  simp only [service_times]
  exact sum_map_set _ default a l i h

theorem service_times_sq_set (l : List DiskRequest) (i : Nat) (h : i < l.length)
    (a : DiskRequest) :
    ((service_times (l.set i a)).map (fun x => x * x)).sum
      = ((service_times l).map (fun x => x * x)).sum
      - max 0 ((l.getD i default).completion_time - (l.getD i default).arrival_time)
        * max 0 ((l.getD i default).completion_time - (l.getD i default).arrival_time)
      + max 0 (a.completion_time - a.arrival_time) * max 0 (a.completion_time - a.arrival_time) := by
  simp only [service_times, List.map_map]
  exact sum_map_set _ default a l i h

theorem fifo_sums_step (n : Nat) (s s1 : FifoState) (hinv : FifoInv n s) (hp : FifoSums s)
    (hlt : s.request_index < n) (hb : fifo_body s = Sum.inl s1) : FifoSums s1 := by
  have hlen := hinv.len
  obtain ⟨m, hm, hcase⟩ := fifo_body_cases s (by omega)
  have hadm := fifo_admitted_inv hinv m hm
  have key : 0 < (fifo_admitted s m).queue_length → FifoSums (fifo_dispatch (fifo_admitted s m)) := by
    intro hq
    obtain ⟨f1, f2, f3⟩ := hp
    have hq1 := hadm.q_le
    have hr1 := hadm.ri_le
    have hl1 := hadm.len
    simp only [fifo_admitted] at hq hq1 hr1 hl1
    have e2 : ((((s.request_index + m : Nat) : Int) - ((s.queue_length + m : Nat) : Int))).toNat
        = s.request_index - s.queue_length := by omega
    have hidx : s.request_index - s.queue_length < s.requests.length := by omega
    obtain ⟨c0, a0⟩ := f1 (s.request_index - s.queue_length) (le_refl _) hidx
    have z : max (0 : ℚ) ((s.requests.getD (s.request_index - s.queue_length) default).completion_time
        - (s.requests.getD (s.request_index - s.queue_length) default).arrival_time) = 0 := by
      rw [c0]
      exact max_eq_left (by linarith)
    refine ⟨?_, ?_, ?_⟩
    · intro i hi hil
      simp only [fifo_dispatch, fifo_admitted, e2, List.length_set] at hi hil ⊢
      have hne : s.request_index - s.queue_length ≠ i := by omega
      rw [List.getD_eq_getElem?_getD, List.getElem?_set_ne hne, ← List.getD_eq_getElem?_getD]
      exact f1 i (by omega) hil
    · simp only [fifo_dispatch, fifo_admitted, e2]
      rw [service_times_set _ _ hidx, f2, z]
      ring
    · simp only [fifo_dispatch, fifo_admitted, e2]
      rw [service_times_sq_set _ _ hidx, f3, z]
      ring
  rcases hcase with ⟨hr, hm0, hb1⟩ | ⟨hr, hm0, hq, hb1⟩ | ⟨hr, hm0, hq, hb1⟩
  · rw [hb1] at hb
    cases hb
    exact key (by simp only [fifo_admitted]; omega)
  · rw [hb1] at hb
    cases hb
    exact key (by simp only [fifo_admitted]; omega)
  · rw [hb1] at hb
    cases hb
    obtain ⟨f1, f2, f3⟩ := hp
    refine ⟨?_, f2, f3⟩
    intro i hi hil
    simp only [fifo_idle, fifo_admitted] at hi hil ⊢
    exact f1 i (by omega) hil
/-! ## The SSTF loop -/

theorem foldl_range_inv {σ : Type} (f : σ → Nat → σ) (P : Nat → σ → Prop) (init : σ) :
    ∀ n : Nat, P 0 init → (∀ k, k < n → ∀ a, P k a → P (k + 1) (f a k)) →
      P n ((List.range n).foldl f init) := by
  intro n
  induction n with
  | zero => intro h0 _; simpa using h0
  | succ m ih =>
    intro h0 hstep
    rw [List.range_succ, List.foldl_append]
    simp only [List.foldl_cons, List.foldl_nil]
    exact hstep m (Nat.lt_succ_self m) _ (ih h0 (fun k hk a ha => hstep k (by omega) a ha))

theorem count_set_true (l : List Bool) (i : Nat) (h : i < l.length) (hi : l.getD i false = false) :
    (l.set i true).count true = l.count true + 1 := by
  induction l generalizing i with
  | nil => simp at h
  | cons x xs ih =>
    cases i with
    | zero =>
      simp only [List.getD_cons_zero] at hi
      subst hi
      simp
    | succ j =>
      simp only [List.getD_cons_succ] at hi
      have := ih j (by simpa using h) hi
      simp only [List.set_cons_succ, List.count_cons, this]
      omega

theorem count_set_false (l : List Bool) (i : Nat) (h : i < l.length) (hi : l.getD i false = true) :
    (l.set i false).count true + 1 = l.count true := by
  induction l generalizing i with
  | nil => simp at h
  | cons x xs ih =>
    cases i with
    | zero =>
      simp only [List.getD_cons_zero] at hi
      subst hi
      simp
    | succ j =>
      simp only [List.getD_cons_succ] at hi
      have := ih j (by simpa using h) hi
      simp only [List.set_cons_succ, List.count_cons]
      omega

theorem getD_set_bool (l : List Bool) (i j : Nat) (b : Bool) :
    (l.set i b).getD j false = if i = j ∧ i < l.length then b else l.getD j false := by
  simp only [List.getD_eq_getElem?_getD, List.getElem?_set]
  by_cases h : i = j
  · subst h
    by_cases h2 : i < l.length
    · simp [h2]
    · simp [h2, List.getElem?_eq_none (by omega : l.length ≤ i)]
  · simp [h]

theorem getD_set_req (l : List DiskRequest) (i j : Nat) (b : DiskRequest) :
    (l.set i b).getD j default = if i = j ∧ i < l.length then b else l.getD j default := by
  simp only [List.getD_eq_getElem?_getD, List.getElem?_set]
  by_cases h : i = j
  · subst h
    by_cases h2 : i < l.length
    · simp [h2]
    · simp [h2, List.getElem?_eq_none (by omega : l.length ≤ i)]
  · simp [h]

theorem count_pos_getD (l : List Bool) (h : 0 < l.count true) :
    ∃ j, j < l.length ∧ l.getD j false = true := by
  rw [List.count_pos_iff] at h
  obtain ⟨j, hj, e⟩ := List.getElem_of_mem h
  exact ⟨j, hj, by simp [List.getD_eq_getElem?_getD, List.getElem?_eq_getElem hj, e]⟩

theorem count_zero_getD (l : List Bool) (h : l.count true = 0) (j : Nat) :
    l.getD j false = false := by
  by_cases hj : j < l.length
  · rw [List.count_eq_zero] at h
    have : l[j] ∈ l := List.getElem_mem hj
    cases e : l[j] with
    | true => rw [e] at this; exact absurd this h
    | false => simp [List.getD_eq_getElem?_getD, List.getElem?_eq_getElem hj, e]
  · simp [List.getD_eq_getElem?_getD, List.getElem?_eq_none (by omega : l.length ≤ j)]

theorem sstf_admit_spec (s : SstfState) (hq : s.queue_length = s.in_queue.count true)
    (hlen : s.in_queue.length = s.requests.length) :
    ∃ flags, sstf_admission s = { s with in_queue := flags, queue_length := flags.count true } ∧
      flags.length = s.requests.length ∧
      ∀ i, flags.getD i false = true ↔
        (s.in_queue.getD i false = true ∨
          (i < s.requests.length ∧ s.processed.getD i false = false ∧
            (s.requests.getD i default).arrival_time ≤ s.current_time)) := by
  have key := foldl_range_inv sstf_admission_at
    (fun k a => ∃ flags, a = { s with in_queue := flags, queue_length := flags.count true } ∧
      flags.length = s.requests.length ∧
      ∀ i, flags.getD i false = true ↔
        (s.in_queue.getD i false = true ∨
          (i < k ∧ s.processed.getD i false = false ∧
            (s.requests.getD i default).arrival_time ≤ s.current_time)))
    s s.requests.length ?_ ?_
  · exact key
  · refine ⟨s.in_queue, ?_, hlen, ?_⟩
    · rw [← hq]
    · intro i
      simp
  · rintro k hk a ⟨flags, rfl, hl, hf⟩
    by_cases hc : flags.getD k false = false ∧ s.processed.getD k false = false ∧
        (s.requests.getD k default).arrival_time ≤ s.current_time
    · refine ⟨flags.set k true, ?_, by simpa using hl, ?_⟩
      · simp only [sstf_admission_at]
        rw [if_pos hc, count_set_true _ _ (by omega) hc.1]
      · intro i
        rw [getD_set_bool]
        by_cases hik : k = i
        · subst hik
          simp only [true_and, hl, hk, if_true, true_iff]
          exact Or.inr ⟨Nat.lt_succ_self _, hc.2.1, hc.2.2⟩
        · simp only [hik, false_and, if_false, hf i]
          constructor
          · rintro (h | ⟨h1, h2⟩)
            · exact Or.inl h
            · exact Or.inr ⟨by omega, h2⟩
          · rintro (h | ⟨h1, h2⟩)
            · exact Or.inl h
            · exact Or.inr ⟨by omega, h2⟩
    · refine ⟨flags, ?_, hl, ?_⟩
      · simp only [sstf_admission_at]
        rw [if_neg hc]
      · intro i
        rw [hf i]
        constructor
        · rintro (h | ⟨h1, h2⟩)
          · exact Or.inl h
          · exact Or.inr ⟨by omega, h2⟩
        · rintro (h | ⟨h1, h2⟩)
          · exact Or.inl h
          · by_cases hik : i = k
            · subst hik
              have : flags.getD i false = true := by
                by_contra hne
                exact hc ⟨by simpa using hne, h2⟩
              exact (hf i).1 this
            · exact Or.inr ⟨by omega, h2⟩

theorem sstf_select_spec (s : SstfState) :
    ((sstf_select s).1 = -1 ∧
      ∀ j, j < s.requests.length → SstfCandidate s j → CYLINDERS + 1 ≤ sstf_distance s j) ∨
    (∃ c, c < s.requests.length ∧ (sstf_select s).1 = (c : Int) ∧ SstfCandidate s c ∧
      (∀ j, j < s.requests.length → SstfCandidate s j → sstf_distance s c ≤ sstf_distance s j) ∧
      (∀ j, j < c → SstfCandidate s j → sstf_distance s c < sstf_distance s j)) := by
  have key := foldl_range_inv (sstf_select_at s)
    (fun k acc =>
      (acc.1 = -1 ∧ acc.2 = CYLINDERS + 1 ∧
        ∀ j, j < k → SstfCandidate s j → CYLINDERS + 1 ≤ sstf_distance s j) ∨
      (∃ c, c < k ∧ acc.1 = (c : Int) ∧ SstfCandidate s c ∧ sstf_distance s c = acc.2 ∧
        acc.2 < CYLINDERS + 1 ∧
        (∀ j, j < k → SstfCandidate s j → acc.2 ≤ sstf_distance s j) ∧
        (∀ j, j < c → SstfCandidate s j → acc.2 < sstf_distance s j)))
    (-1, CYLINDERS + 1) s.requests.length ?_ ?_
  · rcases key with ⟨h1, _, h3⟩ | ⟨c, hc, h1, h2, h3, _, h5, h6⟩
    · exact Or.inl ⟨h1, h3⟩
    · refine Or.inr ⟨c, hc, h1, h2, ?_, ?_⟩
      · intro j hj hcand
        rw [h3]
        exact h5 j hj hcand
      · intro j hj hcand
        rw [h3]
        exact h6 j hj hcand
  · left
    refine ⟨rfl, rfl, ?_⟩
    intro j hj
    omega
  · intro k hk acc hacc
    by_cases hcand : s.in_queue.getD k false = true ∧ s.processed.getD k false = false
    · by_cases hd : |s.current_cylinder - (s.requests.getD k default).cylinder| < acc.2
      · have e : sstf_select_at s acc k = ((k : Int), sstf_distance s k) := by
          simp only [sstf_select_at, sstf_distance]
          rw [if_pos hcand, if_pos hd]
        rw [e]
        right
        have hd1 : sstf_distance s k < acc.2 := hd
        refine ⟨k, Nat.lt_succ_self k, rfl, hcand, rfl, ?_, ?_, ?_⟩
        · rcases hacc with ⟨_, h2, _⟩ | ⟨c, _, _, _, _, h4, _, _⟩
          · show sstf_distance s k < CYLINDERS + 1
            omega
          · show sstf_distance s k < CYLINDERS + 1
            omega
        · intro j hj hcj
          show sstf_distance s k ≤ sstf_distance s j
          by_cases hjk : j = k
          · subst hjk
            exact le_refl _
          · rcases hacc with ⟨_, h2, h3⟩ | ⟨c, _, _, _, _, _, h5, _⟩
            · have := h3 j (by omega) hcj
              omega
            · have := h5 j (by omega) hcj
              omega
        · intro j hj hcj
          show sstf_distance s k < sstf_distance s j
          rcases hacc with ⟨_, h2, h3⟩ | ⟨c, _, _, _, _, _, h5, _⟩
          · have := h3 j hj hcj
            omega
          · have := h5 j hj hcj
            omega
      · have e : sstf_select_at s acc k = acc := by
          simp only [sstf_select_at]
          rw [if_pos hcand, if_neg hd]
        rw [e]
        have hd1 : acc.2 ≤ sstf_distance s k := not_lt.mp hd
        rcases hacc with ⟨h1, h2, h3⟩ | ⟨c, hc, h1, h2, h3, h4, h5, h6⟩
        · left
          refine ⟨h1, h2, ?_⟩
          intro j hj hcj
          by_cases hjk : j = k
          · subst hjk
            omega
          · exact h3 j (by omega) hcj
        · right
          refine ⟨c, by omega, h1, h2, h3, h4, ?_, h6⟩
          intro j hj hcj
          by_cases hjk : j = k
          · subst hjk
            exact hd1
          · exact h5 j (by omega) hcj
    · have e : sstf_select_at s acc k = acc := by
        simp only [sstf_select_at]
        rw [if_neg hcand]
      rw [e]
      rcases hacc with ⟨h1, h2, h3⟩ | ⟨c, hc, h1, h2, h3, h4, h5, h6⟩
      · left
        refine ⟨h1, h2, ?_⟩
        intro j hj hcj
        by_cases hjk : j = k
        · subst hjk
          exact absurd hcj hcand
        · exact h3 j (by omega) hcj
      · right
        refine ⟨c, by omega, h1, h2, h3, h4, ?_, h6⟩
        intro j hj hcj
        by_cases hjk : j = k
        · subst hjk
          exact absurd hcj hcand
        · exact h5 j (by omega) hcj

theorem sstf_next_arrival_spec (s : SstfState) :
    (∀ j, j < s.requests.length → s.processed.getD j false = false →
      sstf_next_arrival s ≤ (s.requests.getD j default).arrival_time) ∧
    (sstf_next_arrival s = SIMULATION_TIME + 1 ∨
      ∃ j, j < s.requests.length ∧ s.processed.getD j false = false ∧
        (s.requests.getD j default).arrival_time = sstf_next_arrival s) := by
  have key := foldl_range_inv
    (fun next_arrival i =>
      if s.processed.getD i false = false ∧
          (s.requests.getD i default).arrival_time < next_arrival then
        (s.requests.getD i default).arrival_time
      else next_arrival)
    (fun k na =>
      (∀ j, j < k → s.processed.getD j false = false →
        (na ≤ (s.requests.getD j default).arrival_time ∨ SIMULATION_TIME + 1 ≤
          (s.requests.getD j default).arrival_time)) ∧
      (na = SIMULATION_TIME + 1 ∨
        ∃ j, j < k ∧ s.processed.getD j false = false ∧
          (s.requests.getD j default).arrival_time = na) ∧ na ≤ SIMULATION_TIME + 1)
    (SIMULATION_TIME + 1) s.requests.length ?_ ?_
  · obtain ⟨h1, h2, h3⟩ := key
    refine ⟨?_, h2⟩
    intro j hj hp
    rcases h1 j hj hp with h | h
    · exact h
    · exact le_trans h3 h
  · exact ⟨fun j hj => by omega, Or.inl rfl, le_refl _⟩
  · rintro k hk na ⟨h1, h2, h3⟩
    by_cases hc : s.processed.getD k false = false ∧
        (s.requests.getD k default).arrival_time < na
    · simp only [if_pos hc]
      refine ⟨?_, Or.inr ⟨k, Nat.lt_succ_self k, hc.1, rfl⟩, le_trans (le_of_lt hc.2) h3⟩
      intro j hj hp
      by_cases hjk : j = k
      · subst hjk
        exact Or.inl (le_refl _)
      · rcases h1 j (by omega) hp with h | h
        · exact Or.inl (le_trans (le_of_lt hc.2) h)
        · exact Or.inr h
    · simp only [if_neg hc]
      refine ⟨?_, ?_, h3⟩
      · intro j hj hp
        by_cases hjk : j = k
        · subst hjk
          left
          by_contra hlt
          exact hc ⟨hp, not_le.mp hlt⟩
        · exact h1 j (by omega) hp
      · rcases h2 with h | ⟨j, hj, hp, he⟩
        · exact Or.inl h
        · exact Or.inr ⟨j, by omega, hp, he⟩

theorem exists_not_mem_of_length_lt (l : List Nat) (n : Nat) (hl : l.length < n) :
    ∃ j, j < n ∧ j ∉ l := by
  by_contra hcon
  push_neg at hcon
  have hsub : List.range n ⊆ l := by
    intro j hj
    exact hcon j (List.mem_range.mp hj)
  have := (List.subperm_of_subset (List.nodup_range n) hsub).length_le
  simp at this
  omega

theorem getD_mem_placed {reqs0 : List DiskRequest} (hv : ∀ r ∈ reqs0, Placed r) (j : Nat)
    (hj : j < reqs0.length) : Placed (reqs0.getD j default) := by
  apply hv
  rw [List.getD_eq_getElem?_getD, List.getElem?_eq_getElem hj]
  exact List.getElem_mem hj

theorem sstf_admitted_inv {reqs0 : List DiskRequest} {s : SstfState} (hinv : SstfInv reqs0 s)
    (flags : List Bool) (hl : flags.length = s.requests.length)
    (hf : ∀ i, flags.getD i false = true ↔
        (s.in_queue.getD i false = true ∨
          (i < s.requests.length ∧ s.processed.getD i false = false ∧
            (s.requests.getD i default).arrival_time ≤ s.current_time))) :
    SstfInv reqs0 (sstf_admitted s flags) := by
  obtain ⟨h1, h2, h3, h4, h5, h6, h7, h8, h9, h10, h11⟩ := hinv
  refine ⟨h1, by simpa [sstf_admitted, h1] using hl, h3, h4, ?_, rfl, h7, h8, h9, h10, h11⟩
  intro i hi
  simp only [sstf_admitted] at hi ⊢
  rcases (hf i).1 hi with h | ⟨_, h, _⟩
  · exact h5 i h
  · exact h

theorem sstf_idle_inv {reqs0 : List DiskRequest} {s : SstfState} (hinv : SstfInv reqs0 s)
    (na : ℚ) : SstfInv reqs0 (sstf_idle s na) := by
  obtain ⟨h1, h2, h3, h4, h5, h6, h7, h8, h9, h10, h11⟩ := hinv
  refine ⟨h1, h2, h3, h4, h5, h6, h7, h8, h9, h10, ?_⟩
  simp only [sstf_idle]
  rw [← h11]
  ring

theorem sstf_dispatch_inv {reqs0 : List DiskRequest} {s : SstfState} (hinv : SstfInv reqs0 s)
    (hv : ∀ r ∈ reqs0, Placed r) (c : Nat) (hc : c < s.requests.length)
    (hcand : SstfCandidate s c) : SstfInv reqs0 (sstf_dispatch s (c : Int)) := by
  obtain ⟨h1, h2, h3, h4, h5, h6, h7, h8, h9, h10, h11⟩ := hinv
  obtain ⟨hq, hp⟩ := hcand
  have hcn : c ∉ s.log.map Prod.fst := by
    intro hmem
    have := (h9 c).2 hmem
    rw [hp] at this
    cases this
  refine ⟨?_, ?_, ?_, ?_, ?_, ?_, ?_, ?_, ?_, ?_, ?_⟩
  · simp [sstf_dispatch, h1]
  · simp [sstf_dispatch, h2]
  · simp [sstf_dispatch, h3]
  · intro i
    simp only [sstf_dispatch, Int.toNat_ofNat, getD_set_req]
    by_cases hi : c = i ∧ c < s.requests.length
    · rw [if_pos hi]
      obtain ⟨rfl, _⟩ := hi
      exact h4 c
    · rw [if_neg hi]
      exact h4 i
  · intro i
    simp only [sstf_dispatch, Int.toNat_ofNat, getD_set_bool]
    by_cases hi : c = i
    · subst hi
      simp [h2, h1 ▸ hc]
    · simp only [hi, false_and, if_false]
      exact h5 i
  · simp only [sstf_dispatch, Int.toNat_ofNat]
    have := count_set_false s.in_queue c (by omega) hq
    omega
  · simp [sstf_dispatch, h7]
  · simp only [sstf_dispatch, Int.toNat_ofNat, List.map_append, List.map_cons, List.map_nil]
    rw [List.nodup_append]
    refine ⟨h8, List.nodup_singleton c, ?_⟩
    intro a ha hb
    simp only [List.mem_singleton] at hb
    subst hb
    exact hcn ha
  · intro i
    simp only [sstf_dispatch, Int.toNat_ofNat, getD_set_bool, List.map_append, List.map_cons,
      List.map_nil, List.mem_append, List.mem_singleton]
    by_cases hi : c = i
    · subst hi
      simp [h3, h1 ▸ hc]
    · simp only [hi, false_and, if_false, h9 i]
      constructor
      · exact Or.inl
      · rintro (h | h)
        · exact h
        · exact absurd h.symm hi
  · simp only [sstf_dispatch, Int.toNat_ofNat]
    have hs := h4 c
    have hpl := getD_mem_placed hv c (by omega)
    rw [hs.2.1]
    exact hpl.2
  · simp only [sstf_dispatch, List.map_append, List.sum_append, List.map_cons, List.map_nil,
      List.sum_cons, List.sum_nil]
    rw [← h11]
    ring

theorem sstf_body_cases {reqs0 : List DiskRequest} {s : SstfState} (hinv : SstfInv reqs0 s)
    (hv : ∀ r ∈ reqs0, Placed r) (hlt : s.processed_count < s.requests.length) :
    ∃ flags, flags.length = s.requests.length ∧
      (∀ i, flags.getD i false = true ↔
        (s.in_queue.getD i false = true ∨
          (i < s.requests.length ∧ s.processed.getD i false = false ∧
            (s.requests.getD i default).arrival_time ≤ s.current_time))) ∧
      sstf_enqueue s = sstf_admitted s flags ∧
      ((0 < flags.count true ∧ ∃ c, c < s.requests.length ∧
          (sstf_select (sstf_admitted s flags)).1 = (c : Int) ∧
          SstfCandidate (sstf_admitted s flags) c ∧
          (∀ j, j < s.requests.length → SstfCandidate (sstf_admitted s flags) j →
            sstf_distance (sstf_admitted s flags) c ≤ sstf_distance (sstf_admitted s flags) j) ∧
          (∀ j, j < c → SstfCandidate (sstf_admitted s flags) j →
            sstf_distance (sstf_admitted s flags) c < sstf_distance (sstf_admitted s flags) j) ∧
          sstf_body s = Sum.inl (sstf_dispatch (sstf_admitted s flags) (c : Int))) ∨
       (flags.count true = 0 ∧ ∃ j, j < s.requests.length ∧ s.processed.getD j false = false ∧
          (∀ k, k < s.requests.length → s.processed.getD k false = false →
            (s.requests.getD j default).arrival_time ≤ (s.requests.getD k default).arrival_time) ∧
          sstf_body s =
            Sum.inl (sstf_idle (sstf_admitted s flags) (s.requests.getD j default).arrival_time))) := by
  obtain ⟨flags, hadm, hl, hf⟩ := sstf_admit_spec s hinv.q_count (by rw [hinv.len_q, hinv.len])
  have hinv2 := sstf_admitted_inv hinv flags hl hf
  have hs2 : sstf_enqueue s = sstf_admitted s flags := by
    simp only [sstf_enqueue]
    rw [hadm]
    simp only [sstf_admitted]
    split <;> rfl
  refine ⟨flags, hl, hf, hs2, ?_⟩
  have hb : sstf_body s =
      if (sstf_admitted s flags).queue_length > 0 then
        if (sstf_select (sstf_admitted s flags)).1 = -1 then Sum.inr (sstf_admitted s flags)
        else Sum.inl (sstf_dispatch (sstf_admitted s flags) (sstf_select (sstf_admitted s flags)).1)
      else
        if sstf_next_arrival (sstf_admitted s flags) ≤ SIMULATION_TIME then
          Sum.inl (sstf_idle (sstf_admitted s flags) (sstf_next_arrival (sstf_admitted s flags)))
        else Sum.inr (sstf_admitted s flags) := by
    simp only [sstf_body]
    rw [hs2]
    rfl
  have hreq : (sstf_admitted s flags).requests = s.requests := rfl
  have hproc : (sstf_admitted s flags).processed = s.processed := rfl
  by_cases hcount : 0 < flags.count true
  · left
    refine ⟨hcount, ?_⟩
    have hq2 : (sstf_admitted s flags).queue_length > 0 := hcount
    rw [hb, if_pos hq2]
    rcases sstf_select_spec (sstf_admitted s flags) with ⟨_, hall⟩ | ⟨c, hc, hsel, hcand, hmin, hfirst⟩
    · exfalso
      obtain ⟨j, hj, hjt⟩ := count_pos_getD flags hcount
      have hcj : SstfCandidate (sstf_admitted s flags) j := ⟨hjt, hinv2.queued j hjt⟩
      have hd := hall j (by rw [hreq, ← hl]; exact hj) hcj
      have hpl := getD_mem_placed hv j (by rw [← hinv.len, ← hl]; exact hj)
      have hst := (hinv.static j).2.1
      have hcyl := hinv.cyl
      simp only [sstf_distance, sstf_admitted] at hd
      rw [hst] at hd
      obtain ⟨_, p1, p2⟩ := hpl
      rcases abs_cases (s.current_cylinder - (reqs0.getD j default).cylinder) with ⟨e, _⟩ | ⟨e, _⟩ <;>
        rw [e] at hd <;> omega
    · rw [hreq] at hc
      rw [hsel, if_neg (by omega)]
      exact ⟨c, hc, rfl, hcand, hmin, hfirst, rfl⟩
  · right
    have hc0 : flags.count true = 0 := by omega
    refine ⟨hc0, ?_⟩
    have hq2 : ¬ (sstf_admitted s flags).queue_length > 0 := by
      simp only [sstf_admitted]
      omega
    rw [hb, if_neg hq2]
    obtain ⟨j, hj, hjn⟩ := exists_not_mem_of_length_lt (s.log.map Prod.fst) s.requests.length
      (by rw [List.length_map, ← hinv.pc_log]; exact hlt)
    have hju : s.processed.getD j false = false := by
      cases e : s.processed.getD j false with
      | false => rfl
      | true => exact absurd ((hinv.proc_log j).1 e) hjn
    obtain ⟨hle, hor⟩ := sstf_next_arrival_spec (sstf_admitted s flags)
    rw [hreq, hproc] at hle hor
    have hpl := getD_mem_placed hv j (by rw [← hinv.len]; exact hj)
    have hst := (hinv.static j).1
    have hna := hle j hj hju
    rw [hst] at hna
    have hna2 : sstf_next_arrival (sstf_admitted s flags) ≤ SIMULATION_TIME := le_trans hna hpl.1
    rw [if_pos hna2]
    rcases hor with h | ⟨k, hk, hku, hke⟩
    · rw [h] at hna2
      linarith
    · refine ⟨k, hk, hku, ?_, by rw [hke]⟩
      intro i hi hiu
      rw [hke]
      exact hle i hi hiu

theorem getD_true_count_pos (l : List Bool) (j : Nat) (h : l.getD j false = true) :
    0 < l.count true := by
  by_contra hc
  have := count_zero_getD l (by omega) j
  rw [this] at h
  cases h

theorem sstf_log_length_le {reqs0 : List DiskRequest} {s : SstfState} (hinv : SstfInv reqs0 s) :
    s.log.length ≤ reqs0.length := by
  have hsub : s.log.map Prod.fst ⊆ List.range reqs0.length := by
    intro i hi
    have hp := (hinv.proc_log i).2 hi
    rw [List.mem_range, ← hinv.len_p]
    by_contra hge
    rw [List.getD_eq_getElem?_getD, List.getElem?_eq_none (by omega)] at hp
    cases hp
  have := (List.subperm_of_subset hinv.nodup hsub).length_le
  simpa using this

/-- Every pass of the outer loop of `simulate_sstf` over placed requests
continues the loop, keeps the invariant and any property `P` that the passes
keep, and the loop ends within the fuel with every request served. -/
theorem sstf_loop_spec (reqs0 : List DiskRequest) (hv : ∀ r ∈ reqs0, Placed r)
    (P : SstfState → Prop)
    (hP : ∀ s s1, SstfInv reqs0 s → P s → s.processed_count < s.requests.length →
      sstf_body s = Sum.inl s1 → P s1) :
    ∀ fuel s, SstfInv reqs0 s → P s →
      (2 * (reqs0.length - s.processed_count) + 1 ≤ fuel ∨
        (SstfReady s ∧ s.processed_count < reqs0.length ∧
          2 * (reqs0.length - s.processed_count) ≤ fuel)) →
      ∃ s1, sstf_loop fuel s = some s1 ∧ SstfInv reqs0 s1 ∧ P s1 ∧
        s1.processed_count = reqs0.length := by
  intro fuel
  induction fuel with
  | zero =>
    intro s _ _ hf
    rcases hf with hf | ⟨_, h1, hf⟩ <;> omega
  | succ k ih =>
    intro s hinv hp hf
    have hlen := hinv.len
    by_cases hlt : s.processed_count < s.requests.length
    · obtain ⟨flags, hl, hfl, -, hcase⟩ := sstf_body_cases hinv hv hlt
      have hadm := sstf_admitted_inv hinv flags hl hfl
      rcases hcase with ⟨_, c, hc, _, hcand, _, _, hb⟩ | ⟨hc0, j, hj, hju, hmin, hb⟩
      · have hinv1 := sstf_dispatch_inv hadm hv c hc hcand
        have hp1 := hP s _ hinv hp hlt hb
        rw [sstf_loop, if_pos hlt, hb]
        refine ih _ hinv1 hp1 (Or.inl ?_)
        have e : (sstf_dispatch (sstf_admitted s flags) (c : Int)).processed_count
            = s.processed_count + 1 := rfl
        rw [e]
        rcases hf with hf | ⟨_, _, hf⟩ <;> omega
      · have hinv1 := sstf_idle_inv hadm (s.requests.getD j default).arrival_time
        have hp1 := hP s _ hinv hp hlt hb
        rw [sstf_loop, if_pos hlt, hb]
        have hnr : ¬ SstfReady s := by
          rintro ⟨i, hi, hiu, hia⟩
          have := getD_true_count_pos flags i ((hfl i).2 (Or.inr ⟨hi, hiu, hia⟩))
          omega
        refine ih _ hinv1 hp1 (Or.inr ⟨⟨j, hj, hju, le_refl _⟩, ?_, ?_⟩)
        · show s.processed_count < reqs0.length
          omega
        · show 2 * (reqs0.length - s.processed_count) ≤ k
          rcases hf with hf | ⟨hr, _, _⟩
          · omega
          · exact absurd hr hnr
    · refine ⟨s, ?_, hinv, hp, ?_⟩
      · rw [sstf_loop, if_neg hlt]
      · have := sstf_log_length_le hinv
        have := hinv.pc_log
        omega

theorem sstf_init_inv (requests : List DiskRequest) : SstfInv requests (sstf_init requests) := by
  refine ⟨rfl, by simp [sstf_init], by simp [sstf_init], fun i => ⟨rfl, rfl, rfl, rfl, rfl, rfl⟩,
    ?_, ?_, rfl, by simp [sstf_init], ?_, by simp [sstf_init, CYLINDERS], by simp [sstf_init]⟩
  · intro i hi
    exfalso
    simp only [sstf_init, List.getD_eq_getElem?_getD] at hi
    by_cases h : i < requests.length
    · simp [List.getElem?_replicate, h] at hi
    · simp [List.getElem?_replicate, h] at hi
  · simp [sstf_init, List.count_replicate]
  · intro i
    simp only [sstf_init, List.map_nil, List.not_mem_nil, iff_false, List.getD_eq_getElem?_getD]
    by_cases h : i < requests.length
    · simp [List.getElem?_replicate, h]
    · simp [List.getElem?_replicate, h]

theorem simulate_sstf_spec (requests : List DiskRequest) (hv : ∀ r ∈ requests, Placed r)
    (P : SstfState → Prop)
    (hP : ∀ s s1, SstfInv requests s → P s → s.processed_count < s.requests.length →
      sstf_body s = Sum.inl s1 → P s1)
    (h0 : P (sstf_init requests)) :
    ∃ s, simulate_sstf requests = some s ∧ SstfInv requests s ∧ P s ∧
      s.processed_count = requests.length := by
  refine sstf_loop_spec requests hv P hP _ _ (sstf_init_inv requests) h0 (Or.inl ?_)
  simp [sstf_init]

/-! ## The timing model -/

theorem fmod_360_range (x : ℚ) (hx : 0 ≤ x) : 0 ≤ fmod x 360 ∧ fmod x 360 < 360 := by
  have h0 : (0 : ℚ) ≤ x / 360 := by positivity
  simp only [fmod, if_pos h0]
  have h1 := Int.floor_le (x / 360)
  have h2 := Int.lt_floor_add_one (x / 360)
  constructor
  · have : (360 : ℚ) * ⌊x / 360⌋ ≤ 360 * (x / 360) := by linarith
    have e : (360 : ℚ) * (x / 360) = x := by ring
    linarith
  · have : (360 : ℚ) * (x / 360) < 360 * (⌊x / 360⌋ + 1) := by linarith
    have e : (360 : ℚ) * (x / 360) = x := by ring
    linarith

theorem seek_time_nonneg (a b : Int) : 0 ≤ calculate_seek_time a b := by
  simp only [calculate_seek_time, SEEK_TIME_PER_CYLINDER]
  positivity

theorem rotational_latency_nonneg (angle : ℚ) (sector : Int) (ha : 0 ≤ angle ∧ angle < 360)
    (hs : 0 ≤ sector) : 0 ≤ calculate_rotational_latency angle sector := by
  simp only [calculate_rotational_latency, SECTORS_PER_TRACK, ROTATION_TIME, RPM]
  have hs' : (0 : ℚ) ≤ (sector : ℚ) := by exact_mod_cast hs
  have harg : (0 : ℚ) ≤ (sector : ℚ) * (360 / ((16 : Int) : ℚ)) - angle + 360 := by
    have : (0 : ℚ) ≤ (sector : ℚ) * (360 / ((16 : Int) : ℚ)) := by
      apply mul_nonneg hs'
      norm_num
    linarith [ha.2]
  have := (fmod_360_range _ harg).1
  have h6 : (0 : ℚ) ≤ 60000 / 10000 := by norm_num
  exact mul_nonneg (div_nonneg this (by norm_num)) h6

theorem transfer_time_nonneg (k op : Int) (hk : 0 ≤ k) : 0 ≤ calculate_transfer_time k op := by
  simp only [calculate_transfer_time, SECTOR_TIME, ROTATION_TIME, RPM, SECTORS_PER_TRACK]
  have hk' : (0 : ℚ) ≤ (k : ℚ) := by exact_mod_cast hk
  have h : (0 : ℚ) ≤ (k : ℚ) * (60000 / 10000 / ((16 : Int) : ℚ)) := by
    apply mul_nonneg hk'
    norm_num
  split
  · linarith
  · exact h

theorem next_angle_range (angle rot transfer : ℚ) (ha : 0 ≤ angle) (hr : 0 ≤ rot)
    (ht : 0 ≤ transfer) :
    0 ≤ fmod (angle + (rot + transfer) / ROTATION_TIME * 360) 360 ∧
      fmod (angle + (rot + transfer) / ROTATION_TIME * 360) 360 < 360 := by
  apply fmod_360_range
  have : (0 : ℚ) ≤ (rot + transfer) / ROTATION_TIME * 360 := by
    simp only [ROTATION_TIME, RPM]
    have : (0 : ℚ) ≤ rot + transfer := by linarith
    positivity
  linarith

theorem valid_placed {r : DiskRequest} (h : ValidRequest r) : Placed r :=
  ⟨le_of_lt h.2.1, h.2.2.1, h.2.2.2.1⟩

theorem getD_mem_valid {reqs0 : List DiskRequest} (hv : ∀ r ∈ reqs0, ValidRequest r) (j : Nat)
    (hj : j < reqs0.length) : ValidRequest (reqs0.getD j default) := by
  apply hv
  rw [List.getD_eq_getElem?_getD, List.getElem?_eq_getElem hj]
  exact List.getElem_mem hj

theorem sstf_times_step (reqs0 : List DiskRequest) (hv : ∀ r ∈ reqs0, ValidRequest r)
    (s s1 : SstfState) (hinv : SstfInv reqs0 s) (hp : SstfTimes s)
    (hlt : s.processed_count < s.requests.length) (hb : sstf_body s = Sum.inl s1) :
    SstfTimes s1 := by
  obtain ⟨flags, hl, hfl, -, hcase⟩ :=
    sstf_body_cases hinv (fun r hr => valid_placed (hv r hr)) hlt
  obtain ⟨t1, t2, t3⟩ := hp
  have hqa : ∀ i, flags.getD i false = true →
      (s.requests.getD i default).arrival_time ≤ s.current_time := by
    intro i hi
    rcases (hfl i).1 hi with h | ⟨_, _, h⟩
    · exact t2 i h
    · exact h
  rcases hcase with ⟨_, c, hc, _, hcand, _, _, hb1⟩ | ⟨hc0, j, hj, hju, hmin, hb1⟩
  · rw [hb1] at hb
    cases hb
    have hvc := getD_mem_valid hv c (by rw [← hinv.len]; exact hc)
    obtain ⟨e1, e2, e3, e4, e5, e6⟩ := hinv.static c
    have hrot : 0 ≤ calculate_rotational_latency s.current_angle
        (s.requests.getD c default).sector :=
      rotational_latency_nonneg _ _ t1 (by rw [e4]; exact hvc.2.2.2.2.1)
    have htr : 0 ≤ calculate_transfer_time (s.requests.getD c default).num_sectors
        (s.requests.getD c default).operation :=
      transfer_time_nonneg _ _ (by rw [e6]; have := hvc.2.2.2.2.2.2.1; omega)
    have hseek := seek_time_nonneg s.current_cylinder (s.requests.getD c default).cylinder
    have harr := hqa c hcand.1
    refine ⟨?_, ?_, ?_⟩
    · simp only [sstf_dispatch, sstf_admitted, Int.toNat_ofNat]
      exact next_angle_range _ _ _ t1.1 hrot htr
    · intro i
      simp only [sstf_dispatch, sstf_admitted, Int.toNat_ofNat, getD_set_bool, getD_set_req]
      by_cases hi : c = i
      · subst hi
        simp [hl, hc]
      · simp only [hi, false_and, if_false]
        intro hq
        have := hqa i hq
        linarith
    · intro i
      simp only [sstf_dispatch, sstf_admitted, Int.toNat_ofNat, getD_set_bool, getD_set_req]
      by_cases hi : c = i
      · subst hi
        simp only [true_and, hc, if_true]
        intro _
        constructor
        · exact harr
        · linarith
      · simp only [hi, false_and, if_false]
        exact t3 i
  · rw [hb1] at hb
    cases hb
    refine ⟨t1, ?_, t3⟩
    intro i hi
    simp only [sstf_idle, sstf_admitted] at hi
    rw [count_zero_getD flags hc0 i] at hi
    cases hi

theorem sstf_init_times (requests : List DiskRequest) : SstfTimes (sstf_init requests) := by
  refine ⟨by simp [sstf_init], ?_, ?_⟩
  · intro i hi
    exfalso
    simp only [sstf_init, List.getD_eq_getElem?_getD] at hi
    by_cases h : i < requests.length
    · simp [List.getElem?_replicate, h] at hi
    · simp [List.getElem?_replicate, h] at hi
  · intro i hi
    exfalso
    simp only [sstf_init, List.getD_eq_getElem?_getD] at hi
    by_cases h : i < requests.length
    · simp [List.getElem?_replicate, h] at hi
    · simp [List.getElem?_replicate, h] at hi

/-! ## Results on `simulate_fifo` -/

/-- C1 (the code at the failing input): on the scenario of the specification,
three valid requests arriving at time 0 at cylinders 10, 50, 11, `simulate_fifo`
returns after a single dispatch, that of index 0; the loop condition
`request_index < total_requests` is false once all three are admitted, and the
two requests still queued keep their zero start and completion times. -/
theorem fifo_scenario_one_dispatch :
    (∀ r ∈ scenario, ValidRequest r) ∧ SortedArrivals scenario ∧
      (simulate_fifo scenario).map
        (fun s => (s.log.map Prod.fst, s.queue_length,
          s.requests.map (fun r => (r.start_time, r.completion_time))))
        = some ([0], 2, [(0, 43 / 8), (0, 0), (0, 0)]) := by
  refine ⟨by decide!, by decide!, by decide!⟩

/-- C2 (the code at the failing input): on two valid requests that both arrive
at time 1, `simulate_fifo` serves only the first; the second is returned with
`start_time = 0`, which is below its `arrival_time = 1`. -/
theorem fifo_two_at_one_unstarted :
    (∀ r ∈ two_at_one, ValidRequest r) ∧ SortedArrivals two_at_one ∧
      (simulate_fifo two_at_one).map
        (fun s => s.requests.map (fun r => (r.arrival_time, r.start_time, r.completion_time)))
        = some [(1, 1, 51 / 8), (1, 0, 0)] := by
  refine ⟨by decide!, by decide!, by decide!⟩

/-- C5: for every request sequence `simulate_fifo` returns, the `k`-th request
it dispatched is the one at index `k` (the dispatch log lists the indices
`0, 1, 2, ...` in this order, so a lower index is always started before a
higher one), and every index `request_index - queue_length` it read lies in
`[0, total_requests)`. -/
theorem fifo_dispatch_in_index_order (requests : List DiskRequest) :
    ∃ s, simulate_fifo requests = some s ∧
      s.log.map Prod.fst = (List.range s.log.length).map Int.ofNat ∧
      s.log.length ≤ requests.length ∧
      ∀ e ∈ s.log, 0 ≤ e.1 ∧ e.1 < (requests.length : Int) := by
  obtain ⟨s, hs, hinv, -, hri⟩ :=
    simulate_fifo_spec requests (fun _ => True) (fun _ _ _ _ _ _ => trivial) trivial
  have hlen : s.log.length = s.request_index - s.queue_length := by
    have := congrArg List.length hinv.log_idx
    simpa using this
  have hle : s.log.length ≤ requests.length := by
    have := hinv.ri_le
    omega
  refine ⟨s, hs, ?_, hle, ?_⟩
  · rw [hlen]
    exact hinv.log_idx
  · intro e he
    have hmem : e.1 ∈ s.log.map Prod.fst := List.mem_map_of_mem Prod.fst he
    rw [hinv.log_idx, List.mem_map] at hmem
    obtain ⟨k, hk, hke⟩ := hmem
    rw [List.mem_range] at hk
    rw [← hke]
    simp only [Int.ofNat_eq_coe]
    omega

/-! ## Results on `simulate_sstf` -/

theorem sstf_all_served {reqs0 : List DiskRequest} {s : SstfState} (hinv : SstfInv reqs0 s)
    (hpc : s.processed_count = reqs0.length) :
    (s.log.map Prod.fst).Perm (List.range reqs0.length) := by
  have hsub : s.log.map Prod.fst ⊆ List.range reqs0.length := by
    intro i hi
    have hp := (hinv.proc_log i).2 hi
    rw [List.mem_range, ← hinv.len_p]
    by_contra hge
    rw [List.getD_eq_getElem?_getD, List.getElem?_eq_none (by omega)] at hp
    cases hp
  apply (List.subperm_of_subset hinv.nodup hsub).perm_of_length_le
  rw [List.length_range, List.length_map, ← hinv.pc_log, hpc]

/-- C3: for every valid request sequence `simulate_sstf` returns, the array it
leaves holds the same requests, and every one of them satisfies
`arrival_time ≤ start_time ≤ completion_time`. -/
theorem sstf_times_ordered (requests : List DiskRequest)
    (hv : ∀ r ∈ requests, ValidRequest r) :
    ∃ s, simulate_sstf requests = some s ∧ s.requests.length = requests.length ∧
      (∀ i, SameStatic (s.requests.getD i default) (requests.getD i default)) ∧
      ∀ r ∈ s.requests, r.arrival_time ≤ r.start_time ∧ r.start_time ≤ r.completion_time := by
  obtain ⟨s, hs, hinv, htimes, hpc⟩ :=
    simulate_sstf_spec requests (fun r hr => valid_placed (hv r hr)) SstfTimes
      (sstf_times_step requests hv) (sstf_init_times requests)
  refine ⟨s, hs, hinv.len, hinv.static, ?_⟩
  intro r hr
  obtain ⟨i, hi, rfl⟩ := List.getElem_of_mem hr
  have hmem : i ∈ s.log.map Prod.fst := by
    rw [(sstf_all_served hinv hpc).mem_iff, List.mem_range, ← hinv.len]
    exact hi
  have := htimes.served i ((hinv.proc_log i).2 hmem)
  rw [List.getD_eq_getElem?_getD, List.getElem?_eq_getElem hi] at this
  exact this

theorem sstf_times_ordered_witness :
    (∀ r ∈ scenario, ValidRequest r) ∧
    ∃ s, simulate_sstf scenario = some s ∧ s.requests.length = scenario.length ∧
      (∀ i, SameStatic (s.requests.getD i default) (scenario.getD i default)) ∧
      ∀ r ∈ s.requests, r.arrival_time ≤ r.start_time ∧ r.start_time ≤ r.completion_time :=
  ⟨by decide!, sstf_times_ordered scenario (by decide!)⟩

/-- C6: for every request sequence with arrival times in `[0, 300000]` and
cylinders in `[0, 500)`, the loop of `simulate_sstf` terminates, its dispatch
log is a permutation of the indices `0 .. total_requests - 1` (every request
is dispatched, none twice), and the reported `total_requests` is the input
size. -/
theorem sstf_serves_each_once {R : Type} (sqrt : ℚ → R) (requests : List DiskRequest)
    (hv : ∀ r ∈ requests, 0 ≤ r.arrival_time ∧ r.arrival_time ≤ SIMULATION_TIME ∧
      0 ≤ r.cylinder ∧ r.cylinder < CYLINDERS) :
    ∃ s, simulate_sstf requests = some s ∧
      (s.log.map Prod.fst).Perm (List.range requests.length) ∧
      (s.log.map Prod.fst).Nodup ∧
      (sstf_stats sqrt s).total_requests = requests.length := by
  obtain ⟨s, hs, hinv, -, hpc⟩ :=
    simulate_sstf_spec requests (fun r hr => ⟨(hv r hr).2.1, (hv r hr).2.2⟩) (fun _ => True)
      (fun _ _ _ _ _ _ => trivial) trivial
  exact ⟨s, hs, sstf_all_served hinv hpc, hinv.nodup, hpc⟩

theorem sstf_serves_each_once_witness :
    (∀ r ∈ scenario, 0 ≤ r.arrival_time ∧ r.arrival_time ≤ SIMULATION_TIME ∧
      0 ≤ r.cylinder ∧ r.cylinder < CYLINDERS) ∧
    ∃ s, simulate_sstf scenario = some s ∧
      (s.log.map Prod.fst).Perm (List.range scenario.length) ∧
      (s.log.map Prod.fst).Nodup ∧
      (sstf_stats (fun q : ℚ => q) s).total_requests = scenario.length :=
  ⟨by decide!, sstf_serves_each_once (fun q : ℚ => q) scenario (by decide!)⟩

theorem sstf_inv_step (reqs0 : List DiskRequest) (hv : ∀ r ∈ reqs0, Placed r)
    (s s1 : SstfState) (hinv : SstfInv reqs0 s)
    (hlt : s.processed_count < s.requests.length) (hb : sstf_body s = Sum.inl s1) :
    SstfInv reqs0 s1 := by
  obtain ⟨flags, hl, hfl, -, hcase⟩ := sstf_body_cases hinv hv hlt
  have hadm := sstf_admitted_inv hinv flags hl hfl
  rcases hcase with ⟨_, c, hc, _, hcand, _, _, hb1⟩ | ⟨hc0, j, hj, hju, hmin, hb1⟩
  · rw [hb1] at hb
    cases hb
    exact sstf_dispatch_inv hadm hv c hc hcand
  · rw [hb1] at hb
    cases hb
    exact sstf_idle_inv hadm _

theorem sstf_run_inv (requests : List DiskRequest) (hv : ∀ r ∈ requests, ValidRequest r) :
    ∀ k s, sstf_run requests k = some s → SstfInv requests s ∧ SstfTimes s := by
  intro k
  induction k with
  | zero =>
    intro s hs
    simp only [sstf_run, Option.some.injEq] at hs
    subst hs
    exact ⟨sstf_init_inv requests, sstf_init_times requests⟩
  | succ m ih =>
    intro s hs
    simp only [sstf_run] at hs
    cases h0 : sstf_run requests m with
    | none => simp [h0] at hs
    | some s0 =>
      obtain ⟨hinv, htimes⟩ := ih s0 h0
      simp only [h0] at hs
      by_cases hlt : s0.processed_count < s0.requests.length
      · rw [if_pos hlt] at hs
        cases hb : sstf_body s0 with
        | inr s1 => simp [hb] at hs
        | inl s1 =>
          simp only [hb, Option.some.injEq] at hs
          subst hs
          exact ⟨sstf_inv_step requests (fun r hr => valid_placed (hv r hr)) s0 s1 hinv hlt hb,
            sstf_times_step requests hv s0 s1 hinv htimes hlt hb⟩
      · rw [if_neg hlt] at hs
        cases hs

/-- The states `sstf_run` lists are the loop-head states that the loop of
`simulate_sstf` goes through: its result is the last of them, or the state
in which the body of the last of them executes `break`. -/
theorem sstf_loop_run (requests : List DiskRequest) :
    ∀ (fuel k : Nat) (s s1 : SstfState), sstf_run requests k = some s →
      sstf_loop fuel s = some s1 →
      ∃ k1, k ≤ k1 ∧
        ((sstf_run requests k1 = some s1 ∧ ¬ s1.processed_count < s1.requests.length) ∨
          ∃ s0, sstf_run requests k1 = some s0 ∧ s0.processed_count < s0.requests.length ∧
            sstf_body s0 = Sum.inr s1) := by
  intro fuel
  induction fuel with
  | zero =>
    intro k s s1 _ hl
    simp [sstf_loop] at hl
  | succ f ih =>
    intro k s s1 hr hl
    by_cases hlt : s.processed_count < s.requests.length
    · rw [sstf_loop, if_pos hlt] at hl
      cases hb : sstf_body s with
      | inl s2 =>
        rw [hb] at hl
        have hr2 : sstf_run requests (k + 1) = some s2 := by
          simp only [sstf_run, hr, if_pos hlt, hb]
        obtain ⟨k1, hk, h⟩ := ih (k + 1) s2 s1 hr2 hl
        exact ⟨k1, by omega, h⟩
      | inr s2 =>
        rw [hb] at hl
        simp only [Option.some.injEq] at hl
        subst hl
        exact ⟨k, le_refl _, Or.inr ⟨s, hr, hlt, hb⟩⟩
    · rw [sstf_loop, if_neg hlt] at hl
      simp only [Option.some.injEq] at hl
      subst hl
      exact ⟨k, le_refl _, Or.inl ⟨hr, hlt⟩⟩

/-- C4: in a run of `simulate_sstf` on valid requests, at every pass of the
loop that finds the queue non-empty the selection loop returns the index `c`
of a request, that request is the one dispatched, it has arrived
(`arrival_time ≤ current_time`), it is not yet served, no request that has
arrived and is not yet served is nearer to the head, and among those at the
same distance `c` is the lowest index.  On the scenario of the specification
the cylinders are served in the order 10, 11, 50. -/
theorem sstf_dispatches_nearest :
    (∀ (requests : List DiskRequest) (k : Nat) (s : SstfState),
      (∀ r ∈ requests, ValidRequest r) → sstf_run requests k = some s →
      s.processed_count < s.requests.length → 0 < (sstf_enqueue s).queue_length →
      ∃ c : Nat, c < requests.length ∧ (sstf_select (sstf_enqueue s)).1 = (c : Int) ∧
        sstf_body s = Sum.inl (sstf_dispatch (sstf_enqueue s) (c : Int)) ∧
        (s.requests.getD c default).arrival_time ≤ s.current_time ∧
        s.processed.getD c false = false ∧
        ∀ j, j < requests.length → s.processed.getD j false = false →
          (s.requests.getD j default).arrival_time ≤ s.current_time →
          sstf_distance s c ≤ sstf_distance s j ∧
            (sstf_distance s j = sstf_distance s c → c ≤ j)) ∧
    (simulate_sstf scenario).map
        (fun s => s.log.map (fun e => (s.requests.getD e.1 default).cylinder))
      = some [10, 11, 50] := by
  refine ⟨?_, by decide!⟩
  intro requests k s hv hs hlt hq
  obtain ⟨hinv, htimes⟩ := sstf_run_inv requests hv k s hs
  obtain ⟨flags, hl, hfl, henq, hcase⟩ :=
    sstf_body_cases hinv (fun r hr => valid_placed (hv r hr)) hlt
  rw [henq] at hq ⊢
  rcases hcase with ⟨_, c, hc, hsel, hcand, hmin, hfirst, hb⟩ | ⟨hc0, _⟩
  · refine ⟨c, by rw [← hinv.len]; exact hc, hsel, hb, ?_, hcand.2, ?_⟩
    · rcases (hfl c).1 hcand.1 with h | ⟨_, _, h⟩
      · exact htimes.queued_arrived c h
      · exact h
    · intro j hj hju hja
      have hcj : SstfCandidate (sstf_admitted s flags) j :=
        ⟨(hfl j).2 (Or.inr ⟨by rw [hinv.len]; exact hj, hju, hja⟩), hju⟩
      have hjl : j < s.requests.length := by rw [hinv.len]; exact hj
      have h1 : sstf_distance s c ≤ sstf_distance s j := hmin j hjl hcj
      refine ⟨h1, ?_⟩
      intro heq
      by_contra hlt2
      have h2 : sstf_distance s c < sstf_distance s j := hfirst j (by omega) hcj
      omega
  · exfalso
    have : (sstf_admitted s flags).queue_length = flags.count true := rfl
    omega

theorem sstf_dispatches_nearest_witness :
    (∀ r ∈ scenario, ValidRequest r) ∧ sstf_run scenario 0 = some (sstf_init scenario) ∧
    ∃ c : Nat, c < scenario.length ∧
      (sstf_select (sstf_enqueue (sstf_init scenario))).1 = (c : Int) ∧
      sstf_body (sstf_init scenario)
        = Sum.inl (sstf_dispatch (sstf_enqueue (sstf_init scenario)) (c : Int)) ∧
      ((sstf_init scenario).requests.getD c default).arrival_time
        ≤ (sstf_init scenario).current_time ∧
      (sstf_init scenario).processed.getD c false = false ∧
      ∀ j, j < scenario.length → (sstf_init scenario).processed.getD j false = false →
        ((sstf_init scenario).requests.getD j default).arrival_time
          ≤ (sstf_init scenario).current_time →
        sstf_distance (sstf_init scenario) c ≤ sstf_distance (sstf_init scenario) j ∧
          (sstf_distance (sstf_init scenario) j = sstf_distance (sstf_init scenario) c → c ≤ j) :=
  ⟨by decide!, rfl,
    sstf_dispatches_nearest.1 scenario 0 (sstf_init scenario) (by decide!) rfl (by decide!)
      (by decide!)⟩

theorem sstf_sums_step (reqs0 : List DiskRequest) (hv : ∀ r ∈ reqs0, Placed r)
    (s s1 : SstfState) (hinv : SstfInv reqs0 s) (hp : SstfSums s)
    (hlt : s.processed_count < s.requests.length) (hb : sstf_body s = Sum.inl s1) :
    SstfSums s1 := by
  obtain ⟨flags, hl, hfl, -, hcase⟩ := sstf_body_cases hinv hv hlt
  obtain ⟨f1, f2, f3⟩ := hp
  rcases hcase with ⟨_, c, hc, _, hcand, _, _, hb1⟩ | ⟨hc0, j, hj, hju, hmin, hb1⟩
  · rw [hb1] at hb
    cases hb
    have hcu : s.processed.getD c false = false := hcand.2
    obtain ⟨c0, a0⟩ := f1 c hc hcu
    have z : max (0 : ℚ) ((s.requests.getD c default).completion_time
        - (s.requests.getD c default).arrival_time) = 0 := by
      rw [c0]
      exact max_eq_left (by linarith)
    refine ⟨?_, ?_, ?_⟩
    · intro i
      simp only [sstf_dispatch, sstf_admitted, Int.toNat_ofNat, getD_set_bool, getD_set_req,
        List.length_set]
      by_cases hi : c = i
      · subst hi
        simp [hinv.len_p, hinv.len ▸ hc]
      · simp only [hi, false_and, if_false]
        exact f1 i
    · simp only [sstf_dispatch, sstf_admitted, Int.toNat_ofNat]
      rw [service_times_set _ _ hc, f2, z]
      ring
    · simp only [sstf_dispatch, sstf_admitted, Int.toNat_ofNat]
      rw [service_times_sq_set _ _ hc, f3, z]
      ring
  · rw [hb1] at hb
    cases hb
    exact ⟨f1, f2, f3⟩

theorem service_times_zero (requests : List DiskRequest)
    (hv : ∀ r ∈ requests, ValidRequest r) :
    (service_times requests).sum = 0 ∧
      ((service_times requests).map (fun x => x * x)).sum = 0 := by
  induction requests with
  | nil => simp [service_times]
  | cons r rs ih =>
    have hr := hv r (List.mem_cons_self r rs)
    obtain ⟨i1, i2⟩ := ih (fun x hx => hv x (List.mem_cons_of_mem r hx))
    have z : max (0 : ℚ) (r.completion_time - r.arrival_time) = 0 := by
      rw [hr.2.2.2.2.2.2.2.2]
      exact max_eq_left (by linarith [hr.1])
    simp only [service_times, List.map_cons, List.sum_cons, z] at i1 i2 ⊢
    constructor
    · rw [i1]; ring
    · rw [i2]; ring

theorem sstf_init_sums (requests : List DiskRequest) (hv : ∀ r ∈ requests, ValidRequest r) :
    SstfSums (sstf_init requests) := by
  obtain ⟨z1, z2⟩ := service_times_zero requests hv
  refine ⟨?_, by simp [sstf_init, z1], by simp only [sstf_init]; rw [z2]⟩
  intro i hi _
  have := getD_mem_valid hv i hi
  exact ⟨this.2.2.2.2.2.2.2.2, this.1⟩

theorem fifo_init_sums (requests : List DiskRequest) (hv : ∀ r ∈ requests, ValidRequest r) :
    FifoSums (fifo_init requests) := by
  obtain ⟨z1, z2⟩ := service_times_zero requests hv
  refine ⟨?_, by simp [fifo_init, z1], by simp only [fifo_init]; rw [z2]⟩
  intro i _ hi
  have := getD_mem_valid hv i hi
  exact ⟨this.2.2.2.2.2.2.2.2, this.1⟩

theorem foldl_add_eq_sum (ts : List ℚ) (a : ℚ) :
    ts.foldl (fun m t => m + t) a = a + ts.sum := by
  induction ts generalizing a with
  | nil => simp
  | cons x xs ih =>
    simp only [List.foldl_cons, List.sum_cons, ih]
    ring

theorem hist_mean_eq (ts : List ℚ) (h : ts ≠ []) : hist_mean ts = some (spec_mean ts) := by
  have hl : (ts.length : ℚ) ≠ 0 := by
    have : ts.length ≠ 0 := fun h0 => h (List.length_eq_zero.mp h0)
    exact_mod_cast this
  simp only [hist_mean, fdiv, if_neg hl, spec_mean, foldl_add_eq_sum, zero_add]

/-! ## Statistics and clock -/

/-- C9: for every non-empty valid request sequence, both schedulers return,
and the `avg_time` and `std_dev` they report are the mean and the population
standard deviation `sqrt (E[X²] − E[X]²)` of the response times
`max 0 (completion_time − arrival_time)` stored in the request array they
leave, for any square-root function; the mean that `create_histogram`
recomputes from these stored times is the reported `avg_time`. -/
theorem stats_match_stored_times {R : Type} (sqrt : ℚ → R) (requests : List DiskRequest)
    (hne : requests ≠ []) (hv : ∀ r ∈ requests, ValidRequest r) :
    (∃ s, simulate_fifo requests = some s ∧
      (fifo_stats sqrt s).avg_time = some (spec_mean (service_times s.requests)) ∧
      (fifo_stats sqrt s).std_dev = some (spec_std_dev sqrt (service_times s.requests)) ∧
      hist_mean (service_times s.requests) = (fifo_stats sqrt s).avg_time) ∧
    (∃ s, simulate_sstf requests = some s ∧
      (sstf_stats sqrt s).avg_time = some (spec_mean (service_times s.requests)) ∧
      (sstf_stats sqrt s).std_dev = some (spec_std_dev sqrt (service_times s.requests)) ∧
      hist_mean (service_times s.requests) = (sstf_stats sqrt s).avg_time) := by
  have hn : requests.length ≠ 0 := fun h0 => hne (List.length_eq_zero.mp h0)
  constructor
  · obtain ⟨s, hs, hinv, ⟨_, f2, f3⟩, _⟩ :=
      simulate_fifo_spec requests FifoSums (fifo_sums_step requests.length)
        (fifo_init_sums requests hv)
    have hl : ((s.requests.length : Nat) : ℚ) ≠ 0 := by
      rw [hinv.len]
      exact_mod_cast hn
    have hlt : (service_times s.requests).length = s.requests.length := by
      simp [service_times]
    have hne2 : service_times s.requests ≠ [] := by
      intro h0
      rw [h0] at hlt
      simp only [List.length_nil] at hlt
      rw [← hlt] at hl
      simp at hl
    refine ⟨s, hs, ?_, ?_, ?_⟩
    · simp only [fifo_stats, fdiv, if_neg hl, spec_mean, f2, hlt]
    · simp only [fifo_stats, fdiv, if_neg hl, spec_std_dev, spec_mean, f2, f3, hlt]
    · rw [hist_mean_eq _ hne2]
      simp only [fifo_stats, fdiv, if_neg hl, spec_mean, f2, hlt]
  · obtain ⟨s, hs, hinv, ⟨_, f2, f3⟩, hpc⟩ :=
      simulate_sstf_spec requests (fun r hr => valid_placed (hv r hr)) SstfSums
        (sstf_sums_step requests (fun r hr => valid_placed (hv r hr)))
        (sstf_init_sums requests hv)
    have hl : ((s.processed_count : Nat) : ℚ) ≠ 0 := by
      rw [hpc]
      exact_mod_cast hn
    have hlt : (service_times s.requests).length = s.processed_count := by
      simp [service_times, hinv.len, hpc]
    have hne2 : service_times s.requests ≠ [] := by
      intro h0
      rw [h0] at hlt
      simp only [List.length_nil] at hlt
      rw [← hlt] at hl
      simp at hl
    refine ⟨s, hs, ?_, ?_, ?_⟩
    · simp only [sstf_stats, fdiv, if_neg hl, spec_mean, f2, hlt]
    · simp only [sstf_stats, fdiv, if_neg hl, spec_std_dev, spec_mean, f2, f3, hlt]
    · rw [hist_mean_eq _ hne2]
      simp only [sstf_stats, fdiv, if_neg hl, spec_mean, f2, hlt]

theorem stats_match_stored_times_witness :
    scenario ≠ [] ∧ (∀ r ∈ scenario, ValidRequest r) ∧
    (∃ s, simulate_fifo scenario = some s ∧
      (fifo_stats (fun q : ℚ => q) s).avg_time = some (spec_mean (service_times s.requests)) ∧
      (fifo_stats (fun q : ℚ => q) s).std_dev
        = some (spec_std_dev (fun q : ℚ => q) (service_times s.requests)) ∧
      hist_mean (service_times s.requests) = (fifo_stats (fun q : ℚ => q) s).avg_time) ∧
    (∃ s, simulate_sstf scenario = some s ∧
      (sstf_stats (fun q : ℚ => q) s).avg_time = some (spec_mean (service_times s.requests)) ∧
      (sstf_stats (fun q : ℚ => q) s).std_dev
        = some (spec_std_dev (fun q : ℚ => q) (service_times s.requests)) ∧
      hist_mean (service_times s.requests) = (sstf_stats (fun q : ℚ => q) s).avg_time) :=
  ⟨by decide, by decide!,
    stats_match_stored_times (fun q : ℚ => q) scenario (by decide) (by decide!)⟩

theorem foldl_min_const (v : ℚ) (ts : List ℚ) (h : ∀ t ∈ ts, t = v) :
    ts.foldl (fun m t => if t < m then t else m) v = v := by
  induction ts with
  | nil => rfl
  | cons x xs ih =>
    have hx := h x (List.mem_cons_self x xs)
    subst hx
    simp only [List.foldl_cons, lt_self_iff_false, if_false]
    exact ih (fun t ht => h t (List.mem_cons_of_mem _ ht))

theorem foldl_max_const (v : ℚ) (ts : List ℚ) (h : ∀ t ∈ ts, t = v) :
    ts.foldl (fun m t => if t > m then t else m) v = v := by
  induction ts with
  | nil => rfl
  | cons x xs ih =>
    have hx := h x (List.mem_cons_self x xs)
    subst hx
    simp only [List.foldl_cons, gt_iff_lt, lt_self_iff_false, if_false]
    exact ih (fun t ht => h t (List.mem_cons_of_mem _ ht))

theorem num_bins_ge (n : Nat) : 10 ≤ num_bins n ∧ num_bins n ≤ 40 := by
  simp only [num_bins]
  split_ifs <;> omega

theorem foldl_min_le (ts : List ℚ) :
    ∀ m, ts.foldl (fun m t => if t < m then t else m) m ≤ m ∧
      ∀ t ∈ ts, ts.foldl (fun m t => if t < m then t else m) m ≤ t := by
  induction ts with
  | nil => intro m; simp
  | cons x xs ih =>
    intro m
    simp only [List.foldl_cons, List.mem_cons]
    obtain ⟨h1, h2⟩ := ih (if x < m then x else m)
    have hstep : (if x < m then x else m) ≤ m ∧ (if x < m then x else m) ≤ x := by
      split
      · next h => exact ⟨le_of_lt h, le_refl _⟩
      · next h => exact ⟨le_refl _, not_lt.mp h⟩
    refine ⟨le_trans h1 hstep.1, ?_⟩
    rintro t (rfl | ht)
    · exact le_trans h1 hstep.2
    · exact h2 t ht

theorem hist_min_le (ts : List ℚ) : ∀ t ∈ ts, hist_min ts ≤ t :=
  (foldl_min_le ts _).2

theorem total_count_set (bins : List HistogramBin) (i : Nat) (h : i < bins.length)
    (b : HistogramBin) :
    total_count (bins.set i b) + (bins.getD i default).count = total_count bins + b.count := by
  induction bins generalizing i with
  | nil => simp at h
  | cons x xs ih =>
    cases i with
    | zero =>
      simp only [total_count, List.set_cons_zero, List.map_cons, List.sum_cons,
        List.getD_cons_zero]
      omega
    | succ j =>
      have := ih j (by simpa using h)
      simp only [total_count, List.set_cons_succ, List.map_cons, List.sum_cons,
        List.getD_cons_succ] at this ⊢
      omega

theorem fill_bins_total (min_time bin_width : ℚ) (n : Nat) (hn : 0 < n)
    (hw : 0 < bin_width) :
    ∀ (vs : List ℚ) (bins : List HistogramBin), bins.length = n →
      (∀ v ∈ vs, min_time ≤ v) →
      ∃ bins1, fill_bins min_time bin_width n vs bins = some bins1 ∧ bins1.length = n ∧
        total_count bins1 = total_count bins + vs.length := by
  intro vs
  induction vs with
  | nil =>
    intro bins hl _
    exact ⟨bins, rfl, hl, by simp⟩
  | cons v vs ih =>
    intro bins hl hv
    have hv0 := hv v (List.mem_cons_self v vs)
    have hq : (0 : ℚ) ≤ (v - min_time) / bin_width :=
      div_nonneg (by linarith) (le_of_lt hw)
    have hw0 : bin_width ≠ 0 := ne_of_gt hw
    have hfl : (0 : Int) ≤ ⌊(v - min_time) / bin_width⌋ := Int.floor_nonneg.mpr hq
    obtain ⟨idx, hidx, h0, h1⟩ : ∃ idx : Int,
        bin_index min_time bin_width n v = some idx ∧ 0 ≤ idx ∧ idx.toNat < n := by
      simp only [bin_index, fdiv, if_neg hw0, trunc, if_pos hq]
      by_cases hge : ⌊(v - min_time) / bin_width⌋ ≥ (n : Int)
      · exact ⟨(n : Int) - 1, by rw [if_pos hge], by omega, by omega⟩
      · exact ⟨⌊(v - min_time) / bin_width⌋, by rw [if_neg hge], hfl, by omega⟩
    obtain ⟨nbin, hnbin, hcount⟩ : ∃ b : HistogramBin,
        b = { bins.getD idx.toNat default with
          count := (bins.getD idx.toNat default).count + 1 } ∧
        b.count = (bins.getD idx.toNat default).count + 1 := ⟨_, rfl, rfl⟩
    have hb : bump bins idx = some (bins.set idx.toNat nbin) := by
      simp only [bump]
      rw [if_pos ⟨h0, by rw [hl]; exact h1⟩, hnbin]
    obtain ⟨bins1, e1, e2, e3⟩ := ih (bins.set idx.toNat nbin)
      (by rw [List.length_set]; exact hl) (fun t ht => hv t (List.mem_cons_of_mem v ht))
    refine ⟨bins1, ?_, e2, ?_⟩
    · simp only [fill_bins, hidx, hb]
      exact e1
    · have := total_count_set bins idx.toNat (by rw [hl]; exact h1) nbin
      simp only [List.length_cons]
      omega

theorem make_bins_total (min_time bin_width : ℚ) (n : Nat) :
    (make_bins min_time bin_width n).length = n ∧
      total_count (make_bins min_time bin_width n) = 0 := by
  constructor
  · simp [make_bins]
  · simp only [total_count, make_bins, List.map_map]
    apply List.sum_eq_zero
    intro x hx
    simp only [List.mem_map, Function.comp] at hx
    obtain ⟨_, _, rfl⟩ := hx
    rfl

theorem histogram_counts_sum (requests : List DiskRequest)
    (hlt : hist_min (service_times requests) < hist_max (service_times requests)) :
    ∃ bins, create_histogram requests = HistResult.report bins ∧
      bins.length = num_bins requests.length ∧ total_count bins = requests.length := by
  have hne : requests.length ≠ 0 := by
    intro h0
    have : requests = [] := List.length_eq_zero.mp h0
    subst this
    simp [service_times, hist_min, hist_max] at hlt
  have hnb := (num_bins_ge requests.length).1
  have hw : 0 < (hist_max (service_times requests) - hist_min (service_times requests))
      / ((num_bins requests.length : Nat) : ℚ) := by
    apply div_pos (by linarith)
    exact_mod_cast (by omega : 0 < num_bins requests.length)
  obtain ⟨m1, m2⟩ := make_bins_total (hist_min (service_times requests))
    ((hist_max (service_times requests) - hist_min (service_times requests))
      / ((num_bins requests.length : Nat) : ℚ)) (num_bins requests.length)
  obtain ⟨bins, e1, e2, e3⟩ := fill_bins_total (hist_min (service_times requests)) _
    (num_bins requests.length) (by omega) hw (service_times requests) _ m1
    (hist_min_le (service_times requests))
  refine ⟨bins, ?_, e2, ?_⟩
  · simp only [create_histogram, if_neg hne, e1]
  · rw [e3, m2]
    simp [service_times]

/-- C7 (the code at the failing inputs): whenever all stored response times
of a non-empty request array are equal, in particular for every single
request, `bin_width` is zero, the index computation of `create_histogram`
divides by it, and no bin counts are produced.  On every other input, that
is whenever the minimum is below the maximum, the bins are produced and
their counts sum to `total_requests`; this last part is a statement in exact
arithmetic, the rounding of `double` is not modelled in it. -/
theorem histogram_counts_sum_unless_times_equal :
    (∀ (requests : List DiskRequest) (v : ℚ), requests ≠ [] →
      (∀ t ∈ service_times requests, t = v) →
      create_histogram requests = HistResult.undefined) ∧
    (∀ r : DiskRequest, create_histogram [r] = HistResult.undefined) ∧
    (∀ requests : List DiskRequest,
      hist_min (service_times requests) < hist_max (service_times requests) →
      ∃ bins, create_histogram requests = HistResult.report bins ∧
        bins.length = num_bins requests.length ∧ total_count bins = requests.length) := by
  have main : ∀ (requests : List DiskRequest) (v : ℚ), requests ≠ [] →
      (∀ t ∈ service_times requests, t = v) →
      create_histogram requests = HistResult.undefined := by
    intro requests v hne hall
    have hlen : requests.length ≠ 0 := fun h0 => hne (List.length_eq_zero.mp h0)
    obtain ⟨x, xs, hts⟩ : ∃ x xs, service_times requests = x :: xs := by
      cases h : service_times requests with
      | nil =>
        have := congrArg List.length h
        simp [service_times] at this
        exact absurd this hne
      | cons x xs => exact ⟨x, xs, rfl⟩
    have hx : x = v := hall x (by rw [hts]; exact List.mem_cons_self x xs)
    have hmin : hist_min (service_times requests) = v := by
      simp only [hist_min, hts, List.getD_cons_zero, hx]
      rw [← hx, ← hts]
      rw [hx]
      exact foldl_min_const v _ hall
    have hmax : hist_max (service_times requests) = v := by
      simp only [hist_max, hts, List.getD_cons_zero, hx]
      rw [← hx, ← hts]
      rw [hx]
      exact foldl_max_const v _ hall
    simp only [create_histogram, if_neg hlen, hmin, hmax, sub_self, zero_div]
    rw [hts]
    simp [fill_bins, bin_index, fdiv]
  refine ⟨main, ?_, histogram_counts_sum⟩
  intro r
  apply main [r] (max 0 (r.completion_time - r.arrival_time)) (by simp)
  intro t ht
  simpa [service_times] using ht

/-- C8 (counterexample): for 111 requests `create_histogram` uses 10 bins,
whereas `sqrt 111` rounds to 11, so `clamp (round (sqrt n)) 10 40` is 11. -/
theorem num_bins_not_rounded :
    num_bins 111 = 10 ∧ round (Real.sqrt ((111 : Nat) : ℝ)) = 11 ∧
      (num_bins 111 : Int) ≠ max 10 (min 40 (round (Real.sqrt ((111 : Nat) : ℝ)))) := by
  have h1 : num_bins 111 = 10 := by
    have hs : Nat.sqrt 111 = 10 :=
      (Nat.eq_sqrt.mpr ⟨by norm_num, by norm_num⟩).symm
    simp [num_bins, hs]
  have h2 : round (Real.sqrt ((111 : Nat) : ℝ)) = 11 := by
    rw [round_eq, Int.floor_eq_iff]
    constructor
    · have : (21 / 2 : ℝ) ≤ Real.sqrt ((111 : Nat) : ℝ) := by
        apply Real.le_sqrt_of_sq_le
        norm_num
      push_cast
      linarith
    · have : Real.sqrt ((111 : Nat) : ℝ) < 23 / 2 := by
        rw [Real.sqrt_lt' (by norm_num)]
        norm_num
      push_cast
      linarith
  refine ⟨h1, h2, ?_⟩
  rw [h1, h2]
  decide

/-- C8 (amended): for every `n` the number of bins `create_histogram` uses is
`sqrt n` truncated to an integer and then clamped to `[10, 40]`. -/
theorem num_bins_eq_clamp_floor_sqrt (n : Nat) :
    (num_bins n : Int) = max 10 (min 40 ⌊Real.sqrt (n : ℝ)⌋) := by
  rw [Real.floor_real_sqrt_eq_nat_sqrt]
  simp only [num_bins]
  split_ifs <;> omega

/-! ## Zero requests, rotational latency and transfer time -/

/-- C11 (the code at the failing input): on the empty request array both
schedulers return at once with `total_requests = 0`, and `avg_time` and
`std_dev` are the quotients `0 / 0`, which have no value: lines 150-151 and
237-238 divide by the request count without a guard.  Only
`create_histogram` returns early and reports nothing. -/
theorem zero_requests_stats_divide_by_zero {R : Type} (sqrt : ℚ → R) :
    (∃ s, simulate_fifo [] = some s ∧ (fifo_stats sqrt s).total_requests = 0 ∧
      (fifo_stats sqrt s).avg_time = none ∧ (fifo_stats sqrt s).std_dev = none) ∧
    (∃ s, simulate_sstf [] = some s ∧ (sstf_stats sqrt s).total_requests = 0 ∧
      (sstf_stats sqrt s).avg_time = none ∧ (sstf_stats sqrt s).std_dev = none) ∧
    create_histogram [] = HistResult.no_report := by
  refine ⟨⟨fifo_init [], rfl, rfl, ?_, ?_⟩, ⟨sstf_init [], rfl, rfl, ?_, ?_⟩, rfl⟩
  · simp [fifo_stats, fdiv, fifo_init]
  · simp [fifo_stats, fdiv, fifo_init]
  · simp [sstf_stats, fdiv, sstf_init]
  · simp [sstf_stats, fdiv, sstf_init]

/-- C15: for every sector count `k`, the transfer time of a write
(`operation = 1`) is exactly twice that of a read (`operation = 0`), and the
transfer time of a read is `k * SECTOR_TIME`; for `k = 1` these are `3/4` and
`3/8` milliseconds. -/
theorem transfer_time_write_double (k : Int) :
    calculate_transfer_time k 1 = 2 * calculate_transfer_time k 0 ∧
    calculate_transfer_time k 0 = (k : ℚ) * SECTOR_TIME ∧
    calculate_transfer_time 1 1 = 3 / 4 ∧ calculate_transfer_time 1 0 = 3 / 8 := by
  refine ⟨?_, ?_, by decide!, by decide!⟩
  · simp only [calculate_transfer_time]
    norm_num
    ring
  · simp only [calculate_transfer_time]
    norm_num

/-! ## The workload generator -/

theorem getD_set_any {α : Type} (l : List α) (i j : Nat) (b d : α) :
    (l.set i b).getD j d = if i = j ∧ i < l.length then b else l.getD j d := by
  simp only [List.getD_eq_getElem?_getD, List.getElem?_set]
  by_cases h : i = j
  · subst h
    by_cases h2 : i < l.length
    · simp [h2]
    · simp [h2, List.getElem?_eq_none (by omega : l.length ≤ i)]
  · simp [h]

theorem foldl_max_ge (ts : List ℚ) :
    ∀ m, m ≤ ts.foldl (fun m t => if t > m then t else m) m ∧
      ∀ t ∈ ts, t ≤ ts.foldl (fun m t => if t > m then t else m) m := by
  induction ts with
  | nil => intro m; simp
  | cons x xs ih =>
    intro m
    simp only [List.foldl_cons, List.mem_cons]
    obtain ⟨h1, h2⟩ := ih (if x > m then x else m)
    have hstep : m ≤ (if x > m then x else m) ∧ x ≤ (if x > m then x else m) := by
      split
      · next h => exact ⟨le_of_lt h, le_refl _⟩
      · next h => exact ⟨le_refl _, not_lt.mp h⟩
    refine ⟨le_trans hstep.1 h1, ?_⟩
    rintro t (rfl | ht)
    · exact le_trans hstep.2 h1
    · exact h2 t ht

theorem le_hist_max (ts : List ℚ) : ∀ t ∈ ts, t ≤ hist_max ts :=
  (foldl_max_ge ts _).2

theorem make_bins_getD (min_time bin_width : ℚ) (n i : Nat) (hi : i < n) :
    (make_bins min_time bin_width n).getD i default
      = { min := min_time + (i : ℚ) * bin_width
          max := min_time + (i : ℚ) * bin_width + bin_width
          count := 0 } := by
  simp [make_bins, List.getD_eq_getElem?_getD, List.getElem?_map, List.getElem?_range hi]

/-- The bin index of a value between the minimum and the maximum: it is in the
array, the value is at or above the bin's lower bound, and below its upper
bound, or at most equal to it in the last bin. -/
theorem bin_index_spec (min_time max_time : ℚ) (n : Nat) (hn : 0 < n)
    (hlt : min_time < max_time) (v : ℚ) (h1 : min_time ≤ v) (h2 : v ≤ max_time) :
    ∃ idx : Nat, bin_index min_time ((max_time - min_time) / (n : ℚ)) n v = some (idx : Int) ∧
      idx < n ∧
      min_time + (idx : ℚ) * ((max_time - min_time) / (n : ℚ)) ≤ v ∧
      (v < min_time + (idx : ℚ) * ((max_time - min_time) / (n : ℚ))
            + (max_time - min_time) / (n : ℚ) ∨
        (idx = n - 1 ∧
          v ≤ min_time + (idx : ℚ) * ((max_time - min_time) / (n : ℚ))
            + (max_time - min_time) / (n : ℚ))) := by
  have hnq : (0 : ℚ) < (n : ℚ) := by exact_mod_cast hn
  have hw : (0 : ℚ) < (max_time - min_time) / (n : ℚ) := div_pos (by linarith) hnq
  have hw0 : (max_time - min_time) / (n : ℚ) ≠ 0 := ne_of_gt hw
  have hnw : (n : ℚ) * ((max_time - min_time) / (n : ℚ)) = max_time - min_time := by
    field_simp
  have hq : (0 : ℚ) ≤ (v - min_time) / ((max_time - min_time) / (n : ℚ)) :=
    div_nonneg (by linarith) (le_of_lt hw)
  have hfl0 : (0 : Int) ≤ ⌊(v - min_time) / ((max_time - min_time) / (n : ℚ))⌋ :=
    Int.floor_nonneg.mpr hq
  have hfle := Int.floor_le ((v - min_time) / ((max_time - min_time) / (n : ℚ)))
  have hflt := Int.lt_floor_add_one ((v - min_time) / ((max_time - min_time) / (n : ℚ)))
  rw [le_div_iff₀ hw] at hfle
  rw [div_lt_iff₀ hw] at hflt
  obtain ⟨f, hf⟩ := Int.eq_ofNat_of_zero_le hfl0
  rw [hf] at hfle hflt
  simp only [Int.cast_natCast] at hfle hflt
  simp only [bin_index, fdiv, if_neg hw0, trunc, if_pos hq, hf]
  by_cases hge : (f : Int) ≥ (n : Int)
  · have hfn : n ≤ f := by exact_mod_cast hge
    have hfnq : (n : ℚ) ≤ (f : ℚ) := by exact_mod_cast hfn
    have hn1 : ((n - 1 : Nat) : ℚ) = (n : ℚ) - 1 := by
      rw [Nat.cast_sub hn]
      simp
    refine ⟨n - 1, ?_, by omega, ?_, Or.inr ⟨rfl, ?_⟩⟩
    · rw [if_pos hge]
      congr 1
      omega
    · rw [hn1]
      have : (n : ℚ) * ((max_time - min_time) / (n : ℚ))
          ≤ (f : ℚ) * ((max_time - min_time) / (n : ℚ)) :=
        mul_le_mul_of_nonneg_right hfnq (le_of_lt hw)
      nlinarith
    · rw [hn1]
      have e : min_time + ((n : ℚ) - 1) * ((max_time - min_time) / (n : ℚ))
          + (max_time - min_time) / (n : ℚ)
          = min_time + (n : ℚ) * ((max_time - min_time) / (n : ℚ)) := by ring
      rw [e, hnw]
      linarith
  · have hfn : f < n := by
      have : (f : Int) < (n : Int) := not_le.mp hge
      exact_mod_cast this
    refine ⟨f, ?_, hfn, by linarith, Or.inl ?_⟩
    · rw [if_neg hge]
    · have e : min_time + (f : ℚ) * ((max_time - min_time) / (n : ℚ))
          + (max_time - min_time) / (n : ℚ)
          = min_time + ((f : ℚ) + 1) * ((max_time - min_time) / (n : ℚ)) := by ring
      rw [e]
      linarith

/-- The counting loop only changes counts: every bin keeps its bounds, and
its count grows by the number of values whose bin index it is. -/
theorem fill_bins_spec (min_time max_time : ℚ) (n : Nat) (hn : 0 < n)
    (hlt : min_time < max_time) :
    ∀ (vs : List ℚ) (bins : List HistogramBin), bins.length = n →
      (∀ v ∈ vs, min_time ≤ v ∧ v ≤ max_time) →
      ∃ bins1, fill_bins min_time ((max_time - min_time) / (n : ℚ)) n vs bins = some bins1 ∧
        bins1.length = n ∧
        ∀ i, i < n →
          (bins1.getD i default).min = (bins.getD i default).min ∧
          (bins1.getD i default).max = (bins.getD i default).max ∧
          (bins1.getD i default).count = (bins.getD i default).count +
            vs.countP (fun v =>
              decide (bin_index min_time ((max_time - min_time) / (n : ℚ)) n v
                = some (i : Int))) := by
  intro vs
  induction vs with
  | nil =>
    intro bins hl _
    exact ⟨bins, rfl, hl, fun i _ => ⟨rfl, rfl, by simp⟩⟩
  | cons v vs ih =>
    intro bins hl hv
    obtain ⟨hv1, hv2⟩ := hv v (List.mem_cons_self v vs)
    obtain ⟨idx, hidx, hin, -, -⟩ := bin_index_spec min_time max_time n hn hlt v hv1 hv2
    obtain ⟨nbin, hnbin, hmin, hmax, hcount⟩ : ∃ b : HistogramBin,
        b = { bins.getD idx default with count := (bins.getD idx default).count + 1 } ∧
        b.min = (bins.getD idx default).min ∧ b.max = (bins.getD idx default).max ∧
        b.count = (bins.getD idx default).count + 1 := ⟨_, rfl, rfl, rfl, rfl⟩
    have hb : bump bins (idx : Int) = some (bins.set idx nbin) := by
      simp only [bump, Int.toNat_ofNat]
      rw [if_pos ⟨by omega, by rw [hl]; exact hin⟩, hnbin]
    obtain ⟨bins1, e1, e2, e3⟩ := ih (bins.set idx nbin)
      (by rw [List.length_set]; exact hl) (fun t ht => hv t (List.mem_cons_of_mem v ht))
    refine ⟨bins1, ?_, e2, ?_⟩
    · simp only [fill_bins, hidx, hb]
      exact e1
    · intro i hi
      obtain ⟨f1, f2, f3⟩ := e3 i hi
      rw [getD_set_any] at f1 f2 f3
      by_cases hii : idx = i
      · subst hii
        have hc : ((idx = idx ∧ idx < bins.length) : Prop) := ⟨rfl, by rw [hl]; exact hin⟩
        rw [if_pos hc] at f1 f2 f3
        refine ⟨by rw [f1, hmin], by rw [f2, hmax], ?_⟩
        rw [f3, hcount, List.countP_cons, hidx]
        simp only [decide_True, if_true]
        omega
      · have hc : ¬ ((idx = i ∧ idx < bins.length) : Prop) := fun h => hii h.1
        rw [if_neg hc] at f1 f2 f3
        refine ⟨f1, f2, ?_⟩
        rw [f3, List.countP_cons, hidx]
        have hne : ¬ (some (idx : Int) = some (i : Int)) := by
          intro h
          simp only [Option.some.injEq] at h
          exact hii (by exact_mod_cast h)
        simp only [hne, decide_False]
        simp

theorem create_histogram_single (r : DiskRequest) :
    create_histogram [r] = HistResult.undefined := by
  simp [create_histogram, service_times, hist_min, hist_max, fill_bins, bin_index, fdiv]

/-- C16 (the code at the failing input, and what holds elsewhere): for every
single request `bin_width` is zero and the index computation of
`create_histogram` divides by it.  Whenever the minimum response time is below
the maximum, the bins are produced; they have equal width and tile
`[min_time, max_time]`; every response time has its bin index in
`[0, num_bins)` and lies in that bin, at or above its lower bound and below
its upper bound, or at most equal to it in the last bin; and the count of
every bin is the number of response times with that bin index.  The part for
a minimum below the maximum is a statement in exact arithmetic: the rounding
of `double`, under which a response time can equal the stored upper bound of
its bin, is not modelled in it. -/
theorem histogram_bins_tile_unless_times_equal :
    (∀ r : DiskRequest, create_histogram [r] = HistResult.undefined) ∧
    (∀ requests : List DiskRequest,
      hist_min (service_times requests) < hist_max (service_times requests) →
      ∃ bins, create_histogram requests = HistResult.report bins ∧
        bins.length = num_bins requests.length ∧
        (∀ i, i < num_bins requests.length →
          (bins.getD i default).min
            = hist_min (service_times requests) + (i : ℚ) * hist_bin_width requests ∧
          (bins.getD i default).max = (bins.getD i default).min + hist_bin_width requests) ∧
        (bins.getD 0 default).min = hist_min (service_times requests) ∧
        (∀ i, i + 1 < num_bins requests.length →
          (bins.getD i default).max = (bins.getD (i + 1) default).min) ∧
        (bins.getD (num_bins requests.length - 1) default).max
          = hist_max (service_times requests) ∧
        (∀ v ∈ service_times requests, ∃ idx : Nat,
          bin_index (hist_min (service_times requests)) (hist_bin_width requests)
            (num_bins requests.length) v = some (idx : Int) ∧
          idx < num_bins requests.length ∧ (bins.getD idx default).min ≤ v ∧
          (v < (bins.getD idx default).max ∨
            (idx = num_bins requests.length - 1 ∧ v ≤ (bins.getD idx default).max))) ∧
        (∀ i, i < num_bins requests.length →
          (bins.getD i default).count = (service_times requests).countP (fun v =>
            decide (bin_index (hist_min (service_times requests)) (hist_bin_width requests)
              (num_bins requests.length) v = some (i : Int))))) := by
  refine ⟨create_histogram_single, ?_⟩
  intro requests hlt
  have hne : requests.length ≠ 0 := by
    intro h0
    have : requests = [] := List.length_eq_zero.mp h0
    subst this
    simp [service_times, hist_min, hist_max] at hlt
  have hnb := (num_bins_ge requests.length).1
  have hn : 0 < num_bins requests.length := by omega
  have hnq : (0 : ℚ) < ((num_bins requests.length : Nat) : ℚ) := by exact_mod_cast hn
  have hrange : ∀ v ∈ service_times requests,
      hist_min (service_times requests) ≤ v ∧ v ≤ hist_max (service_times requests) :=
    fun v hv => ⟨hist_min_le _ v hv, le_hist_max _ v hv⟩
  obtain ⟨bins, e1, e2, e3⟩ := fill_bins_spec (hist_min (service_times requests))
    (hist_max (service_times requests)) (num_bins requests.length) hn hlt
    (service_times requests) (make_bins (hist_min (service_times requests))
      (hist_bin_width requests) (num_bins requests.length))
    (make_bins_total _ _ _).1 hrange
  have hbin : ∀ i, i < num_bins requests.length →
      (bins.getD i default).min
        = hist_min (service_times requests) + (i : ℚ) * hist_bin_width requests ∧
      (bins.getD i default).max
        = hist_min (service_times requests) + (i : ℚ) * hist_bin_width requests
          + hist_bin_width requests ∧
      (bins.getD i default).count = (service_times requests).countP (fun v =>
        decide (bin_index (hist_min (service_times requests)) (hist_bin_width requests)
          (num_bins requests.length) v = some (i : Int))) := by
    intro i hi
    obtain ⟨f1, f2, f3⟩ := e3 i hi
    rw [make_bins_getD _ _ _ _ hi] at f1 f2 f3
    refine ⟨f1, f2, ?_⟩
    rw [f3]
    simp only [hist_bin_width, zero_add]
  have hwn : ((num_bins requests.length : Nat) : ℚ) * hist_bin_width requests
      = hist_max (service_times requests) - hist_min (service_times requests) := by
    simp only [hist_bin_width]
    field_simp
  refine ⟨bins, ?_, e2, ?_, ?_, ?_, ?_, ?_, ?_⟩
  · simp only [create_histogram, if_neg hne]
    simp only [hist_bin_width] at e1
    rw [e1]
  · intro i hi
    obtain ⟨f1, f2, -⟩ := hbin i hi
    exact ⟨f1, by rw [f2, f1]⟩
  · rw [(hbin 0 hn).1]
    simp
  · intro i hi
    rw [(hbin i (by omega)).2.1, (hbin (i + 1) hi).1]
    push_cast
    ring
  · rw [(hbin _ (by omega)).2.1, Nat.cast_sub (by omega : 1 ≤ num_bins requests.length)]
    have e : hist_min (service_times requests)
        + (((num_bins requests.length : Nat) : ℚ) - ((1 : Nat) : ℚ)) * hist_bin_width requests
        + hist_bin_width requests
        = hist_min (service_times requests)
          + ((num_bins requests.length : Nat) : ℚ) * hist_bin_width requests := by
      push_cast
      ring
    rw [e, hwn]
    ring
  · intro v hv
    obtain ⟨h1, h2⟩ := hrange v hv
    obtain ⟨idx, g1, g2, g3, g4⟩ := bin_index_spec (hist_min (service_times requests))
      (hist_max (service_times requests)) (num_bins requests.length) hn hlt v h1 h2
    refine ⟨idx, g1, g2, ?_, ?_⟩
    · rw [(hbin idx g2).1]
      exact g3
    · rw [(hbin idx g2).2.1]
      exact g4
  · intro i hi
    exact (hbin i hi).2.2

/-! ## Head state, service intervals and the clock -/

theorem fifo_inv_step (n : Nat) (s s1 : FifoState) (hinv : FifoInv n s)
    (hlt : s.request_index < s.requests.length) (hb : fifo_body s = Sum.inl s1) :
    FifoInv n s1 := by
  obtain ⟨m, hm, hcase⟩ := fifo_body_cases s hlt
  have hadm := fifo_admitted_inv hinv m hm
  rcases hcase with ⟨hr, hm0, hb1⟩ | ⟨hr, hm0, hq, hb1⟩ | ⟨hr, hm0, hq, hb1⟩
  · rw [hb1] at hb
    cases hb
    exact fifo_dispatch_inv hadm (by simp only [fifo_admitted]; omega)
  · rw [hb1] at hb
    cases hb
    exact fifo_dispatch_inv hadm (by simp only [fifo_admitted]; omega)
  · rw [hb1] at hb
    cases hb
    exact fifo_idle_inv hadm

theorem fifo_times_step (reqs0 : List DiskRequest) (hv : ∀ r ∈ reqs0, ValidRequest r)
    (s s1 : FifoState) (hinv : FifoInv reqs0.length s) (hp : FifoTimes reqs0 s)
    (hlt : s.request_index < reqs0.length) (hb : fifo_body s = Sum.inl s1) :
    FifoTimes reqs0 s1 ∧ s.current_time ≤ s1.current_time := by
  have hlen := hinv.len
  obtain ⟨m, hm, hcase⟩ := fifo_body_cases s (by omega)
  have hadm := fifo_admitted_inv hinv m hm
  obtain ⟨p1, p2, p3, p4, p5⟩ := hp
  have key : 0 < (fifo_admitted s m).queue_length →
      FifoTimes reqs0 (fifo_dispatch (fifo_admitted s m)) ∧
        s.current_time ≤ (fifo_dispatch (fifo_admitted s m)).current_time := by
    intro hq
    have hq1 := hadm.q_le
    have hr1 := hadm.ri_le
    simp only [fifo_admitted] at hq hq1 hr1
    have e2 : ((((s.request_index + m : Nat) : Int) - ((s.queue_length + m : Nat) : Int))).toNat
        = s.request_index - s.queue_length := by omega
    have hidx : s.request_index - s.queue_length < s.requests.length := by omega
    have hvd := getD_mem_valid hv (s.request_index - s.queue_length) (by omega)
    obtain ⟨e11, e12, e13, e14, e15, e16⟩ := p1 (s.request_index - s.queue_length)
    have hrot : 0 ≤ calculate_rotational_latency s.current_angle
        (s.requests.getD (s.request_index - s.queue_length) default).sector :=
      rotational_latency_nonneg _ _ p2 (by rw [e14]; exact hvd.2.2.2.2.1)
    have htr : 0 ≤ calculate_transfer_time
        (s.requests.getD (s.request_index - s.queue_length) default).num_sectors
        (s.requests.getD (s.request_index - s.queue_length) default).operation :=
      transfer_time_nonneg _ _ (by rw [e16]; have := hvd.2.2.2.2.2.2.1; omega)
    have hseek := seek_time_nonneg s.current_cylinder
      (s.requests.getD (s.request_index - s.queue_length) default).cylinder
    have hold : ∀ e ∈ s.log, ¬ (s.request_index - s.queue_length = e.1.toNat ∧
        s.request_index - s.queue_length < s.requests.length) := by
      intro e he
      have hmem : e.1 ∈ s.log.map Prod.fst := List.mem_map_of_mem Prod.fst he
      rw [hinv.log_idx, List.mem_map] at hmem
      obtain ⟨k, hk, hke⟩ := hmem
      rw [List.mem_range] at hk
      rintro ⟨h1, _⟩
      rw [← hke] at h1
      simp only [Int.ofNat_eq_coe, Int.toNat_ofNat] at h1
      omega
    refine ⟨⟨?_, ?_, ?_, ?_, ?_⟩, ?_⟩
    · intro i
      simp only [fifo_dispatch, fifo_admitted, e2, getD_set_req]
      by_cases hi : s.request_index - s.queue_length = i ∧
          s.request_index - s.queue_length < s.requests.length
      · rw [if_pos hi]
        obtain ⟨rfl, _⟩ := hi
        exact p1 _
      · rw [if_neg hi]
        exact p1 i
    · simp only [fifo_dispatch, fifo_admitted, e2]
      exact next_angle_range _ _ _ p2.1 hrot htr
    · simp only [fifo_dispatch, fifo_admitted, e2]
      rw [e12]
      exact ⟨hvd.2.2.1, hvd.2.2.2.1⟩
    · intro e he
      simp only [fifo_dispatch, fifo_admitted, List.mem_append, List.mem_singleton] at he
      simp only [fifo_dispatch, fifo_admitted, e2, getD_set_req]
      rcases he with he | he
      · rw [if_neg (hold e he)]
        obtain ⟨h1, h2⟩ := p4 e he
        refine ⟨h1, ?_⟩
        linarith
      · subst he
        simp only [e2, true_and, hidx, if_true]
        constructor
        · linarith
        · exact le_refl _
    · simp only [fifo_dispatch, fifo_admitted, e2]
      rw [List.pairwise_append]
      refine ⟨?_, List.pairwise_singleton _ _, ?_⟩
      · refine p5.imp_of_mem ?_
        intro a b ha hb hab
        simp only [getD_set_req]
        rw [if_neg (hold a ha), if_neg (hold b hb)]
        exact hab
      · intro a ha b hb
        simp only [List.mem_singleton] at hb
        subst hb
        simp only [getD_set_req, e2]
        rw [if_neg (hold a ha), if_pos ⟨trivial, hidx⟩]
        exact (p4 a ha).2
    · simp only [fifo_dispatch, fifo_admitted, e2]
      linarith
  rcases hcase with ⟨hr, hm0, hb1⟩ | ⟨hr, hm0, hq, hb1⟩ | ⟨hr, hm0, hq, hb1⟩
  · rw [hb1] at hb
    cases hb
    exact key (by simp only [fifo_admitted]; omega)
  · rw [hb1] at hb
    cases hb
    exact key (by simp only [fifo_admitted]; omega)
  · rw [hb1] at hb
    cases hb
    subst hm0
    have harr : s.current_time < (s.requests.getD s.request_index default).arrival_time := by
      by_contra hcon
      exact hr ⟨by omega, not_lt.mp hcon⟩
    refine ⟨⟨p1, p2, p3, ?_, p5⟩, ?_⟩
    · intro e he
      obtain ⟨h1, h2⟩ := p4 e he
      refine ⟨h1, ?_⟩
      simp only [fifo_idle, fifo_admitted, Nat.add_zero]
      linarith
    · simp only [fifo_idle, fifo_admitted, Nat.add_zero]
      linarith

theorem fifo_init_times (requests : List DiskRequest) : FifoTimes requests (fifo_init requests) :=
  ⟨fun _ => ⟨rfl, rfl, rfl, rfl, rfl, rfl⟩, by simp [fifo_init], by simp [fifo_init, CYLINDERS],
    by intro e he; simp [fifo_init] at he, by simp [fifo_init]⟩

theorem fifo_run_inv (requests : List DiskRequest) (hv : ∀ r ∈ requests, ValidRequest r) :
    ∀ k s, fifo_run requests k = some s →
      FifoInv requests.length s ∧ FifoTimes requests s := by
  intro k
  induction k with
  | zero =>
    intro s hs
    simp only [fifo_run, Option.some.injEq] at hs
    subst hs
    exact ⟨fifo_init_inv requests, fifo_init_times requests⟩
  | succ m ih =>
    intro s hs
    simp only [fifo_run] at hs
    cases h0 : fifo_run requests m with
    | none => simp [h0] at hs
    | some s0 =>
      obtain ⟨hinv, htimes⟩ := ih s0 h0
      simp only [h0] at hs
      by_cases hlt : s0.request_index < s0.requests.length
      · rw [if_pos hlt] at hs
        cases hb : fifo_body s0 with
        | inr s1 => simp [hb] at hs
        | inl s1 =>
          simp only [hb, Option.some.injEq] at hs
          subst hs
          exact ⟨fifo_inv_step requests.length s0 s1 hinv hlt hb,
            (fifo_times_step requests hv s0 s1 hinv htimes (by rw [← hinv.len]; exact hlt) hb).1⟩
      · rw [if_neg hlt] at hs
        cases hs

/-- The states `fifo_run` lists are the loop-head states that the loop of
`simulate_fifo` goes through: its result is the last of them, or the state
in which the body of the last of them executes `break`. -/
theorem fifo_loop_run (requests : List DiskRequest) :
    ∀ (fuel k : Nat) (s s1 : FifoState), fifo_run requests k = some s →
      fifo_loop fuel s = some s1 →
      ∃ k1, k ≤ k1 ∧
        ((fifo_run requests k1 = some s1 ∧ ¬ s1.request_index < s1.requests.length) ∨
          ∃ s0, fifo_run requests k1 = some s0 ∧ s0.request_index < s0.requests.length ∧
            fifo_body s0 = Sum.inr s1) := by
  intro fuel
  induction fuel with
  | zero =>
    intro k s s1 _ hl
    simp [fifo_loop] at hl
  | succ f ih =>
    intro k s s1 hr hl
    by_cases hlt : s.request_index < s.requests.length
    · rw [fifo_loop, if_pos hlt] at hl
      cases hb : fifo_body s with
      | inl s2 =>
        rw [hb] at hl
        have hr2 : fifo_run requests (k + 1) = some s2 := by
          simp only [fifo_run, hr, if_pos hlt, hb]
        obtain ⟨k1, hk, h⟩ := ih (k + 1) s2 s1 hr2 hl
        exact ⟨k1, by omega, h⟩
      | inr s2 =>
        rw [hb] at hl
        simp only [Option.some.injEq] at hl
        subst hl
        exact ⟨k, le_refl _, Or.inr ⟨s, hr, hlt, hb⟩⟩
    · rw [fifo_loop, if_neg hlt] at hl
      simp only [Option.some.injEq] at hl
      subst hl
      exact ⟨k, le_refl _, Or.inl ⟨hr, hlt⟩⟩

theorem sstf_order_step (reqs0 : List DiskRequest) (hv : ∀ r ∈ reqs0, ValidRequest r)
    (s s1 : SstfState) (hinv : SstfInv reqs0 s) (ht : SstfTimes s) (hp : SstfOrder s)
    (hlt : s.processed_count < s.requests.length) (hb : sstf_body s = Sum.inl s1) :
    SstfOrder s1 ∧ s.current_time ≤ s1.current_time := by
  obtain ⟨flags, hl, hfl, -, hcase⟩ :=
    sstf_body_cases hinv (fun r hr => valid_placed (hv r hr)) hlt
  obtain ⟨p4, p5⟩ := hp
  rcases hcase with ⟨_, c, hc, _, hcand, _, _, hb1⟩ | ⟨hc0, j, hj, hju, hmin, hb1⟩
  · rw [hb1] at hb
    cases hb
    have hcu : s.processed.getD c false = false := hcand.2
    have hvc := getD_mem_valid hv c (by rw [← hinv.len]; exact hc)
    obtain ⟨e1, e2, e3, e4, e5, e6⟩ := hinv.static c
    have hrot : 0 ≤ calculate_rotational_latency s.current_angle
        (s.requests.getD c default).sector :=
      rotational_latency_nonneg _ _ ht.angle (by rw [e4]; exact hvc.2.2.2.2.1)
    have htr : 0 ≤ calculate_transfer_time (s.requests.getD c default).num_sectors
        (s.requests.getD c default).operation :=
      transfer_time_nonneg _ _ (by rw [e6]; have := hvc.2.2.2.2.2.2.1; omega)
    have hseek := seek_time_nonneg s.current_cylinder (s.requests.getD c default).cylinder
    have hold : ∀ e ∈ s.log, ¬ (c = e.1 ∧ c < s.requests.length) := by
      intro e he
      have hmem : e.1 ∈ s.log.map Prod.fst := List.mem_map_of_mem Prod.fst he
      have hpe := (hinv.proc_log e.1).2 hmem
      rintro ⟨h1, _⟩
      rw [← h1, hcu] at hpe
      cases hpe
    refine ⟨⟨?_, ?_⟩, ?_⟩
    · intro e he
      simp only [sstf_dispatch, sstf_admitted, List.mem_append, List.mem_singleton] at he
      simp only [sstf_dispatch, sstf_admitted, Int.toNat_ofNat, getD_set_req]
      rcases he with he | he
      · rw [if_neg (hold e he)]
        obtain ⟨h1, h2⟩ := p4 e he
        refine ⟨h1, ?_⟩
        linarith
      · subst he
        simp only [Int.toNat_ofNat, true_and, hc, if_true]
        constructor
        · linarith
        · exact le_refl _
    · simp only [sstf_dispatch, sstf_admitted, Int.toNat_ofNat]
      rw [List.pairwise_append]
      refine ⟨?_, List.pairwise_singleton _ _, ?_⟩
      · refine p5.imp_of_mem ?_
        intro a b ha hb hab
        simp only [getD_set_req]
        rw [if_neg (hold a ha), if_neg (hold b hb)]
        exact hab
      · intro a ha b hb
        simp only [List.mem_singleton] at hb
        subst hb
        simp only [getD_set_req]
        rw [if_neg (hold a ha), if_pos ⟨trivial, hc⟩]
        exact (p4 a ha).2
    · simp only [sstf_dispatch, sstf_admitted, Int.toNat_ofNat]
      linarith
  · rw [hb1] at hb
    cases hb
    have harr : s.current_time < (s.requests.getD j default).arrival_time := by
      by_contra hcon
      have := getD_true_count_pos flags j ((hfl j).2 (Or.inr ⟨hj, hju, not_lt.mp hcon⟩))
      omega
    refine ⟨⟨?_, p5⟩, ?_⟩
    · intro e he
      obtain ⟨h1, h2⟩ := p4 e he
      refine ⟨h1, ?_⟩
      simp only [sstf_idle, sstf_admitted]
      linarith
    · simp only [sstf_idle, sstf_admitted]
      linarith

/-- C17: in a run of either scheduler on valid requests, started with the head
at cylinder 0 and angle 0, every state at the head of the loop, hence the
state after every dispatch, has `current_angle` in `[0, 360)` and
`current_cylinder` in `[0, CYLINDERS)`. -/
theorem head_state_in_range (requests : List DiskRequest)
    (hv : ∀ r ∈ requests, ValidRequest r) (k : Nat) :
    (∀ s, fifo_run requests k = some s →
      0 ≤ s.current_angle ∧ s.current_angle < 360 ∧
        0 ≤ s.current_cylinder ∧ s.current_cylinder < CYLINDERS) ∧
    (∀ s, sstf_run requests k = some s →
      0 ≤ s.current_angle ∧ s.current_angle < 360 ∧
        0 ≤ s.current_cylinder ∧ s.current_cylinder < CYLINDERS) := by
  constructor
  · intro s hs
    obtain ⟨_, ht⟩ := fifo_run_inv requests hv k s hs
    exact ⟨ht.angle.1, ht.angle.2, ht.cyl.1, ht.cyl.2⟩
  · intro s hs
    obtain ⟨hinv, ht⟩ := sstf_run_inv requests hv k s hs
    exact ⟨ht.angle.1, ht.angle.2, hinv.cyl.1, hinv.cyl.2⟩

theorem head_state_in_range_witness :
    (∀ r ∈ scenario, ValidRequest r) ∧
    (∀ s, fifo_run scenario 1 = some s →
      0 ≤ s.current_angle ∧ s.current_angle < 360 ∧
        0 ≤ s.current_cylinder ∧ s.current_cylinder < CYLINDERS) ∧
    (∀ s, sstf_run scenario 1 = some s →
      0 ≤ s.current_angle ∧ s.current_angle < 360 ∧
        0 ≤ s.current_cylinder ∧ s.current_cylinder < CYLINDERS) :=
  ⟨by decide!, head_state_in_range scenario (by decide!) 1⟩

theorem sstf_run_order (requests : List DiskRequest) (hv : ∀ r ∈ requests, ValidRequest r) :
    ∀ k s, sstf_run requests k = some s → SstfOrder s := by
  intro k
  induction k with
  | zero =>
    intro s hs
    simp only [sstf_run, Option.some.injEq] at hs
    subst hs
    exact ⟨by intro e he; simp [sstf_init] at he, by simp [sstf_init]⟩
  | succ m ih =>
    intro s hs
    have hs' := hs
    simp only [sstf_run] at hs
    cases h0 : sstf_run requests m with
    | none => simp [h0] at hs
    | some s0 =>
      obtain ⟨hinv, htimes⟩ := sstf_run_inv requests hv m s0 h0
      simp only [h0] at hs
      by_cases hlt : s0.processed_count < s0.requests.length
      · rw [if_pos hlt] at hs
        cases hb : sstf_body s0 with
        | inr s1 => simp [hb] at hs
        | inl s1 =>
          simp only [hb, Option.some.injEq] at hs
          subst hs
          exact (sstf_order_step requests hv s0 s1 hinv htimes (ih s0 h0) hlt hb).1
      · rw [if_neg hlt] at hs
        cases hs

/-- C18: in a run of either scheduler on valid requests the disk serves one
request at a time: in the dispatch log of the returned state every dispatch
has `start_time ≤ completion_time`, and each later dispatch has a
`start_time` at or after the `completion_time` of every earlier one; from one
pass of the loop to the next the clock `current_time` never decreases. -/
theorem service_intervals_disjoint (requests : List DiskRequest)
    (hv : ∀ r ∈ requests, ValidRequest r) :
    (∃ s, simulate_fifo requests = some s ∧
      (∀ e ∈ s.log, (s.requests.getD e.1.toNat default).start_time
        ≤ (s.requests.getD e.1.toNat default).completion_time) ∧
      s.log.Pairwise (fun a b =>
        (s.requests.getD a.1.toNat default).completion_time
          ≤ (s.requests.getD b.1.toNat default).start_time)) ∧
    (∃ s, simulate_sstf requests = some s ∧
      (∀ e ∈ s.log, (s.requests.getD e.1 default).start_time
        ≤ (s.requests.getD e.1 default).completion_time) ∧
      s.log.Pairwise (fun a b =>
        (s.requests.getD a.1 default).completion_time
          ≤ (s.requests.getD b.1 default).start_time)) ∧
    (∀ k s s1, fifo_run requests k = some s → fifo_run requests (k + 1) = some s1 →
      s.current_time ≤ s1.current_time) ∧
    (∀ k s s1, sstf_run requests k = some s → sstf_run requests (k + 1) = some s1 →
      s.current_time ≤ s1.current_time) := by
  refine ⟨?_, ?_, ?_, ?_⟩
  · obtain ⟨s, hs, hinv, hp, _⟩ :=
      simulate_fifo_spec requests (FifoTimes requests)
        (fun s s1 hinv hp hlt hb => (fifo_times_step requests hv s s1 hinv hp hlt hb).1)
        (fifo_init_times requests)
    exact ⟨s, hs, fun e he => (hp.served e he).1, hp.order⟩
  · obtain ⟨s, hs, hinv, ⟨ht, hp⟩, _⟩ :=
      simulate_sstf_spec requests (fun r hr => valid_placed (hv r hr))
        (fun s => SstfTimes s ∧ SstfOrder s)
        (fun s s1 hinv hp hlt hb =>
          ⟨sstf_times_step requests hv s s1 hinv hp.1 hlt hb,
            (sstf_order_step requests hv s s1 hinv hp.1 hp.2 hlt hb).1⟩)
        ⟨sstf_init_times requests,
          ⟨by intro e he; simp [sstf_init] at he, by simp [sstf_init]⟩⟩
    exact ⟨s, hs, fun e he => (hp.served e he).1, hp.order⟩
  · intro k s s1 hs hs1
    obtain ⟨hinv, ht⟩ := fifo_run_inv requests hv k s hs
    simp only [fifo_run, hs] at hs1
    by_cases hlt : s.request_index < s.requests.length
    · rw [if_pos hlt] at hs1
      cases hb : fifo_body s with
      | inr s2 => simp [hb] at hs1
      | inl s2 =>
        simp only [hb, Option.some.injEq] at hs1
        subst hs1
        exact (fifo_times_step requests hv s s2 hinv ht (by rw [← hinv.len]; exact hlt) hb).2
    · rw [if_neg hlt] at hs1
      cases hs1
  · intro k s s1 hs hs1
    obtain ⟨hinv, ht⟩ := sstf_run_inv requests hv k s hs
    have ho := sstf_run_order requests hv k s hs
    simp only [sstf_run, hs] at hs1
    by_cases hlt : s.processed_count < s.requests.length
    · rw [if_pos hlt] at hs1
      cases hb : sstf_body s with
      | inr s2 => simp [hb] at hs1
      | inl s2 =>
        simp only [hb, Option.some.injEq] at hs1
        subst hs1
        exact (sstf_order_step requests hv s s2 hinv ht ho hlt hb).2
    · rw [if_neg hlt] at hs1
      cases hs1

theorem service_intervals_disjoint_witness :
    (∀ r ∈ scenario, ValidRequest r) ∧
    (∃ s, simulate_fifo scenario = some s ∧
      (∀ e ∈ s.log, (s.requests.getD e.1.toNat default).start_time
        ≤ (s.requests.getD e.1.toNat default).completion_time) ∧
      s.log.Pairwise (fun a b =>
        (s.requests.getD a.1.toNat default).completion_time
          ≤ (s.requests.getD b.1.toNat default).start_time)) ∧
    (∃ s, simulate_sstf scenario = some s ∧
      (∀ e ∈ s.log, (s.requests.getD e.1 default).start_time
        ≤ (s.requests.getD e.1 default).completion_time) ∧
      s.log.Pairwise (fun a b =>
        (s.requests.getD a.1 default).completion_time
          ≤ (s.requests.getD b.1 default).start_time)) ∧
    (∀ k s s1, fifo_run scenario k = some s → fifo_run scenario (k + 1) = some s1 →
      s.current_time ≤ s1.current_time) ∧
    (∀ k s s1, sstf_run scenario k = some s → sstf_run scenario (k + 1) = some s1 →
      s.current_time ≤ s1.current_time) :=
  ⟨by decide!, service_intervals_disjoint scenario (by decide!)⟩

/-! ## Double arithmetic -/

/-- Values of `round_double`: the doubles nearest to 0.1, 0.2, 1/3 and 1e-20,
the sum 0.1 + 0.2, ties to even at `2 ^ 53`, the subnormal range, and the
exact values 22.5 and 6. -/
theorem round_double_values :
    round_double (1 / 10) = 3602879701896397 / 2 ^ 55 ∧
    round_double (1 / 5) = 3602879701896397 / 2 ^ 54 ∧
    round_double (1 / 3) = 6004799503160661 / 2 ^ 54 ∧
    round_double (1 / 10 ^ 20) = 6646139978924579 / 2 ^ 119 ∧
    round_double (round_double (1 / 10) + round_double (1 / 5)) = 5404319552844596 / 2 ^ 54 ∧
    round_double (2 ^ 53 + 1) = 2 ^ 53 ∧ round_double (2 ^ 53 + 3) = 2 ^ 53 + 4 ∧
    round_double (-(2 ^ 53 + 3)) = -(2 ^ 53 + 4) ∧
    round_double (1 / 2 ^ 1075) = 0 ∧ round_double (3 / 2 ^ 1075) = 2 / 2 ^ 1074 ∧
    round_double (360 / SECTORS_PER_TRACK) = 45 / 2 ∧ round_double ROTATION_TIME = 6 := by
  refine ⟨?_, ?_, ?_, ?_, ?_, ?_, ?_, ?_, ?_, ?_, ?_, ?_⟩ <;> decide!

/-- Values of line 65 in `double` and `int`: 3000 at the double nearest to
0.2 (where the exact quotient truncates to 1499), 2 at 300, no value at the
double nearest to `2e-7` (the product by 2 leaves the range of `int`) and at
0 (division by zero). -/
theorem gen_max_requests_double_values :
    gen_max_requests_double (round_double (1 / 5)) = some 3000 ∧
    gen_max_requests (round_double (1 / 5)) = some 2998 ∧
    gen_max_requests_double 300 = some 2 ∧
    gen_max_requests_double (round_double (2 / 10 ^ 7)) = none ∧
    gen_max_requests_double 0 = none := by
  refine ⟨?_, ?_, ?_, ?_, ?_⟩ <;> decide!

theorem gen_body_double_spec (RAND_MAX : Nat) (rand : Nat → Nat) (t_max : ℚ) (n : Int)
    (hn : n ≠ 0) (s : GenState) (hinv : GenInvDouble RAND_MAX rand t_max s) :
    (SIMULATION_TIME ≤ gen_clock_double RAND_MAX rand t_max (s.count + 1) ∧
      ∃ s1, gen_body_double RAND_MAX rand t_max n s = some (Sum.inr s1) ∧
        s1.requests = s.requests ∧ s1.count = s.count) ∨
    (∃ s1, gen_body_double RAND_MAX rand t_max n s = some (Sum.inl s1) ∧
      GenInvDouble RAND_MAX rand t_max s1 ∧ s1.count = s.count + 1) := by
  obtain ⟨h1, h2, h3, h4, h5, h6⟩ := hinv
  have hclock : round_double (s.current_time
        + round_double (round_double (round_double ((rand s.calls : ℚ) / (RAND_MAX : ℚ)) * t_max)
          * 1000))
      = gen_clock_double RAND_MAX rand t_max (s.count + 1) := by
    rw [gen_clock_double, gen_gap_double, h2, h3]
  by_cases hge : round_double (s.current_time
        + round_double (round_double (round_double ((rand s.calls : ℚ) / (RAND_MAX : ℚ)) * t_max)
          * 1000)) ≥ SIMULATION_TIME
  · left
    refine ⟨by rw [← hclock]; exact hge, ?_⟩
    simp only [gen_body_double]
    rw [if_pos hge]
    exact ⟨_, rfl, rfl, rfl⟩
  · right
    simp only [gen_body_double]
    rw [if_neg hge, if_neg hn]
    refine ⟨_, rfl, ?_, rfl⟩
    refine ⟨by simp [h1], by simp only [h2]; ring, hclock, ?_, ?_, not_le.mp hge⟩
    · simp only [List.map_append, h4, List.map_cons, List.map_nil, List.range_succ, hclock]
    · intro k hk
      by_cases hks : k = s.count
      · subst hks
        rw [← hclock]
        exact not_le.mp hge
      · exact h5 k (by simp only at hk; omega)

/-- The loop of `generate_requests` in `double` returns within the fuel; its
output carries the cumulative arrival times below the horizon, and it has
stopped either at the capacity `max_requests` or at the first cumulative
arrival time that reaches the horizon. -/
theorem gen_loop_double_spec (RAND_MAX : Nat) (rand : Nat → Nat) (t_max : ℚ) (n : Int)
    (hn : n ≠ 0) (max_requests : Int) :
    ∀ fuel s, GenInvDouble RAND_MAX rand t_max s → (s.count : Int) ≤ max max_requests 0 →
      (max_requests - (s.count : Int)).toNat + 1 ≤ fuel →
      ∃ s1, gen_loop_double RAND_MAX rand t_max n max_requests fuel s = some s1 ∧
        s1.requests.length = s1.count ∧ (s1.count : Int) ≤ max max_requests 0 ∧
        s1.requests.map (fun r => r.arrival_time)
          = (List.range s1.count).map (fun k => gen_clock_double RAND_MAX rand t_max (k + 1)) ∧
        (∀ k, k < s1.count → gen_clock_double RAND_MAX rand t_max (k + 1) < SIMULATION_TIME) ∧
        ((s1.count : Int) < max_requests →
          SIMULATION_TIME ≤ gen_clock_double RAND_MAX rand t_max (s1.count + 1)) := by
  intro fuel
  induction fuel with
  | zero =>
    intro s _ _ hf
    omega
  | succ f ih =>
    intro s hinv hc hf
    by_cases hcond : s.current_time < SIMULATION_TIME ∧ (s.count : Int) < max_requests
    · rcases gen_body_double_spec RAND_MAX rand t_max n hn s hinv with
        ⟨hstop, s1, hb, hr, hcnt⟩ | ⟨s1, hb, hinv1, hcnt⟩
      · refine ⟨s1, ?_, ?_, ?_, ?_, ?_, ?_⟩
        · rw [gen_loop_double, if_pos hcond, hb]
        · rw [hr, hcnt]
          exact hinv.len
        · rw [hcnt]
          exact hc
        · rw [hr, hcnt]
          exact hinv.arrivals
        · rw [hcnt]
          exact hinv.below
        · rw [hcnt]
          exact fun _ => hstop
      · rw [gen_loop_double, if_pos hcond, hb]
        apply ih s1 hinv1
        · rw [hcnt]
          have := hcond.2
          omega
        · rw [hcnt]
          have := hcond.2
          omega
    · refine ⟨s, ?_, hinv.len, hc, hinv.arrivals, hinv.below, ?_⟩
      · rw [gen_loop_double, if_neg hcond]
      · intro hlt
        exact absurd ⟨hinv.head, hlt⟩ hcond

/-- C13 (counterexample): with `t_max = 300` the capacity `max_requests` is 2.
When the first three gaps drawn are 0 and the fourth is `t_max * 1000`, the
cumulative arrival times are 0, 0, 0 and 300000: three of them are below the
horizon and the fourth reaches it, yet `generate_requests` returns only two
requests.  It has stopped at the capacity with the clock at 0, and the third
arrival is discarded although it does not cross the horizon. -/
theorem generator_stops_at_capacity :
    gen_max_requests_double 300 = some 2 ∧
    (∃ out, generate_requests_double 2147483647 (fun k => if k = 18 then 2147483647 else 0)
        300 16 = some out ∧ out.length = 2 ∧
      ¬ (∀ k, gen_clock_double 2147483647 (fun k => if k = 18 then 2147483647 else 0) 300 (k + 1)
          < SIMULATION_TIME → k < out.length)) ∧
    gen_clock_double 2147483647 (fun k => if k = 18 then 2147483647 else 0) 300 3 = 0 ∧
    gen_clock_double 2147483647 (fun k => if k = 18 then 2147483647 else 0) 300 4
      = SIMULATION_TIME := by
  have h1 : (generate_requests_double 2147483647 (fun k => if k = 18 then 2147483647 else 0)
      300 16).map (fun l => l.length) = some 2 := by decide!
  have h2 : gen_clock_double 2147483647 (fun k => if k = 18 then 2147483647 else 0) 300 3 = 0 := by
    decide!
  refine ⟨by decide!, ?_, h2, by decide!⟩
  cases hg : generate_requests_double 2147483647 (fun k => if k = 18 then 2147483647 else 0)
    300 16 with
  | none => simp [hg] at h1
  | some out =>
    simp only [hg, Option.map_some', Option.some.injEq] at h1
    refine ⟨out, rfl, h1, ?_⟩
    intro hall
    have := hall 2 (by rw [h2]; decide!)
    omega

/-- C13 (amended): for every stream of draws and every `n ≠ 0`, when line 65
gives the capacity `max_requests` (computed in `double` and `int`),
`generate_requests` returns one request for each of the first `K` cumulative
arrival times, all of them below the horizon, where `K` is at most the
capacity; when `K` is below the capacity the next cumulative arrival time has
reached the horizon and is the only one discarded.  Gaps and cumulative
arrival times are the `double` values the loop computes. -/
theorem generator_stops_at_horizon_or_capacity (RAND_MAX : Nat) (rand : Nat → Nat) (t_max : ℚ)
    (n : Int) (max_requests : Int) (hcap : gen_max_requests_double t_max = some max_requests)
    (hn : n ≠ 0) :
    ∃ out, generate_requests_double RAND_MAX rand t_max n = some out ∧
      (out.length : Int) ≤ max max_requests 0 ∧
      out.map (fun r => r.arrival_time)
        = (List.range out.length).map
            (fun k => gen_clock_double RAND_MAX rand t_max (k + 1)) ∧
      (∀ k, k < out.length → gen_clock_double RAND_MAX rand t_max (k + 1) < SIMULATION_TIME) ∧
      ((out.length : Int) < max_requests →
        SIMULATION_TIME ≤ gen_clock_double RAND_MAX rand t_max (out.length + 1)) := by
  have hinit : GenInvDouble RAND_MAX rand t_max
      { requests := [], current_time := 0, count := 0, calls := 0 } :=
    ⟨rfl, rfl, by simp [gen_clock_double], by simp, fun k hk => by simp at hk,
      by simp [SIMULATION_TIME]⟩
  obtain ⟨s1, e1, e2, e3, e4, e5, e6⟩ := gen_loop_double_spec RAND_MAX rand t_max n hn
    max_requests (max_requests.toNat + 1) _ hinit (by simp) (by simp)
  refine ⟨s1.requests, ?_, ?_, ?_, ?_, ?_⟩
  · simp only [generate_requests_double, hcap, e1, Option.map_some']
  · rw [e2]; exact e3
  · rw [e2]; exact e4
  · rw [e2]; exact e5
  · rw [e2]; exact e6

theorem generator_stops_at_horizon_or_capacity_witness :
    round_double (1 / 5) = 3602879701896397 / 2 ^ 54 ∧
    gen_max_requests_double (3602879701896397 / 2 ^ 54) = some 3000 ∧ (16 : Int) ≠ 0 ∧
    ∃ out, generate_requests_double 4 (fun k => if k % 6 = 0 then 3 else k)
        (3602879701896397 / 2 ^ 54) 16 = some out ∧
      (out.length : Int) ≤ max 3000 0 ∧
      out.map (fun r => r.arrival_time)
        = (List.range out.length).map
            (fun k => gen_clock_double 4 (fun k => if k % 6 = 0 then 3 else k)
              (3602879701896397 / 2 ^ 54) (k + 1)) ∧
      (∀ k, k < out.length →
        gen_clock_double 4 (fun k => if k % 6 = 0 then 3 else k)
          (3602879701896397 / 2 ^ 54) (k + 1) < SIMULATION_TIME) ∧
      ((out.length : Int) < 3000 →
        SIMULATION_TIME ≤ gen_clock_double 4 (fun k => if k % 6 = 0 then 3 else k)
          (3602879701896397 / 2 ^ 54) (out.length + 1)) :=
  ⟨by decide!, by decide!, by decide,
    generator_stops_at_horizon_or_capacity 4 (fun k => if k % 6 = 0 then 3 else k)
      (3602879701896397 / 2 ^ 54) 16 3000 (by decide!) (by decide)⟩

end DiskSim

namespace MemPool

/-! ## `my_malloc` -/

theorem mark_blocks_spec (owner : List Int) (pid : Int) (start k : Nat)
    (h : start + k ≤ owner.length) :
    (mark_blocks owner pid (start : Int) (k : Int)).length = owner.length ∧
      ∀ b, (mark_blocks owner pid (start : Int) (k : Int)).getD b 0
        = if start ≤ b ∧ b < start + k then pid else owner.getD b 0 := by
  have key := DiskSim.foldl_range_inv
    (fun o (j : Nat) => o.set (start + j) pid)
    (fun n (o : List Int) => o.length = owner.length ∧
      ∀ b, o.getD b 0 = if start ≤ b ∧ b < start + n then pid else owner.getD b 0)
    owner k ?_ ?_
  · simpa [mark_blocks] using key
  · refine ⟨rfl, fun b => ?_⟩
    have : ¬ (start ≤ b ∧ b < start + 0) := by omega
    rw [if_neg this]
  · rintro n hn o ⟨hl, ho⟩
    refine ⟨by simp [hl], fun b => ?_⟩
    rw [DiskSim.getD_set_any, ho b]
    by_cases hb : start + n = b
    · have h1 : (start + n = b ∧ start + n < o.length) := ⟨hb, by rw [hl]; omega⟩
      have h2 : (start ≤ b ∧ b < start + (n + 1)) := by omega
      rw [if_pos h1, if_pos h2]
    · have h1 : ¬ (start + n = b ∧ start + n < o.length) := fun h => hb h.1
      rw [if_neg h1]
      by_cases h2 : start ≤ b ∧ b < start + n
      · have h3 : (start ≤ b ∧ b < start + (n + 1)) := by omega
        rw [if_pos h2, if_pos h3]
      · have h3 : ¬ (start ≤ b ∧ b < start + (n + 1)) := by omega
        rw [if_neg h2, if_neg h3]

/-- The scan of `my_malloc` from block `i`, when no free run of `k` blocks
starts before the current free run: it finds the first free run of `k`
blocks and marks it, or there is none and nothing changes. -/
theorem malloc_scan_spec (pid : Int) (k : Nat) (hk : 1 ≤ k) (m : Memory) :
    ∀ (fuel i cf : Nat) (start : Int), BLOCK_COUNT - i ≤ fuel → i ≤ BLOCK_COUNT →
      cf ≤ i → cf < k → (0 < cf → start = ((i - cf : Nat) : Int)) →
      (∀ j, i - cf ≤ j → j < i → m.block_owner.getD j 0 = 0) →
      (∀ s, s < i - cf → ¬ FreeRun m.block_owner s k) →
      (∃ s0, FreeRun m.block_owner s0 k ∧ (∀ s, s < s0 → ¬ FreeRun m.block_owner s k) ∧
        malloc_scan pid (k : Int) m fuel i (cf : Int) start
          = (some (s0 * BLOCK_SIZE),
              { m with
                block_owner := mark_blocks m.block_owner pid (s0 : Int) (k : Int)
                ptr_to_block := m.ptr_to_block.set s0 (some (s0 * BLOCK_SIZE)) })) ∨
      ((∀ s, ¬ FreeRun m.block_owner s k) ∧
        malloc_scan pid (k : Int) m fuel i (cf : Int) start = (none, m)) := by
  intro fuel
  induction fuel with
  | zero =>
    intro i cf start hf hi hcf hck _ _ hno
    right
    refine ⟨?_, rfl⟩
    intro s hs
    by_cases h : s < i - cf
    · exact hno s h hs
    · have := hs.1
      omega
  | succ f ih =>
    intro i cf start hf hi hcf hck hst hfree hno
    by_cases hib : i < BLOCK_COUNT
    · by_cases hown : m.block_owner.getD i 0 = 0
      · by_cases hge : (cf : Int) + 1 ≥ (k : Int)
        · left
          have hcfk : cf + 1 = k := by omega
          have hs0 : (if (cf : Int) = 0 then (i : Int) else start) = ((i - cf : Nat) : Int) := by
            by_cases hz : (cf : Int) = 0
            · rw [if_pos hz]
              have : cf = 0 := by omega
              subst this
              simp
            · rw [if_neg hz]
              exact hst (by omega)
          refine ⟨i - cf, ⟨by omega, ?_⟩, hno, ?_⟩
          · intro j hj
            by_cases hji : i - cf + j = i
            · rw [hji]
              exact hown
            · exact hfree _ (by omega) (by omega)
          · rw [malloc_scan, if_pos hib, if_pos hown]
            simp only [hs0, Int.toNat_ofNat]
            rw [if_pos hge]
        · have hlt : cf + 1 < k := by omega
          have hstep := ih (i + 1) (cf + 1) (if (cf : Int) = 0 then (i : Int) else start)
            (by omega) (by omega) (by omega) hlt ?_ ?_ ?_
          · rw [malloc_scan, if_pos hib, if_pos hown]
            simp only []
            rw [if_neg hge]
            simpa using hstep
          · intro _
            by_cases hz : (cf : Int) = 0
            · rw [if_pos hz]
              have : cf = 0 := by omega
              subst this
              simp
            · rw [if_neg hz, hst (by omega)]
              congr 1
              omega
          · intro j hj1 hj2
            by_cases hji : j = i
            · rw [hji]
              exact hown
            · exact hfree j (by omega) (by omega)
          · intro s hs
            exact hno s (by omega)
      · have hstep := ih (i + 1) 0 start (by omega) (by omega) (by omega) (by omega)
          (by intro h; omega) (by intro j h1 h2; omega) ?_
        · rw [malloc_scan, if_pos hib, if_neg hown]
          simpa using hstep
        · intro s hs hrun
          by_cases h : s < i - cf
          · exact hno s h hrun
          · have := hrun.2 (i - s) (by omega)
            rw [show s + (i - s) = i by omega] at this
            exact hown this
    · right
      refine ⟨?_, ?_⟩
      · intro s hs
        by_cases h : s < i - cf
        · exact hno s h hs
        · have := hs.1
          omega
      · rw [malloc_scan, if_neg hib]

theorem blocks_needed_eq (size : Nat) (hk : (size + BLOCK_SIZE - 1) / BLOCK_SIZE < 2 ^ 31) :
    blocks_needed size = (((size + BLOCK_SIZE - 1) / BLOCK_SIZE : Nat) : Int) := by
  simp only [BLOCK_SIZE] at hk
  have h1 : (size + 64 - 1) % 2 ^ 64 = size + 64 - 1 := by
    apply Nat.mod_eq_of_lt
    omega
  simp only [blocks_needed, to_int, BLOCK_SIZE, h1]
  omega

theorem my_malloc_spec (size : Nat) (pid : Int) (m : Memory) (hs : 1 ≤ size)
    (hk : (size + BLOCK_SIZE - 1) / BLOCK_SIZE < 2 ^ 31) :
    (∃ s0, FreeRun m.block_owner s0 ((size + BLOCK_SIZE - 1) / BLOCK_SIZE) ∧
      (∀ s, s < s0 → ¬ FreeRun m.block_owner s ((size + BLOCK_SIZE - 1) / BLOCK_SIZE)) ∧
      my_malloc size pid m
        = (some (s0 * BLOCK_SIZE),
            { m with
              block_owner := mark_blocks m.block_owner pid (s0 : Int)
                (((size + BLOCK_SIZE - 1) / BLOCK_SIZE : Nat) : Int)
              ptr_to_block := m.ptr_to_block.set s0 (some (s0 * BLOCK_SIZE)) })) ∨
    ((∀ s, ¬ FreeRun m.block_owner s ((size + BLOCK_SIZE - 1) / BLOCK_SIZE)) ∧
      my_malloc size pid m = (none, m)) := by
  have hk1 : 1 ≤ (size + BLOCK_SIZE - 1) / BLOCK_SIZE := by
    simp only [BLOCK_SIZE]
    omega
  have := malloc_scan_spec pid _ hk1 m BLOCK_COUNT 0 0 (-1) (by omega) (by omega)
    (le_refl _) (by omega) (by intro h; omega) (by intro j h1 h2; omega)
    (by intro s h; omega)
  simpa only [my_malloc, blocks_needed_eq size hk, Nat.cast_zero] using this

/-- C20 (the code at the failing input, and what holds elsewhere): for
`size = SIZE_MAX = 2^64 - 1` the sum `size + BLOCK_SIZE - 1` wraps, so
`blocks_needed` is 0 and `my_malloc` on the freshly initialised pool returns
the address of block 0 and marks no block, although no run of
`ceil (size / 64) = 2^58` free blocks exists.  For every `size ≥ 1` whose
block count `k = ceil (size / 64)` fits an `int`, `my_malloc` is first-fit: it
returns a pointer if and only if a run of `k` free blocks exists; it then
returns the address of the lowest block `s` whose blocks `s .. s + k - 1` are
all free, sets exactly these owners to `process_id` and changes no other
owner and no byte of the pool; otherwise it returns `NULL` and changes
nothing. -/
theorem first_fit_unless_size_wraps :
    ((my_malloc (2 ^ 64 - 1) 49 init_memory).1 = some 0 ∧
      (my_malloc (2 ^ 64 - 1) 49 init_memory).2.block_owner = init_memory.block_owner ∧
      ∀ s, ¬ FreeRun init_memory.block_owner s ((2 ^ 64 - 1 + BLOCK_SIZE - 1) / BLOCK_SIZE)) ∧
    (∀ (size : Nat) (process_id : Int) (m : Memory),
      m.block_owner.length = BLOCK_COUNT → 1 ≤ size →
      (size + BLOCK_SIZE - 1) / BLOCK_SIZE < 2 ^ 31 →
      ((∃ s, FreeRun m.block_owner s ((size + BLOCK_SIZE - 1) / BLOCK_SIZE)) ↔
        (my_malloc size process_id m).1 ≠ none) ∧
      (∀ s0, FreeRun m.block_owner s0 ((size + BLOCK_SIZE - 1) / BLOCK_SIZE) →
        (∀ s, s < s0 → ¬ FreeRun m.block_owner s ((size + BLOCK_SIZE - 1) / BLOCK_SIZE)) →
        (my_malloc size process_id m).1 = some (s0 * BLOCK_SIZE) ∧
        (my_malloc size process_id m).2.block_owner.length = BLOCK_COUNT ∧
        (∀ b, (my_malloc size process_id m).2.block_owner.getD b 0
          = if s0 ≤ b ∧ b < s0 + (size + BLOCK_SIZE - 1) / BLOCK_SIZE then process_id
            else m.block_owner.getD b 0) ∧
        (my_malloc size process_id m).2.memory_pool = m.memory_pool) ∧
      ((¬ ∃ s, FreeRun m.block_owner s ((size + BLOCK_SIZE - 1) / BLOCK_SIZE)) →
        my_malloc size process_id m = (none, m))) := by
  refine ⟨⟨by decide!, by decide!, ?_⟩, ?_⟩
  · intro s hs
    have := hs.1
    simp only [BLOCK_COUNT, POOL_SIZE, BLOCK_SIZE] at this
    omega
  · intro size pid m hlen hs hk
    have hfirst : ∀ s0 s1, FreeRun m.block_owner s0 ((size + BLOCK_SIZE - 1) / BLOCK_SIZE) →
        (∀ s, s < s0 → ¬ FreeRun m.block_owner s ((size + BLOCK_SIZE - 1) / BLOCK_SIZE)) →
        FreeRun m.block_owner s1 ((size + BLOCK_SIZE - 1) / BLOCK_SIZE) →
        (∀ s, s < s1 → ¬ FreeRun m.block_owner s ((size + BLOCK_SIZE - 1) / BLOCK_SIZE)) →
        s0 = s1 := by
      intro s0 s1 h0 l0 h1 l1
      by_contra hne
      rcases Nat.lt_or_gt_of_ne hne with h | h
      · exact l1 s0 h h0
      · exact l0 s1 h h1
    rcases my_malloc_spec size pid m hs hk with ⟨s0, hrun, hlow, heq⟩ | ⟨hnone, heq⟩
    · refine ⟨?_, ?_, ?_⟩
      · rw [heq]
        simp only [ne_eq, reduceCtorEq, not_false_eq_true, iff_true]
        exact ⟨s0, hrun⟩
      · intro s1 hrun1 hlow1
        have := hfirst s0 s1 hrun hlow hrun1 hlow1
        subst this
        rw [heq]
        obtain ⟨ml, mg⟩ := mark_blocks_spec m.block_owner pid s0
          ((size + BLOCK_SIZE - 1) / BLOCK_SIZE) (by rw [hlen]; exact hrun.1)
        exact ⟨rfl, by rw [← hlen]; exact ml, mg, rfl⟩
      · intro hno
        exact absurd ⟨s0, hrun⟩ hno
    · refine ⟨?_, ?_, ?_⟩
      · rw [heq]
        simp only [ne_eq, not_true_eq_false, iff_false]
        rintro ⟨s, hs⟩
        exact hnone s hs
      · intro s1 hrun1
        exact absurd hrun1 (hnone s1)
      · intro _
        exact heq

/-! ## `compact_memory` -/

theorem run_length_spec (owner : List Int) (pid : Int) :
    ∀ fuel j, (j ≤ BLOCK_COUNT → j + run_length owner pid fuel j ≤ BLOCK_COUNT) ∧
      (∀ t, t < run_length owner pid fuel j → owner.getD (j + t) 0 = pid) ∧
      (0 < fuel → j < BLOCK_COUNT → owner.getD j 0 = pid → 0 < run_length owner pid fuel j) := by
  intro fuel
  induction fuel with
  | zero =>
    intro j
    simp [run_length]
  | succ f ih =>
    intro j
    obtain ⟨h1, h2, _⟩ := ih (j + 1)
    by_cases hc : j < BLOCK_COUNT ∧ owner.getD j 0 = pid
    · simp only [run_length, if_pos hc]
      refine ⟨?_, ?_, ?_⟩
      · intro _
        have := h1 (by omega)
        omega
      · intro t ht
        cases t with
        | zero => exact hc.2
        | succ u =>
          have := h2 u (by omega)
          rw [show j + (u + 1) = j + 1 + u by omega]
          exact this
      · intro _ _ _
        omega
    · simp only [run_length, if_neg hc]
      refine ⟨fun h => by omega, fun t ht => by omega, ?_⟩
      intro _ h1 h2
      exact absurd ⟨h1, h2⟩ hc

theorem memmove_getD (pool : List Nat) (dst src len k : Nat) (hk : k < pool.length) :
    (memmove pool dst src len).getD k 0
      = if dst ≤ k ∧ k < dst + len then pool.getD (src + (k - dst)) 0 else pool.getD k 0 := by
  simp [memmove, List.getD_eq_getElem?_getD, List.getElem?_map, List.getElem?_range hk]

theorem memmove_length (pool : List Nat) (dst src len : Nat) :
    (memmove pool dst src len).length = pool.length := by
  simp [memmove]

theorem memmove_block (pool : List Nat) (hp : pool.length = POOL_SIZE) (target i bc b : Nat)
    (hb : b < BLOCK_COUNT) :
    block (memmove pool (target * BLOCK_SIZE) (i * BLOCK_SIZE) (bc * BLOCK_SIZE)) b
      = if target ≤ b ∧ b < target + bc then block pool (i + (b - target)) else block pool b := by
  simp only [BLOCK_COUNT, POOL_SIZE, BLOCK_SIZE] at hb hp
  by_cases hc : target ≤ b ∧ b < target + bc
  · rw [if_pos hc]
    simp only [block]
    apply List.map_congr_left
    intro o ho
    rw [List.mem_range] at ho
    simp only [BLOCK_SIZE] at ho ⊢
    rw [memmove_getD _ _ _ _ _ (by rw [hp]; omega)]
    have h1 : (target * 64 ≤ b * 64 + o ∧ b * 64 + o < target * 64 + bc * 64) := by omega
    rw [if_pos h1]
    congr 1
    omega
  · rw [if_neg hc]
    simp only [block]
    apply List.map_congr_left
    intro o ho
    rw [List.mem_range] at ho
    simp only [BLOCK_SIZE] at ho ⊢
    rw [memmove_getD _ _ _ _ _ (by rw [hp]; omega)]
    have h1 : ¬ (target * 64 ≤ b * 64 + o ∧ b * 64 + o < target * 64 + bc * 64) := by omega
    rw [if_neg h1]

theorem move_run_spec (pid : Int) (target i bc : Nat) (m : Memory)
    (hlen : m.block_owner.length = BLOCK_COUNT) (hti : target < i)
    (hib : i + bc ≤ BLOCK_COUNT) :
    (move_run pid target i bc m).memory_pool
        = memmove m.memory_pool (target * BLOCK_SIZE) (i * BLOCK_SIZE) (bc * BLOCK_SIZE) ∧
      (move_run pid target i bc m).block_owner.length = BLOCK_COUNT ∧
      ∀ b, (move_run pid target i bc m).block_owner.getD b 0
        = if target ≤ b ∧ b < target + bc then pid
          else if i ≤ b ∧ b < i + bc then 0 else m.block_owner.getD b 0 := by
  have key := DiskSim.foldl_range_inv (move_entry pid target i)
    (fun n (mm : Memory) =>
      mm.memory_pool
          = memmove m.memory_pool (target * BLOCK_SIZE) (i * BLOCK_SIZE) (bc * BLOCK_SIZE) ∧
        mm.block_owner.length = BLOCK_COUNT ∧
        ∀ b, mm.block_owner.getD b 0
          = if target ≤ b ∧ b < target + n then pid
            else if i ≤ b ∧ b < i + n then 0 else m.block_owner.getD b 0)
    { m with
      memory_pool := memmove m.memory_pool (target * BLOCK_SIZE) (i * BLOCK_SIZE)
        (bc * BLOCK_SIZE) } bc ?_ ?_
  · exact key
  · refine ⟨rfl, hlen, fun b => ?_⟩
    have h1 : ¬ (target ≤ b ∧ b < target + 0) := by omega
    have h2 : ¬ (i ≤ b ∧ b < i + 0) := by omega
    rw [if_neg h1, if_neg h2]
  · rintro n hn mm ⟨hpool, hl, ho⟩
    refine ⟨hpool, by simp [move_entry, hl], fun b => ?_⟩
    simp only [move_entry]
    rw [DiskSim.getD_set_any, DiskSim.getD_set_any, ho b, List.length_set]
    by_cases hb1 : i + n = b
    · have c1 : (i + n = b ∧ i + n < mm.block_owner.length) := ⟨hb1, by rw [hl]; omega⟩
      have c2 : ¬ (target ≤ b ∧ b < target + (n + 1)) := by omega
      have c3 : (i ≤ b ∧ b < i + (n + 1)) := by omega
      rw [if_pos c1, if_neg c2, if_pos c3]
    · have c1 : ¬ (i + n = b ∧ i + n < mm.block_owner.length) := fun h => hb1 h.1
      rw [if_neg c1]
      by_cases hb2 : target + n = b
      · have c2 : (target + n = b ∧ target + n < mm.block_owner.length) :=
          ⟨hb2, by rw [hl]; omega⟩
        have c3 : (target ≤ b ∧ b < target + (n + 1)) := by omega
        rw [if_pos c2, if_pos c3]
      · have c2 : ¬ (target + n = b ∧ target + n < mm.block_owner.length) :=
          fun h => hb2 h.1
        rw [if_neg c2]
        by_cases c3 : target ≤ b ∧ b < target + n
        · have c4 : (target ≤ b ∧ b < target + (n + 1)) := by omega
          rw [if_pos c3, if_pos c4]
        · have c4 : ¬ (target ≤ b ∧ b < target + (n + 1)) := by omega
          rw [if_neg c3, if_neg c4]
          by_cases c5 : i ≤ b ∧ b < i + n
          · have c6 : (i ≤ b ∧ b < i + (n + 1)) := by omega
            rw [if_pos c5, if_pos c6]
          · have c6 : ¬ (i ≤ b ∧ b < i + (n + 1)) := by omega
            rw [if_neg c5, if_neg c6]

/-- The fuel `compact_body` gives `run_length` suffices: the run it counts
ends at the end of the pool or at a block that `pid` does not own. -/
theorem run_length_maximal (owner : List Int) (pid : Int) :
    ∀ fuel j, BLOCK_COUNT - j ≤ fuel →
      BLOCK_COUNT ≤ j + run_length owner pid fuel j ∨
        owner.getD (j + run_length owner pid fuel j) 0 ≠ pid := by
  intro fuel
  induction fuel with
  | zero =>
    intro j hf
    left
    simp only [run_length]
    omega
  | succ f ih =>
    intro j hf
    by_cases hc : j < BLOCK_COUNT ∧ owner.getD j 0 = pid
    · simp only [run_length, if_pos hc]
      rcases ih (j + 1) (by omega) with h | h
      · left
        omega
      · right
        rw [show j + (run_length owner pid f (j + 1) + 1)
          = j + 1 + run_length owner pid f (j + 1) by omega]
        exact h
    · simp only [run_length, if_neg hc]
      by_cases hj : j < BLOCK_COUNT
      · right
        intro h
        exact hc ⟨hj, h⟩
      · left
        omega

theorem block_entry_congr (m m1 : Memory) (b : Nat)
    (h1 : m1.block_owner.getD b 0 = m.block_owner.getD b 0)
    (h2 : block m1.memory_pool b = block m.memory_pool b) :
    block_entry m1 b = block_entry m b := by
  simp only [block_entry, h1, h2]

theorem filter_range_add (p : Nat → Bool) (i c : Nat) (h : ∀ j, j < c → p (i + j) = true) :
    (List.range (i + c)).filter p = (List.range i).filter p ++ (List.range c).map (i + ·) := by
  rw [List.range_add, List.filter_append]
  congr 1
  rw [List.filter_eq_self]
  intro a ha
  rw [List.mem_map] at ha
  obtain ⟨j, hj, rfl⟩ := ha
  exact h j (List.mem_range.mp hj)

theorem compact_body_inv (m0 : Memory) (s : CompactState) (hinv : CompactInv m0 s)
    (hi : s.i < BLOCK_COUNT) :
    CompactInv m0 (compact_body s) ∧ s.i < (compact_body s).i := by
  obtain ⟨l1, l2, l3, l4, l5, l6, l7⟩ := hinv
  have hown0 : s.mem.block_owner.getD s.i 0 = m0.block_owner.getD s.i 0 := by
    have := l7 s.i (le_refl _) hi
    simp only [block_entry, Prod.mk.injEq] at this
    exact this.1
  by_cases hocc : s.mem.block_owner.getD s.i 0 ≠ 0
  · obtain ⟨r1, r2, r3⟩ := run_length_spec s.mem.block_owner (s.mem.block_owner.getD s.i 0)
      (BLOCK_COUNT - s.i) s.i
    have hbc := r3 (by omega) hi rfl
    have hend := r1 (by omega)
    have hfilter : (List.range (s.i + run_length s.mem.block_owner
          (s.mem.block_owner.getD s.i 0) (BLOCK_COUNT - s.i) s.i)).filter
          (fun b => decide (m0.block_owner.getD b 0 ≠ 0))
        = (List.range s.i).filter (fun b => decide (m0.block_owner.getD b 0 ≠ 0))
          ++ (List.range (run_length s.mem.block_owner
            (s.mem.block_owner.getD s.i 0) (BLOCK_COUNT - s.i) s.i)).map (s.i + ·) := by
      apply filter_range_add
      intro j hj
      have e := l7 (s.i + j) (by omega) (by omega)
      simp only [block_entry, Prod.mk.injEq] at e
      rw [← e.1, r2 j hj]
      simpa using hocc
    by_cases hmove : s.i ≠ s.target_index
    · have hti : s.target_index < s.i := by omega
      obtain ⟨mp, ml, mo⟩ := move_run_spec (s.mem.block_owner.getD s.i 0) s.target_index s.i
        (run_length s.mem.block_owner (s.mem.block_owner.getD s.i 0) (BLOCK_COUNT - s.i) s.i)
        s.mem l1 hti hend
      have hbody : compact_body s =
          { mem := move_run (s.mem.block_owner.getD s.i 0) s.target_index s.i
              (run_length s.mem.block_owner (s.mem.block_owner.getD s.i 0)
                (BLOCK_COUNT - s.i) s.i) s.mem
            target_index := s.target_index + run_length s.mem.block_owner
              (s.mem.block_owner.getD s.i 0) (BLOCK_COUNT - s.i) s.i
            moves := s.moves + 1
            i := s.i + run_length s.mem.block_owner
              (s.mem.block_owner.getD s.i 0) (BLOCK_COUNT - s.i) s.i } := by
        simp only [compact_body, if_pos hocc, if_pos hmove]
      rw [hbody]
      refine ⟨⟨ml, by rw [mp, memmove_length]; exact l2, by simp only []; omega, hend,
        ?_, ?_, ?_⟩, by simp only []; omega⟩
      · simp only []
        rw [hfilter, List.range_add, List.map_append, List.map_append, ← l5]
        congr 1
        · apply List.map_congr_left
          intro b hb
          rw [List.mem_range] at hb
          apply block_entry_congr
          · rw [mo b, if_neg (by omega), if_neg (by omega)]
          · rw [mp, memmove_block _ l2 _ _ _ _ (by omega), if_neg (by omega)]
        · rw [List.map_map, List.map_map]
          apply List.map_congr_left
          intro j hj
          rw [List.mem_range] at hj
          simp only [Function.comp]
          rw [← l7 (s.i + j) (by omega) (by omega)]
          simp only [block_entry, Prod.mk.injEq]
          constructor
          · rw [mo, if_pos (by omega), r2 j hj]
          · rw [mp, memmove_block _ l2 _ _ _ _ (by omega), if_pos (by omega)]
            congr 1
            omega
      · intro b hb1 hb2
        simp only [] at hb1 hb2 ⊢
        rw [mo b, if_neg (by omega)]
        by_cases hbi : s.i ≤ b
        · rw [if_pos ⟨hbi, hb2⟩]
        · rw [if_neg (fun h => hbi h.1)]
          exact l6 b (by omega) (by omega)
      · intro b hb1 hb2
        simp only [] at hb1 hb2 ⊢
        rw [← l7 b (by omega) hb2]
        apply block_entry_congr
        · rw [mo b, if_neg (by omega), if_neg (by omega)]
        · rw [mp, memmove_block _ l2 _ _ _ _ hb2, if_neg (by omega)]
    · have hti : s.i = s.target_index := by
        by_contra h
        exact hmove h
      have hbody : compact_body s =
          { s with
            target_index := s.target_index + run_length s.mem.block_owner
              (s.mem.block_owner.getD s.i 0) (BLOCK_COUNT - s.i) s.i
            i := s.i + run_length s.mem.block_owner
              (s.mem.block_owner.getD s.i 0) (BLOCK_COUNT - s.i) s.i } := by
        simp only [compact_body, if_pos hocc, if_neg hmove]
      rw [hbody]
      refine ⟨⟨l1, l2, by simp only []; omega, hend, ?_, ?_, ?_⟩, by simp only []; omega⟩
      · simp only []
        rw [hfilter, List.range_add, List.map_append, List.map_append, ← l5]
        congr 1
        rw [List.map_map, List.map_map]
        apply List.map_congr_left
        intro j hj
        rw [List.mem_range] at hj
        simp only [Function.comp]
        rw [← hti]
        exact l7 (s.i + j) (by omega) (by omega)
      · intro b hb1 hb2
        simp only [] at hb1 hb2
        omega
      · intro b hb1 hb2
        simp only [] at hb1 hb2 ⊢
        exact l7 b (by omega) hb2
  · have hfree : s.mem.block_owner.getD s.i 0 = 0 := by
      by_contra h
      exact hocc h
    have hbody : compact_body s = { s with i := s.i + 1 } := by
      simp only [compact_body, if_neg hocc]
    rw [hbody]
    refine ⟨⟨l1, l2, by simp only []; omega, by simp only []; omega, ?_, ?_, ?_⟩,
      by simp only []; omega⟩
    · simp only []
      rw [l5, List.range_succ, List.filter_append]
      have h0 : m0.block_owner.getD s.i 0 = 0 := by rw [← hown0]; exact hfree
      have : [s.i].filter (fun b => decide (m0.block_owner.getD b 0 ≠ 0)) = [] := by
        simp only [List.filter_cons, List.filter_nil, h0, ne_eq, not_true_eq_false,
          decide_False]
        rfl
      rw [this, List.append_nil]
    · intro b hb1 hb2
      simp only [] at hb1 hb2 ⊢
      by_cases hbi : b = s.i
      · rw [hbi]
        exact hfree
      · exact l6 b hb1 (by omega)
    · intro b hb1 hb2
      simp only [] at hb1 hb2 ⊢
      exact l7 b (by omega) hb2

theorem compact_loop_spec (m0 : Memory) :
    ∀ fuel s, CompactInv m0 s → BLOCK_COUNT - s.i + 1 ≤ fuel →
      ∃ s1, compact_loop fuel s = some s1 ∧ CompactInv m0 s1 ∧ s1.i = BLOCK_COUNT := by
  intro fuel
  induction fuel with
  | zero =>
    intro s _ hf
    omega
  | succ f ih =>
    intro s hinv hf
    by_cases hi : s.i < BLOCK_COUNT
    · obtain ⟨hinv1, hlt⟩ := compact_body_inv m0 s hinv hi
      rw [compact_loop, if_pos hi]
      exact ih _ hinv1 (by omega)
    · refine ⟨s, ?_, hinv, ?_⟩
      · rw [compact_loop, if_neg hi]
      · have := hinv.le2
        omega

theorem filter_range_below (p : Nat → Bool) (n t : Nat) (ht : t ≤ n)
    (h : ∀ b, b < n → (p b = true ↔ b < t)) :
    (List.range n).filter p = List.range t := by
  obtain ⟨c, rfl⟩ : ∃ c, n = t + c := ⟨n - t, by omega⟩
  rw [List.range_add, List.filter_append]
  have h1 : (List.range t).filter p = List.range t := by
    rw [List.filter_eq_self]
    intro a ha
    rw [List.mem_range] at ha
    exact (h a (by omega)).2 ha
  have h2 : ((List.range c).map (t + ·)).filter p = [] := by
    rw [List.filter_eq_nil_iff]
    intro a ha
    rw [List.mem_map] at ha
    obtain ⟨j, hj, rfl⟩ := ha
    rw [List.mem_range] at hj
    intro hp
    have := (h (t + j) (by omega)).1 hp
    omega
  rw [h1, h2, List.append_nil]

theorem occupied_fst_ne (m : Memory) : ∀ e ∈ occupied m, e.1 ≠ 0 := by
  intro e he
  simp only [occupied, List.mem_map, List.mem_filter] at he
  obtain ⟨b, ⟨_, hb⟩, rfl⟩ := he
  simpa [block_entry] using hb

theorem list_eq_map_getD (l : List Int) :
    l = (List.range l.length).map (fun b => l.getD b 0) := by
  apply List.ext_getElem
  · simp
  · intro n h1 h2
    simp [List.getD_eq_getElem?_getD, List.getElem?_eq_getElem h1]

theorem count_owner_occupied (m : Memory) (hlen : m.block_owner.length = BLOCK_COUNT)
    (pid : Int) (hpid : pid ≠ 0) :
    m.block_owner.count pid = ((occupied m).map Prod.fst).count pid := by
  have h1 : (occupied m).map Prod.fst
      = ((List.range BLOCK_COUNT).map (fun b => m.block_owner.getD b 0)).filter
          (fun x => decide (x ≠ 0)) := by
    simp only [occupied, List.map_map, List.filter_map]
    rfl
  rw [h1, ← hlen, ← list_eq_map_getD, List.count_filter]
  simpa using hpid

/-- C19: `compact_memory` is a stable compaction.  For every owner map of
`BLOCK_COUNT` entries and every pool of `POOL_SIZE` bytes it returns, and
afterwards the blocks `0 .. m - 1`, where `m` is the number of blocks that were
occupied, carry the owners and the 64-byte contents of the blocks that were
occupied, in their order; these blocks are occupied and every block from `m`
on is free; hence the sequence of occupied blocks is unchanged, and so is the
number of blocks of every owner. -/
theorem compaction_is_stable (m : Memory) (ho : m.block_owner.length = BLOCK_COUNT)
    (hp : m.memory_pool.length = POOL_SIZE) :
    ∃ m1, compact_memory m = some m1 ∧
      m1.block_owner.length = BLOCK_COUNT ∧ m1.memory_pool.length = POOL_SIZE ∧
      (List.range (occupied m).length).map (block_entry m1) = occupied m ∧
      (∀ b, b < (occupied m).length → m1.block_owner.getD b 0 ≠ 0) ∧
      (∀ b, (occupied m).length ≤ b → b < BLOCK_COUNT → m1.block_owner.getD b 0 = 0) ∧
      occupied m1 = occupied m ∧
      (∀ pid, pid ≠ 0 → m1.block_owner.count pid = m.block_owner.count pid) := by
  have hinit : CompactInv m { mem := m, target_index := 0, moves := 0, i := 0 } :=
    ⟨ho, hp, le_refl _, Nat.zero_le _, by simp, fun b h1 h2 => by simp only [] at h1 h2; omega,
      fun b _ _ => rfl⟩
  obtain ⟨s1, hloop, hinv, hend⟩ := compact_loop_spec m (BLOCK_COUNT + 1) _ hinit
    (by show BLOCK_COUNT - 0 + 1 ≤ BLOCK_COUNT + 1; omega)
  obtain ⟨l1, l2, l3, l4, l5, l6, l7⟩ := hinv
  rw [hend] at l3 l5 l6
  have hpacked : (List.range s1.target_index).map (block_entry s1.mem) = occupied m := l5
  have htl : s1.target_index = (occupied m).length := by
    have := congrArg List.length hpacked
    simpa using this
  have hocc : ∀ b, b < s1.target_index → s1.mem.block_owner.getD b 0 ≠ 0 := by
    intro b hb
    have hmem : block_entry s1.mem b ∈ occupied m := by
      rw [← hpacked]
      exact List.mem_map_of_mem _ (List.mem_range.mpr hb)
    exact occupied_fst_ne m _ hmem
  have hocc1 : occupied s1.mem = occupied m := by
    rw [← hpacked]
    simp only [occupied]
    congr 1
    apply filter_range_below _ _ _ l3
    intro b hb
    constructor
    · intro h
      by_contra hge
      exact of_decide_eq_true h (l6 b (by omega) hb)
    · intro h
      exact decide_eq_true (hocc b h)
  refine ⟨s1.mem, ?_, l1, l2, ?_, ?_, ?_, hocc1, ?_⟩
  · simp only [compact_memory, hloop, Option.map_some']
  · rw [← htl]
    exact hpacked
  · rw [← htl]
    exact hocc
  · rw [← htl]
    exact l6
  · intro pid hpid
    rw [count_owner_occupied s1.mem l1 pid hpid, count_owner_occupied m ho pid hpid, hocc1]

theorem compaction_is_stable_witness :
    fragmented.block_owner.length = BLOCK_COUNT ∧ fragmented.memory_pool.length = POOL_SIZE ∧
    ∃ m1, compact_memory fragmented = some m1 ∧
      m1.block_owner.length = BLOCK_COUNT ∧ m1.memory_pool.length = POOL_SIZE ∧
      (List.range (occupied fragmented).length).map (block_entry m1) = occupied fragmented ∧
      (∀ b, b < (occupied fragmented).length → m1.block_owner.getD b 0 ≠ 0) ∧
      (∀ b, (occupied fragmented).length ≤ b → b < BLOCK_COUNT →
        m1.block_owner.getD b 0 = 0) ∧
      occupied m1 = occupied fragmented ∧
      (∀ pid, pid ≠ 0 → m1.block_owner.count pid = fragmented.block_owner.count pid) :=
  ⟨by decide, List.length_replicate POOL_SIZE 0,
    compaction_is_stable fragmented (by decide) (List.length_replicate POOL_SIZE 0)⟩

/-! ## `my_free` -/

theorem list_eq_of_getD (l1 l2 : List Int) (hl : l1.length = l2.length)
    (h : ∀ b, l1.getD b 0 = l2.getD b 0) : l1 = l2 := by
  apply List.ext_getElem hl
  intro n h1 h2
  have := h n
  simpa [List.getD_eq_getElem?_getD, List.getElem?_eq_getElem h1,
    List.getElem?_eq_getElem h2] using this

theorem set_zero_self (l : List Int) (i : Nat) (h : l.getD i 0 = 0) : l.set i 0 = l := by
  apply list_eq_of_getD _ _ (by simp)
  intro b
  rw [DiskSim.getD_set_any]
  split_ifs with hc
  · rw [← hc.1, h]
  · rfl

/-- The search of `my_free` returns the first index whose entry is `ptr`. -/
theorem find_block_spec (ptrs : List (Option Nat)) (ptr : Option Nat) (s : Nat)
    (hs : s < BLOCK_COUNT) (hat : ptrs.getD s none = ptr) :
    ∀ (fuel i : Nat), s < i + fuel → i ≤ s →
      (∀ j, i ≤ j → j < s → ptrs.getD j none ≠ ptr) →
      find_block ptrs ptr fuel i = (s : Int) := by
  intro fuel
  induction fuel with
  | zero => intro i h1 h2 _; omega
  | succ f ih =>
    intro i h1 h2 hbefore
    have hi : i < BLOCK_COUNT := by omega
    rw [find_block, if_pos hi]
    by_cases he : i = s
    · subst he
      rw [if_pos hat]
    · rw [if_neg (hbefore i (le_refl _) (by omega))]
      exact ih (i + 1) (by omega) (by omega) (fun j g1 g2 => hbefore j (by omega) g2)

/-- The freeing loop from block `i`, when `pid` owns exactly the blocks
`i .. e - 1` of the run that starts at `i`: these owners become 0 and no
other owner changes. -/
theorem free_blocks_spec (pid : Int) :
    ∀ (fuel i : Nat) (m : Memory) (e : Nat), i ≤ e → e ≤ BLOCK_COUNT → e ≤ i + fuel →
      m.block_owner.length = BLOCK_COUNT →
      (∀ j, i ≤ j → j < e → m.block_owner.getD j 0 = pid) →
      (e < BLOCK_COUNT → m.block_owner.getD e 0 ≠ pid) →
      (free_blocks pid fuel i m).block_owner.length = BLOCK_COUNT ∧
        ∀ b, (free_blocks pid fuel i m).block_owner.getD b 0
          = if i ≤ b ∧ b < e then 0 else m.block_owner.getD b 0 := by
  intro fuel
  induction fuel with
  | zero =>
    intro i m e h1 h2 h3 hl _ _
    refine ⟨hl, fun b => ?_⟩
    have : ¬ (i ≤ b ∧ b < e) := by omega
    rw [if_neg this]
    rfl
  | succ f ih =>
    intro i m e h1 h2 h3 hl hrun hend
    rw [free_blocks]
    by_cases hie : i = e
    · subst hie
      have hc : ¬ (i < BLOCK_COUNT ∧ m.block_owner.getD i 0 = pid) := fun h => hend h.1 h.2
      rw [if_neg hc]
      refine ⟨hl, fun b => ?_⟩
      have : ¬ (i ≤ b ∧ b < i) := by omega
      rw [if_neg this]
    · have hc : i < BLOCK_COUNT ∧ m.block_owner.getD i 0 = pid :=
        ⟨by omega, hrun i (le_refl _) (by omega)⟩
      rw [if_pos hc]
      obtain ⟨rl, rg⟩ := ih (i + 1)
        { m with
          block_owner := m.block_owner.set i 0
          ptr_to_block := m.ptr_to_block.set i none } e (by omega) h2 (by omega)
        (by simp [hl])
        (by
          intro j g1 g2
          show (m.block_owner.set i 0).getD j 0 = pid
          rw [DiskSim.getD_set_any, if_neg (by omega)]
          exact hrun j (by omega) g2)
        (by
          intro g
          show (m.block_owner.set i 0).getD e 0 ≠ pid
          rw [DiskSim.getD_set_any, if_neg (by omega)]
          exact hend g)
      refine ⟨rl, fun b => ?_⟩
      rw [rg b]
      show (if i + 1 ≤ b ∧ b < e then 0 else (m.block_owner.set i 0).getD b 0) = _
      rw [DiskSim.getD_set_any]
      by_cases hb : i = b
      · subst hb
        rw [if_neg (by omega), if_pos ⟨rfl, by omega⟩, if_pos (by omega)]
      · rw [if_neg (fun h : i = b ∧ i < m.block_owner.length => hb h.1)]
        by_cases hr : i + 1 ≤ b ∧ b < e
        · rw [if_pos hr, if_pos (by omega)]
        · rw [if_neg hr, if_neg (by omega)]

/-- The freeing loop for owner value 0 changes no owner. -/
theorem free_blocks_zero :
    ∀ (fuel i : Nat) (m : Memory), (free_blocks 0 fuel i m).block_owner = m.block_owner := by
  intro fuel
  induction fuel with
  | zero => intro i m; rfl
  | succ f ih =>
    intro i m
    rw [free_blocks]
    split_ifs with hc
    · rw [ih]
      exact set_zero_self _ _ hc.2
    · rfl

/-- The scan of `my_malloc` for a block count that is not positive: it stops
at the first free block, marks nothing and records the pointer. -/
theorem malloc_scan_nonpos (pid : Int) (needed : Int) (hn : needed ≤ 0) (m : Memory) :
    ∀ (fuel i : Nat) (start : Int),
      malloc_scan pid needed m fuel i 0 start = (none, m) ∨
      ∃ s0, s0 < BLOCK_COUNT ∧ m.block_owner.getD s0 0 = 0 ∧
        malloc_scan pid needed m fuel i 0 start
          = (some (s0 * BLOCK_SIZE),
              { m with ptr_to_block := m.ptr_to_block.set s0 (some (s0 * BLOCK_SIZE)) }) := by
  intro fuel
  induction fuel with
  | zero => intro i start; left; rfl
  | succ f ih =>
    intro i start
    rw [malloc_scan]
    by_cases hi : i < BLOCK_COUNT
    · rw [if_pos hi]
      by_cases ho : m.block_owner.getD i 0 = 0
      · right
        refine ⟨i, hi, ho, ?_⟩
        rw [if_pos ho]
        have hm : mark_blocks m.block_owner pid (i : Int) needed = m.block_owner := by
          simp [mark_blocks, Int.toNat_of_nonpos hn]
        simp only [if_true, Int.toNat_ofNat, hm]
        rw [if_pos (by omega)]
      · rw [if_neg ho]
        exact ih (i + 1) start
    · rw [if_neg hi]
      left
      rfl

/-- A successful `my_malloc` returns the address of a block `s0` that starts a
free run of `blocks_needed` blocks (of no block when `blocks_needed ≤ 0`, and
then block `s0` itself is free), marks this run and records the pointer. -/
theorem my_malloc_some (size : Nat) (pid : Int) (m : Memory) (p : Nat)
    (hm : (my_malloc size pid m).1 = some p) :
    ∃ s0, p = s0 * BLOCK_SIZE ∧ s0 < BLOCK_COUNT ∧ m.block_owner.getD s0 0 = 0 ∧
      FreeRun m.block_owner s0 (blocks_needed size).toNat ∧
      (my_malloc size pid m).2
        = { m with
            block_owner := mark_blocks m.block_owner pid (s0 : Int)
              (((blocks_needed size).toNat : Nat) : Int)
            ptr_to_block := m.ptr_to_block.set s0 (some (s0 * BLOCK_SIZE)) } := by
  by_cases hn : blocks_needed size ≤ 0
  · have hk : (blocks_needed size).toNat = 0 := Int.toNat_of_nonpos hn
    rcases malloc_scan_nonpos pid (blocks_needed size) hn m BLOCK_COUNT 0 (-1) with h | h
    · rw [my_malloc, h] at hm
      exact absurd hm (by simp)
    · obtain ⟨s0, h1, h2, h3⟩ := h
      rw [my_malloc, h3] at hm
      refine ⟨s0, ?_, h1, h2, ?_, ?_⟩
      · simpa using hm.symm
      · rw [hk]
        exact ⟨by omega, fun j hj => by omega⟩
      · rw [my_malloc, h3, hk]
        simp [mark_blocks]
  · have hk1 : 1 ≤ (blocks_needed size).toNat := by omega
    have hcast : (((blocks_needed size).toNat : Nat) : Int) = blocks_needed size :=
      Int.toNat_of_nonneg (by omega)
    have := malloc_scan_spec pid _ hk1 m BLOCK_COUNT 0 0 (-1) (by omega) (by omega)
      (le_refl _) (by omega) (by intro h; omega) (by intro j h1 h2; omega)
      (by intro s h; omega)
    rw [hcast, Nat.cast_zero] at this
    rcases this with ⟨s0, hrun, _, heq⟩ | ⟨_, heq⟩
    · rw [my_malloc, heq] at hm
      have hs0 : s0 < BLOCK_COUNT := by
        have := hrun.1
        omega
      refine ⟨s0, ?_, hs0, ?_, hrun, ?_⟩
      · simpa using hm.symm
      · simpa using hrun.2 0 (by omega)
      · rw [my_malloc, heq, hcast]
    · rw [my_malloc, heq] at hm
      exact absurd hm (by simp)

/-- C21: from any state whose arrays have `BLOCK_COUNT` entries and in which
every non-`NULL` `ptr_to_block[i]` is the address of block `i`, if `my_malloc`
returns a pointer `p`, then `p` is the address of block `s = p / BLOCK_SIZE`
and the owners of the `k = blocks_needed` blocks `s .. s + k - 1` are set to
`pid`; if moreover block `s + k` (when it exists) was not owned by `pid`, then
`my_free p` sets exactly the owners of these `k` blocks back to 0, so that
`block_owner` is what it was before the allocation.  This holds for every
`size` and `pid`, in particular for `size ≥ 1` and `pid ≠ 0`. -/
theorem free_undoes_malloc (m : Memory) (size : Nat) (pid : Int) (p : Nat)
    (ho : m.block_owner.length = BLOCK_COUNT) (hp : m.ptr_to_block.length = BLOCK_COUNT)
    (hwf : ∀ i q, i < BLOCK_COUNT → m.ptr_to_block.getD i none = some q → q = i * BLOCK_SIZE)
    (hm : (my_malloc size pid m).1 = some p)
    (hnext : p / BLOCK_SIZE + (blocks_needed size).toNat < BLOCK_COUNT →
      m.block_owner.getD (p / BLOCK_SIZE + (blocks_needed size).toNat) 0 ≠ pid) :
    p = p / BLOCK_SIZE * BLOCK_SIZE ∧
    p / BLOCK_SIZE + (blocks_needed size).toNat ≤ BLOCK_COUNT ∧
    (∀ b, (my_malloc size pid m).2.block_owner.getD b 0
      = if p / BLOCK_SIZE ≤ b ∧ b < p / BLOCK_SIZE + (blocks_needed size).toNat then pid
        else m.block_owner.getD b 0) ∧
    (∀ b, (my_free (some p) (my_malloc size pid m).2).block_owner.getD b 0
      = if p / BLOCK_SIZE ≤ b ∧ b < p / BLOCK_SIZE + (blocks_needed size).toNat then 0
        else (my_malloc size pid m).2.block_owner.getD b 0) ∧
    (my_free (some p) (my_malloc size pid m).2).block_owner = m.block_owner := by
  obtain ⟨s0, hp0, hs0, hfree0, hrun, heq⟩ := my_malloc_some size pid m p hm
  have hdiv : p / BLOCK_SIZE = s0 := by
    rw [hp0]
    simp [BLOCK_SIZE]
  rw [hdiv] at hnext ⊢
  obtain ⟨k, hk⟩ : ∃ k, k = (blocks_needed size).toNat := ⟨_, rfl⟩
  rw [← hk] at hnext hrun heq ⊢
  obtain ⟨ml, mg⟩ := mark_blocks_spec m.block_owner pid s0 k (by rw [ho]; exact hrun.1)
  have hle : s0 ≤ s0 + k := Nat.le_add_right s0 k
  have hfuel : s0 + k ≤ s0 + BLOCK_COUNT := by
    have := hrun.1
    omega
  -- the search of `my_free` finds block `s0`
  have hfind : find_block (m.ptr_to_block.set s0 (some (s0 * BLOCK_SIZE))) (some p)
      BLOCK_COUNT 0 = (s0 : Int) := by
    apply find_block_spec _ _ s0 hs0 _ BLOCK_COUNT 0 (by omega) (by omega)
    · intro j _ hj
      rw [DiskSim.getD_set_any, if_neg (by omega)]
      intro hc
      have := hwf j p (by omega) hc
      rw [hp0] at this
      simp only [BLOCK_SIZE] at this
      omega
    · rw [DiskSim.getD_set_any, if_pos ⟨rfl, by rw [hp]; exact hs0⟩, hp0]
  have hfreeeq : my_free (some p) (my_malloc size pid m).2
      = free_blocks ((mark_blocks m.block_owner pid (s0 : Int) (k : Int)).getD s0 0)
          BLOCK_COUNT s0 (my_malloc size pid m).2 := by
    rw [heq]
    simp only [my_free, hfind, reduceCtorEq, if_false, Int.toNat_ofNat]
  have hafter : ∀ b, (my_free (some p) (my_malloc size pid m).2).block_owner.getD b 0
      = if s0 ≤ b ∧ b < s0 + k then 0 else (my_malloc size pid m).2.block_owner.getD b 0 := by
    rw [hfreeeq]
    by_cases hk0 : k = 0
    · subst hk0
      intro b
      have h0 : (mark_blocks m.block_owner pid (s0 : Int) ((0 : Nat) : Int)).getD s0 0 = 0 := by
        rw [mg s0, if_neg (by omega)]
        exact hfree0
      rw [h0, free_blocks_zero, if_neg (by omega)]
    · have hpid : (mark_blocks m.block_owner pid (s0 : Int) (k : Int)).getD s0 0 = pid := by
        rw [mg s0, if_pos (by omega)]
      rw [hpid]
      have hmo : (my_malloc size pid m).2.block_owner
          = mark_blocks m.block_owner pid (s0 : Int) (k : Int) := by rw [heq]
      have := (free_blocks_spec pid BLOCK_COUNT s0 (my_malloc size pid m).2 (s0 + k)
        hle hrun.1 hfuel (by rw [hmo, ml, ho])
        (by
          intro j g1 g2
          rw [hmo, mg j, if_pos ⟨g1, g2⟩])
        (by
          intro g
          rw [hmo, mg (s0 + k), if_neg (by omega)]
          exact hnext g)).2
      exact this
  have hmalloc : ∀ b, (my_malloc size pid m).2.block_owner.getD b 0
      = if s0 ≤ b ∧ b < s0 + k then pid else m.block_owner.getD b 0 := by
    intro b
    rw [heq]
    exact mg b
  refine ⟨by rw [hp0], hrun.1, hmalloc, hafter, ?_⟩
  apply list_eq_of_getD
  · rw [hfreeeq, ho]
    by_cases hk0 : k = 0
    · subst hk0
      have h0 : (mark_blocks m.block_owner pid (s0 : Int) ((0 : Nat) : Int)).getD s0 0 = 0 := by
        rw [mg s0, if_neg (by omega)]
        exact hfree0
      rw [h0, free_blocks_zero, heq]
      show (mark_blocks m.block_owner pid (s0 : Int) ((0 : Nat) : Int)).length = BLOCK_COUNT
      rw [ml, ho]
    · have hpid : (mark_blocks m.block_owner pid (s0 : Int) (k : Int)).getD s0 0 = pid := by
        rw [mg s0, if_pos (by omega)]
      rw [hpid]
      have hmo : (my_malloc size pid m).2.block_owner
          = mark_blocks m.block_owner pid (s0 : Int) (k : Int) := by rw [heq]
      exact (free_blocks_spec pid BLOCK_COUNT s0 (my_malloc size pid m).2 (s0 + k)
        hle hrun.1 hfuel (by rw [hmo, ml, ho])
        (by
          intro j g1 g2
          rw [hmo, mg j, if_pos ⟨g1, g2⟩])
        (by
          intro g
          rw [hmo, mg (s0 + k), if_neg (by omega)]
          exact hnext g)).1
  · intro b
    rw [hafter b, hmalloc b]
    by_cases hb : s0 ≤ b ∧ b < s0 + k
    · rw [if_pos hb]
      have := hrun.2 (b - s0) (by omega)
      rw [show s0 + (b - s0) = b by omega] at this
      exact this.symm
    · rw [if_neg hb, if_neg hb]

theorem free_undoes_malloc_witness :
    fragmented.block_owner.length = BLOCK_COUNT ∧ (my_malloc 200 49 fragmented).1 = some 384 ∧
    (∀ b, (my_free (some 384) (my_malloc 200 49 fragmented).2).block_owner.getD b 0
      = if 384 / BLOCK_SIZE ≤ b ∧ b < 384 / BLOCK_SIZE + (blocks_needed 200).toNat then 0
        else (my_malloc 200 49 fragmented).2.block_owner.getD b 0) ∧
    (my_free (some 384) (my_malloc 200 49 fragmented).2).block_owner
      = fragmented.block_owner :=
  have h := free_undoes_malloc fragmented 200 49 384 (by decide!) (by decide!)
    (by
      intro i q hi
      have hall : ∀ j, j < BLOCK_COUNT →
          fragmented.ptr_to_block.getD j none = none ∨
            fragmented.ptr_to_block.getD j none = some (j * BLOCK_SIZE) := by decide!
      rcases hall i hi with h | h
      · rw [h]
        intro hc
        exact absurd hc (by simp)
      · rw [h]
        intro hc
        exact (Option.some.inj hc).symm)
    (by decide!) (by decide!)
  ⟨by decide!, by decide!, h.2.2.2.1, h.2.2.2.2⟩

end MemPool

namespace Trapezoid

/-! ## `split_work` -/

theorem wrap64_id (x : Int) (h1 : -2 ^ 63 ≤ x) (h2 : x < 2 ^ 63) : wrap64 x = x := by
  simp only [wrap64]
  omega

/-- In the ranges of its types `split_work` returns the closed forms: no
result that reaches `*start` or `*count` is changed by the 64-bit
reduction. -/
theorem split_work_eq (n size rank : Int) (hn : 0 ≤ n) (hn2 : n < 2 ^ 63) (hs : 1 ≤ size)
    (hs2 : size < 2 ^ 31) (hr0 : 0 ≤ rank) (hr1 : rank < size) :
    split_work n size rank = some (split_start n size rank, split_count n size rank) := by
  have hsize : size ≠ 0 := by omega
  have hdiv : Int.tdiv n size = n / size := Int.tdiv_eq_ediv hn (by omega)
  have hmod : Int.tmod n size = n % size := Int.tmod_eq_emod hn (by omega)
  have hb0 : 0 ≤ n / size := Int.ediv_nonneg hn (by omega)
  have hm0 : 0 ≤ n % size := Int.emod_nonneg n hsize
  have hm1 : n % size < size := Int.emod_lt_of_pos n (by omega)
  have hdecomp : size * (n / size) + n % size = n := Int.ediv_add_emod n size
  have hbn : n / size ≤ n := by nlinarith
  have hbase : wrap64 (n / size) = n / size := wrap64_id _ (by omega) (by omega)
  simp only [split_work, if_neg hsize, hdiv, hmod, hbase, split_start, split_count]
  by_cases hlt : rank < n % size
  · rw [if_pos hlt, if_pos hlt]
    have hb1 : n / size + 1 ≤ n := by
      nlinarith [mul_nonneg (by omega : (0 : Int) ≤ size - 1) hb0]
    have hc : wrap64 (n / size + 1) = n / size + 1 := wrap64_id _ (by omega) (by omega)
    have hprod : rank * (n / size + 1) ≤ n := by nlinarith
    have hprod0 : 0 ≤ rank * (n / size + 1) := by positivity
    rw [hc, wrap64_id _ (by omega) (by omega), min_eq_left (le_of_lt hlt)]
    congr 2
    ring
  · rw [if_neg hlt, if_neg hlt]
    have hle : n % size ≤ rank := not_lt.mp hlt
    have hfirst : wrap64 (n % size * wrap64 (n / size + 1)) = n % size * (n / size + 1) := by
      by_cases hz : n % size = 0
      · rw [hz]
        simp [wrap64]
      · have hr1 : 1 ≤ n % size := by omega
        have hb1 : n / size + 1 ≤ n := by
          nlinarith [mul_nonneg (by omega : (0 : Int) ≤ size - 1) hb0]
        have hc : wrap64 (n / size + 1) = n / size + 1 := wrap64_id _ (by omega) (by omega)
        have hp : n % size * (n / size + 1) ≤ n := by nlinarith
        have hp0 : 0 ≤ n % size * (n / size + 1) := by positivity
        rw [hc, wrap64_id _ (by omega) (by omega)]
    have hsub : wrap64 (rank - n % size) = rank - n % size :=
      wrap64_id _ (by omega) (by omega)
    have hq : (rank - n % size) * (n / size) ≤ n := by nlinarith
    have hq0 : 0 ≤ (rank - n % size) * (n / size) := mul_nonneg (by omega) hb0
    have hsecond : wrap64 ((rank - n % size) * (n / size)) = (rank - n % size) * (n / size) :=
      wrap64_id _ (by omega) (by omega)
    have hsum : n % size * (n / size + 1) + (rank - n % size) * (n / size) ≤ n := by nlinarith
    have hp0 : 0 ≤ n % size * (n / size + 1) := by positivity
    rw [hfirst, hsub, hsecond, wrap64_id _ (by omega) (by omega), min_eq_right hle]
    congr 2
    · ring
    · simp

theorem split_start_succ (n size rank : Int) :
    split_start n size (rank + 1) = split_start n size rank + split_count n size rank := by
  simp only [split_start, split_count]
  have e : (rank + 1) * (n / size) = rank * (n / size) + n / size := by ring
  rw [e]
  split_ifs <;> omega

theorem split_count_nonneg (n size rank : Int) (hn : 0 ≤ n) (hs : 1 ≤ size) :
    0 ≤ split_count n size rank := by
  have hb0 : 0 ≤ n / size := Int.ediv_nonneg hn (by omega)
  simp only [split_count]
  split_ifs <;> omega

theorem split_start_mono (n size : Int) (hn : 0 ≤ n) (hs : 1 ≤ size) (a b : Int)
    (hab : a ≤ b) : split_start n size a ≤ split_start n size b := by
  have hb0 : 0 ≤ n / size := Int.ediv_nonneg hn (by omega)
  simp only [split_start]
  have h1 : a * (n / size) ≤ b * (n / size) := mul_le_mul_of_nonneg_right hab hb0
  have h2 : min a (n % size) ≤ min b (n % size) := min_le_min_right _ hab
  omega

theorem split_cover (n size : Int) (i : Int) (hi : 0 ≤ i) :
    ∀ m : Nat, i < split_start n size (m : Int) →
      ∃ rank : Int, 0 ≤ rank ∧ rank < (m : Int) ∧ split_start n size rank ≤ i ∧
        i < split_start n size rank + split_count n size rank := by
  intro m
  induction m with
  | zero =>
    intro h
    simp [split_start] at h
    omega
  | succ k ih =>
    intro h
    by_cases hk : i < split_start n size (k : Int)
    · obtain ⟨rank, h1, h2, h3, h4⟩ := ih hk
      exact ⟨rank, h1, by push_cast; omega, h3, h4⟩
    · refine ⟨(k : Int), by omega, by push_cast; omega, not_lt.mp hk, ?_⟩
      rw [← split_start_succ]
      exact_mod_cast h

/-- C22: for every `n` in `[0, 2^63)` and `size` in `[1, 2^31)`, `split_work`
returns for every rank `0 .. size - 1` a pair `(start, count)` with
`count ≥ 0` such that `start(0) = 0`, `start(r + 1) = start(r) + count(r)` and
`start(size - 1) + count(size - 1) = n`; every index of `[0, n)` lies in the
range `[start, start + count)` of exactly one rank. -/
theorem split_work_tiles (n size : Int) (hn : 0 ≤ n) (hn2 : n < 2 ^ 63) (hs : 1 ≤ size)
    (hs2 : size < 2 ^ 31) :
    (∀ rank, 0 ≤ rank → rank < size →
      split_work n size rank = some (split_start n size rank, split_count n size rank) ∧
        0 ≤ split_count n size rank) ∧
    split_start n size 0 = 0 ∧
    (∀ rank, 0 ≤ rank → rank + 1 < size →
      split_start n size (rank + 1) = split_start n size rank + split_count n size rank) ∧
    split_start n size (size - 1) + split_count n size (size - 1) = n ∧
    (∀ i, 0 ≤ i → i < n →
      ∃ rank, (0 ≤ rank ∧ rank < size ∧ split_start n size rank ≤ i ∧
          i < split_start n size rank + split_count n size rank) ∧
        ∀ rank2, 0 ≤ rank2 → rank2 < size → split_start n size rank2 ≤ i →
          i < split_start n size rank2 + split_count n size rank2 → rank2 = rank) := by
  have hsize : size ≠ 0 := by omega
  have hm0 : 0 ≤ n % size := Int.emod_nonneg n hsize
  have hm1 : n % size < size := Int.emod_lt_of_pos n (by omega)
  have hdecomp : size * (n / size) + n % size = n := Int.ediv_add_emod n size
  have hend : split_start n size size = n := by
    simp only [split_start]
    rw [min_eq_right (le_of_lt hm1)]
    exact hdecomp
  refine ⟨?_, ?_, ?_, ?_, ?_⟩
  · intro rank h0 h1
    exact ⟨split_work_eq n size rank hn hn2 hs hs2 h0 h1, split_count_nonneg n size rank hn hs⟩
  · simp only [split_start]
    omega
  · intro rank _ _
    exact split_start_succ n size rank
  · rw [← split_start_succ]
    simpa using hend
  · intro i hi0 hi1
    obtain ⟨m, hm⟩ := Int.eq_ofNat_of_zero_le (by omega : 0 ≤ size)
    obtain ⟨rank, h1, h2, h3, h4⟩ := split_cover n size i hi0 m (by rw [← hm, hend]; exact hi1)
    refine ⟨rank, ⟨h1, by omega, h3, h4⟩, ?_⟩
    intro rank2 g1 g2 g3 g4
    by_contra hne
    rcases lt_or_gt_of_ne hne with hlt | hgt
    · have := split_start_mono n size hn hs (rank2 + 1) rank (by omega)
      rw [split_start_succ] at this
      omega
    · have := split_start_mono n size hn hs (rank + 1) rank2 (by omega)
      rw [split_start_succ] at this
      omega

theorem split_work_tiles_witness :
    (0 : Int) ≤ 10 ∧ (10 : Int) < 2 ^ 63 ∧ (1 : Int) ≤ 4 ∧ (4 : Int) < 2 ^ 31 ∧
    (∀ rank, 0 ≤ rank → rank < 4 →
      split_work 10 4 rank = some (split_start 10 4 rank, split_count 10 4 rank) ∧
        0 ≤ split_count 10 4 rank) ∧
    split_start 10 4 0 = 0 ∧
    (∀ rank, 0 ≤ rank → rank + 1 < 4 →
      split_start 10 4 (rank + 1) = split_start 10 4 rank + split_count 10 4 rank) ∧
    split_start 10 4 (4 - 1) + split_count 10 4 (4 - 1) = 10 ∧
    (∀ i, 0 ≤ i → i < 10 →
      ∃ rank, (0 ≤ rank ∧ rank < 4 ∧ split_start 10 4 rank ≤ i ∧
          i < split_start 10 4 rank + split_count 10 4 rank) ∧
        ∀ rank2, 0 ≤ rank2 → rank2 < 4 → split_start 10 4 rank2 ≤ i →
          i < split_start 10 4 rank2 + split_count 10 4 rank2 → rank2 = rank) :=
  ⟨by decide, by decide, by decide, by decide,
    split_work_tiles 10 4 (by decide) (by decide) (by decide) (by decide)⟩

end Trapezoid
